import Mathlib

/-!
Verification of the NextSearch index storage engine and query evaluator.

This development shallowly embeds the core of the C++ implementation:
the binary I/O primitives (indexio.hpp), the CSV row parser
(api_metadata.cpp), the segment writer (segment_writer.hpp), the segment
reader (api_segment.cpp), the single-document append path
(api_add_document.cpp / api_segment.cpp), the LRU caches and the search
pipeline (api_engine.cpp), and the autocomplete trie (api_autocomplete.cpp).

Bytes are modelled as natural numbers (the value of the octet), files as
lists of bytes, and C++ strings as lists of bytes.  Machine integers are
modelled as Nat with explicit reductions modulo 2^32 / 2^64 where the
source truncates.  Fallible reads are modelled with Option; where the
source reads from a stream without checking for end of file, the model
makes the unchecked value explicit (see the posting-read model used for
the query evaluator).
-/

set_option maxHeartbeats 1600000

/-- A byte: the numeric value of one octet in a file.  Writers only produce
values < 256; readers treat the list entry as the octet value. -/
abbrev Byte := Nat

/-- Convert a Lean string literal to the byte list of its characters
(used to write concrete test inputs; all inputs used are ASCII). -/
def bytes (s : String) : List Byte := s.data.map Char.toNat

/-- indexio.hpp write_u32: little-endian 4-byte encoding of a 32-bit value.
The C++ source writes the 4 bytes of the uint32_t; a wider value passed
through a cast is truncated, hence the mod 2^8 on each byte. -/
def write_u32 (v : Nat) : List Byte :=
  [v % 256, v / 256 % 256, v / 65536 % 256, v / 16777216 % 256]

/-- indexio.hpp write_u64: little-endian 8-byte encoding of a 64-bit value. -/
def write_u64 (v : Nat) : List Byte :=
  [v % 256, v / 256 % 256, v / 65536 % 256, v / 16777216 % 256,
   v / 4294967296 % 256, v / 1099511627776 % 256,
   v / 281474976710656 % 256, v / 72057594037927936 % 256]

/-- indexio.hpp read_u32: consume 4 bytes little-endian.  Returns none when
the stream is exhausted (the C++ leaves the output indeterminate there;
call sites that do check the stream state never use that value, and the
one call site that does not check is modelled separately). -/
def read_u32 : List Byte → Option (Nat × List Byte)
  | b0 :: b1 :: b2 :: b3 :: rest =>
      some (b0 + 256 * b1 + 65536 * b2 + 16777216 * b3, rest)
  | _ => none

/-- indexio.hpp read_u64: consume 8 bytes little-endian. -/
def read_u64 : List Byte → Option (Nat × List Byte)
  | b0 :: b1 :: b2 :: b3 :: b4 :: b5 :: b6 :: b7 :: rest =>
      some (b0 + 256 * b1 + 65536 * b2 + 16777216 * b3 +
            4294967296 * b4 + 1099511627776 * b5 +
            281474976710656 * b6 + 72057594037927936 * b7, rest)
  | _ => none

/-- indexio.hpp write_string: u32 length prefix, then the raw bytes. -/
def write_string (s : List Byte) : List Byte :=
  write_u32 s.length ++ s

/-- indexio.hpp read_string: read the u32 length, then that many bytes. -/
def read_string (l : List Byte) : Option (List Byte × List Byte) :=
  (read_u32 l).bind (fun r =>
    if r.1 ≤ r.2.length then some (r.2.take r.1, r.2.drop r.1) else none)

/-! ## CSV row parser (api_metadata.cpp csv_row) -/

/-- api_metadata.cpp csv_row, inner loop.  State: remaining input, the
in-quotes flag, and the current column accumulated in reverse.  A quote
byte (34) toggles the flag and is dropped; a comma byte (44) outside
quotes closes the column; every other byte is appended. -/
def csvRowAux : List Byte → Bool → List Byte → List (List Byte)
  | [], _, cur => [cur.reverse]
  | c :: rest, inq, cur =>
      if c = 34 then csvRowAux rest (!inq) cur
      else if !inq && c = 44 then cur.reverse :: csvRowAux rest false []
      else csvRowAux rest inq (c :: cur)

/-- api_metadata.cpp csv_row: split one CSV line into its columns. -/
def csv_row (line : List Byte) : List (List Byte) :=
  csvRowAux line false []

/-- Splitting stage of the specification reading of the parser: split the
line on commas that sit outside double-quoted sections, KEEPING the quote
bytes inside the columns.  Used to state what csv_row computes. -/
def csvSplitOutsideQuotes : List Byte → Bool → List Byte → List (List Byte)
  | [], _, cur => [cur.reverse]
  | c :: rest, inq, cur =>
      if c = 34 then csvSplitOutsideQuotes rest (!inq) (c :: cur)
      else if !inq && c = 44 then cur.reverse :: csvSplitOutsideQuotes rest false []
      else csvSplitOutsideQuotes rest inq (c :: cur)

/-- Specification reading of csv_row: split on commas outside quoted
sections, then drop every double-quote byte from each column.  Under this
reading a doubled quote contributes nothing to the column value. -/
def csvColumnsSpec (line : List Byte) : List (List Byte) :=
  (csvSplitOutsideQuotes line false []).map (List.filter (fun c => c ≠ 34))

/-! ## LRU caches (api_engine.cpp get_from_cache / put_in_cache)

The three caches of the engine share one implementation shape: an
unordered_map from key to entry plus a std::list of keys with the most
recently used key at the front; each entry stores an iterator to its key
in the list.  The map is modelled as an association list whose order is
irrelevant (all access is through cacheFind), the LRU list as a list of
keys, and the stored iterators as erase-by-key (keys in the list are
unique in every reachable state, so the iterator stored in an entry
always designates the unique occurrence of its key). -/

/-- One cache slot: the key/value association list of the unordered_map
and the LRU key list (front = most recently used). -/
structure LruCache (V : Type) where
  cache : List (String × V)
  lru_list : List String


/-- A fresh cache, as after Engine construction. -/
def emptyCache (V : Type) : LruCache V := ⟨[], []⟩

/-- unordered_map::find modelled on the association list. -/
def cacheFind {V : Type} (key : String) (m : List (String × V)) : Option V :=
  (m.find? (fun p => p.1 == key)).map Prod.snd

/-- api_engine.cpp Engine::get_from_cache: on a miss return the empty
result and leave the cache alone; on a hit move the key to the front of
the LRU list and return the cached value (the C++ returns a copy with a
from_cache marker added; the marker is modelled at the search level). -/
def get_from_cache {V : Type} (key : String) (st : LruCache V) :
    Option V × LruCache V :=
  match cacheFind key st.cache with
  | none => (none, st)
  | some v =>
      (some v, { cache := st.cache, lru_list := key :: st.lru_list.erase key })

/-- api_engine.cpp Engine::put_in_cache with capacity C: update in place
and move to front when the key exists; otherwise evict the back of the
LRU list when the map holds at least C entries, then insert at the front.
The periodic save to disk has no effect on the in-memory state and is
modelled separately. -/
def put_in_cache {V : Type} (C : Nat) (key : String) (v : V)
    (st : LruCache V) : LruCache V :=
  if (cacheFind key st.cache).isSome then
    { cache := st.cache.map (fun p => if p.1 == key then (key, v) else p),
      lru_list := key :: st.lru_list.erase key }
  else
    let st1 :=
      if C ≤ st.cache.length then
        match st.lru_list.getLast? with
        | some evict =>
            if (cacheFind evict st.cache).isSome then
              { cache := st.cache.eraseP (fun p => p.1 == evict),
                lru_list := st.lru_list.erase evict }
            else st
        | none => st
      else st
    { cache := (key, v) :: st1.cache, lru_list := key :: st1.lru_list }

/-- A get or a put, the two cache operations the engine performs. -/
inductive CacheOp (V : Type) where
  | get (key : String)
  | put (key : String) (v : V)

/-- Apply one cache operation (the state part of get, or put). -/
def applyCacheOp {V : Type} (C : Nat) (st : LruCache V) :
    CacheOp V → LruCache V
  | .get key => (get_from_cache key st).2
  | .put key v => put_in_cache C key v st

/-- Run a sequence of gets and puts against an initially empty cache. -/
def runOps {V : Type} (C : Nat) (ops : List (CacheOp V)) : LruCache V :=
  ops.foldl (applyCacheOp C) (emptyCache V)

/-- Well-formedness of a cache state: no duplicate keys on either side,
the LRU list and the map hold the same keys, and they have equal size.
Every state reachable by gets and puts from the empty cache satisfies
this. -/
def WFCache {V : Type} (st : LruCache V) : Prop :=
  st.lru_list.Nodup ∧
  (st.cache.map Prod.fst).Nodup ∧
  (∀ k ∈ st.lru_list, k ∈ st.cache.map Prod.fst) ∧
  (∀ k ∈ st.cache.map Prod.fst, k ∈ st.lru_list) ∧
  st.lru_list.length = st.cache.length

instance {V : Type} (st : LruCache V) : Decidable (WFCache st) := by
  unfold WFCache; infer_instance

/-- unordered_map index-assignment (cache[key] = entry): overwrite when
the key is present, insert otherwise. -/
def insertAssoc {V : Type} (kv : String × V) (m : List (String × V)) :
    List (String × V) :=
  if (cacheFind kv.1 m).isSome then
    m.map (fun p => if p.1 == kv.1 then kv else p)
  else kv :: m

/-- api_engine.cpp Engine::load_cache: iterate the {key, result} items of
the cache JSON file in file order; for each, push the key at the BACK of
the LRU list and store the entry in the map (so the first file item ends
up at the front = MRU).  The file is modelled as the list of (key,
result) pairs its JSON array holds.  Engine::save_cache writes one such
item per entry of the unordered_map, in the map's unspecified iteration
order, so a saved file is some permutation of the in-memory entry list;
the save/load theorems quantify over that permutation. -/
def load_cache {V : Type} (file : List (String × V)) : LruCache V :=
  file.foldl
    (fun st kv =>
      { cache := insertAssoc kv st.cache,
        lru_list := st.lru_list ++ [kv.1] })
    (emptyCache V)

/-! ## Segment writer (segment_writer.hpp) and reader (api_segment.cpp)

Files are byte lists.  The writer state mirrors SegmentWriter: the dense
term table id_to_term (the term_to_id hash map is the inverse of this
table and is represented by index search), per-document forward lists,
per-term in-memory posting lists, document metadata and the running token
total. -/

/-- segment_writer.hpp struct Posting. -/
structure Posting where
  docId : Nat
  tf : Nat


/-- segment_writer.hpp struct DocMeta (strings are byte lists). -/
structure DocMeta where
  cord_uid : List Byte
  title : List Byte
  json_relpath : List Byte
  doc_len : Nat


/-- segment_writer.hpp class SegmentWriter (in-memory state). -/
structure SegmentWriter where
  id_to_term : List (List Byte)
  forward : List (List (Nat × Nat))
  inverted : List (List Posting)
  docs : List DocMeta
  total_len : Nat


/-- A SegmentWriter as default-constructed. -/
def emptyWriter : SegmentWriter := ⟨[], [], [], [], 0⟩

/-- Index of a term in the term table (the term_to_id hash map keeps
exactly this association, since ids are dense positions of id_to_term). -/
def indexOfTerm : List (List Byte) → List Byte → Option Nat
  | [], _ => none
  | t :: rest, term =>
      if t == term then some 0 else (indexOfTerm rest term).map (· + 1)

/-- SegmentWriter::intern_term: return the existing id, or assign the
next dense id, record the term and create its empty posting list. -/
def intern_term (w : SegmentWriter) (term : List Byte) :
    Nat × SegmentWriter :=
  match indexOfTerm w.id_to_term term with
  | some id => (id, w)
  | none =>
      (w.id_to_term.length,
       { w with id_to_term := w.id_to_term ++ [term],
                inverted := w.inverted ++ [[]] })

/-- The loop body of SegmentWriter::add_document: for each (term, tf) in
order, intern the term, append (docId, tf) to its posting list, and
collect (termId, tf) for the forward record. -/
def internAll (docId : Nat) :
    SegmentWriter → List (List Byte × Nat) → SegmentWriter × List (Nat × Nat)
  | w, [] => (w, [])
  | w, (t, tf) :: rest =>
      let r := intern_term w t
      let w3 := { r.2 with
        inverted := r.2.inverted.set r.1
          ((r.2.inverted.getD r.1 []) ++ [⟨docId, tf⟩]) }
      let rr := internAll docId w3 rest
      (rr.1, (r.1, tf) :: rr.2)

/-- std::pair lexicographic order used by std::sort on the forward list
(termIds are distinct in every reachable call, so the tf component of the
comparison never decides). -/
def pairLe (a b : Nat × Nat) : Bool :=
  a.1 < b.1 || (a.1 == b.1 && a.2 ≤ b.2)

/-- Insert an element into a list, before the first element it compares
le to. -/
def insertSorted {α : Type} (le : α → α → Bool) (x : α) : List α → List α
  | [] => [x]
  | y :: ys => if le x y then x :: y :: ys else y :: insertSorted le x ys

/-- Model of std::sort: a sorting algorithm producing a sorted
permutation.  Every reachable call in this program sorts under a
comparator that is a total order on the actual elements (distinct keys),
so the sorted permutation is unique and the choice of algorithm is
immaterial; insertion sort is chosen so the model evaluates by kernel
reduction. -/
def sortBy {α : Type} (le : α → α → Bool) : List α → List α
  | [] => []
  | x :: xs => insertSorted le x (sortBy le xs)

/-- SegmentWriter::add_document: record the document, push its tokens
through intern_term, and append the forward record sorted by termId. -/
def add_document (w : SegmentWriter) (meta : DocMeta)
    (term_freqs : List (List Byte × Nat)) : SegmentWriter :=
  let docId := w.docs.length
  let w1 := { w with docs := w.docs ++ [meta],
                     total_len := w.total_len + meta.doc_len }
  let r := internAll docId w1 term_freqs
  { r.1 with forward := r.1.forward ++ [sortBy pairLe r.2] }

/-- Ingest a whole document stream through add_document. -/
def buildWriter (stream : List (DocMeta × List (List Byte × Nat))) :
    SegmentWriter :=
  stream.foldl (fun w d => add_document w d.1 d.2) emptyWriter

/-! ### Barrels (barrels.hpp) -/

/-- barrels.hpp BARREL_COUNT. -/
def BARREL_COUNT : Nat := 64

/-- barrels.hpp struct BarrelParams. -/
structure BarrelParams where
  barrel_count : Nat
  terms_per_barrel : Nat


/-- barrels.hpp barrel_for_term: range partition by termId, clamped into
the last barrel.  The clamped assignment barrel_count - 1 is computed in
uint32 arithmetic (it wraps for barrel_count = 0; every caller uses
barrel_count = 64). -/
def barrel_for_term (termId : Nat) (p : BarrelParams) : Nat :=
  if p.terms_per_barrel = 0 then 0
  else
    let b := termId / p.terms_per_barrel
    if p.barrel_count ≤ b then (p.barrel_count + 4294967295) % 4294967296
    else b

/-- The BarrelParams both writers compute for a term table of size
tcount: barrel_count = 64, terms_per_barrel = ceil(tcount / 64), raised
to 1 when zero. -/
def bp_of_tcount (tcount : Nat) : BarrelParams :=
  let tpb := (tcount + BARREL_COUNT - 1) / BARREL_COUNT
  ⟨BARREL_COUNT, if tpb = 0 then 1 else tpb⟩

/-- barrels.hpp write_barrels_manifest: the bytes of barrels.bin. -/
def write_barrels_manifest (p : BarrelParams) : List Byte :=
  write_u32 p.barrel_count ++ write_u32 p.terms_per_barrel

/-- One (docId, tf) posting as written to an inverted barrel. -/
def postingBytes (p : Posting) : List Byte :=
  write_u32 p.docId ++ write_u32 p.tf

/-- A whole posting list as written to an inverted barrel. -/
def plistBytes (l : List Posting) : List Byte :=
  (l.map postingBytes).flatten

/-- One lexicon record: term, termId, df, offset, count. -/
def lexRecordBytes (term : List Byte) (tid df off cnt : Nat) : List Byte :=
  write_string term ++ write_u32 tid ++ write_u32 df ++
    write_u64 off ++ write_u32 cnt

/-- Per-barrel output accumulated by the writer loop: inverted bytes,
lexicon record bytes (the u32 header is patched in afterwards), the
running byte offset per barrel, and the per-barrel term counters. -/
structure BarrelState where
  inv : List (List Byte)
  lex : List (List Byte)
  offsets : List Nat
  counts : List Nat


/-- Freshly opened barrel streams (the placeholder header is represented
by prepending the patched count when the files are assembled). -/
def initBarrelState (bc : Nat) : BarrelState :=
  ⟨List.replicate bc [], List.replicate bc [], List.replicate bc 0,
   List.replicate bc 0⟩

/-- One iteration of the shared barrel-writing loop: skip the term when
the entry function yields none (empty posting list / zero tf); otherwise
append its postings to its barrel's inverted stream, append its lexicon
record carrying the barrel's current offset, and advance that offset and
the barrel's term counter.  Both SegmentWriter::write_segment and
write_barrelized_index_files_single_doc instantiate this loop. -/
def emitTerm (bp : BarrelParams)
    (entry : Nat → Option (List Byte × List Posting))
    (st : BarrelState) (tid : Nat) : BarrelState :=
  match entry tid with
  | none => st
  | some (term, plist) =>
      let df := plist.length
      let b := barrel_for_term tid bp
      { inv := st.inv.set b (st.inv.getD b [] ++ plistBytes plist),
        lex := st.lex.set b
          (st.lex.getD b [] ++ lexRecordBytes term tid df
            (st.offsets.getD b 0) df),
        offsets := st.offsets.set b (st.offsets.getD b 0 + df * 8),
        counts := st.counts.set b (st.counts.getD b 0 + 1) }

/-- The barrel-writing loop over termIds 0..tcount-1. -/
def emitBarrels (bp : BarrelParams) (tcount : Nat)
    (entry : Nat → Option (List Byte × List Posting)) : BarrelState :=
  (List.range tcount).foldl (emitTerm bp entry) (initBarrelState bp.barrel_count)

/-- The lexicon barrel files after the close-and-patch step: each file is
its final term count (overwriting the placeholder u32) followed by its
records. -/
def patchedLexFiles (st : BarrelState) : List (List Byte) :=
  List.zipWith (fun c l => write_u32 c ++ l) st.counts st.lex

/-- One docs.bin record. -/
def docRecordBytes (d : DocMeta) : List Byte :=
  write_string d.cord_uid ++ write_string d.title ++
    write_string d.json_relpath ++ write_u32 d.doc_len

/-- One forward.bin record: count then (termId, tf) pairs. -/
def fwdRecordBytes (f : List (Nat × Nat)) : List Byte :=
  write_u32 f.length ++ (f.map (fun q => write_u32 q.1 ++ write_u32 q.2)).flatten

/-- The files a segment directory holds (barrelized layout; the writers
always produce barrels). -/
structure SegmentFiles where
  stats : List Byte
  docsFile : List Byte
  forwardFile : List Byte
  termsFile : List Byte
  barrelsFile : List Byte
  lexFiles : List (List Byte)
  invFiles : List (List Byte)


/-- The per-term entry function of SegmentWriter::write_segment's barrel
loop: skip terms with an empty posting list, otherwise emit the term
string and its posting list sorted by docId (std::sort with the a.docId
< b.docId comparator; posting lists reachable through add_document have
strictly increasing docIds, so the sorted order is unique). -/
def segmentEntry (w : SegmentWriter) (tid : Nat) :
    Option (List Byte × List Posting) :=
  let plist := w.inverted.getD tid []
  if plist.isEmpty then none
  else some (w.id_to_term.getD tid [],
    sortBy (fun a b => decide (a.docId ≤ b.docId)) plist)

/-- SegmentWriter::write_segment.  The avgdl float (total_len / N in
float arithmetic, 0 for the empty segment) is abstracted by the encoder
argument f32, a function of total_len and N producing the four bytes the
C++ writes; no claim inspects its value. -/
def write_segment (f32 : Nat → Nat → List Byte) (w : SegmentWriter) :
    SegmentFiles :=
  let bp := bp_of_tcount w.id_to_term.length
  let st := emitBarrels bp w.id_to_term.length (segmentEntry w)
  { stats := write_u32 w.docs.length ++ f32 w.total_len w.docs.length,
    docsFile := write_u32 w.docs.length ++ (w.docs.map docRecordBytes).flatten,
    forwardFile := write_u32 w.forward.length ++
      (w.forward.map fwdRecordBytes).flatten,
    termsFile := write_u32 w.id_to_term.length ++
      (w.id_to_term.map write_string).flatten,
    barrelsFile := write_barrels_manifest bp,
    lexFiles := patchedLexFiles st,
    invFiles := st.inv }

/-! ### Segment reader (api_segment.cpp) -/

/-- api_types.hpp struct LexEntry. -/
structure LexEntry where
  termId : Nat
  df : Nat
  offset : Nat
  count : Nat
  barrelId : Nat


/-- The in-memory Segment the reader produces (barrelized layout): stats,
docs, the flat term → LexEntry map (modelled as an association list whose
lookup takes the first match, matching unordered_map::emplace keeping the
first insertion), and the open inverted barrel streams (their byte
contents).  The avgdl float is kept as its four raw bytes. -/
structure Segment where
  N : Nat
  avgdlBytes : List Byte
  docs : List DocMeta
  lex : List (List Byte × LexEntry)
  barrel_params : BarrelParams
  invFiles : List (List Byte)


/-- unordered_map::find on the lexicon association list. -/
def lexFind (term : List Byte) (lex : List (List Byte × LexEntry)) :
    Option LexEntry :=
  (lex.find? (fun p => p.1 == term)).map Prod.snd

/-- Parse n docs.bin records (the reader reads exactly n and tolerates
trailing bytes). -/
def parseDocs : Nat → List Byte → Option (List DocMeta)
  | 0, _ => some []
  | n + 1, s =>
      (read_string s).bind (fun r1 =>
      (read_string r1.2).bind (fun r2 =>
      (read_string r2.2).bind (fun r3 =>
      (read_u32 r3.2).bind (fun r4 =>
      (parseDocs n r4.2).map
        (fun ds => ⟨r1.1, r2.1, r3.1, r4.1⟩ :: ds)))))

/-- Parse n lexicon records from barrel b (load_segment_barrels inner
loop; barrelId is set to the barrel being read). -/
def parseLexRecords (b : Nat) : Nat → List Byte →
    Option (List (List Byte × LexEntry))
  | 0, _ => some []
  | n + 1, s =>
      (read_string s).bind (fun r1 =>
      (read_u32 r1.2).bind (fun r2 =>
      (read_u32 r2.2).bind (fun r3 =>
      (read_u64 r3.2).bind (fun r4 =>
      (read_u32 r4.2).bind (fun r5 =>
      (parseLexRecords b n r5.2).map
        (fun es => (r1.1, ⟨r2.1, r3.1, r4.1, r5.1, b⟩) :: es))))))

/-- Parse one lexicon barrel file: u32 record count, then the records. -/
def parseLexFile (b : Nat) (file : List Byte) :
    Option (List (List Byte × LexEntry)) :=
  (read_u32 file).bind (fun r => parseLexRecords b r.1 r.2)

/-- load_segment_barrels lexicon loop: read every barrel's lexicon file
in barrel order and emplace all records into one flat map (first
insertion wins, represented by list order under first-match lookup). -/
def parseAllLexFiles (bc : Nat) (files : List (List Byte)) :
    Option (List (List Byte × LexEntry)) :=
  (List.range bc).foldr
    (fun b acc =>
      match parseLexFile b (files.getD b []), acc with
      | some l, some a => some (l ++ a)
      | _, _ => none)
    (some [])

/-- api_segment.cpp load_segment (barrelized path; the writers always
emit barrels.bin together with barrel 0, so has_barrels holds for every
written segment).  Reads stats.bin (u32 N, 4 bytes of f32 avgdl,
tolerating trailing bytes), docs.bin, the barrels manifest, requires
every barrel file to be present (open failure = missing file fails the
load), and loads the flat lexicon. -/
def load_segment (files : SegmentFiles) : Option Segment :=
  (read_u32 files.stats).bind (fun r0 =>
  if r0.2.length < 4 then none
  else
    (read_u32 files.docsFile).bind (fun r1 =>
    (parseDocs r1.1 r1.2).bind (fun docs =>
    (read_u32 files.barrelsFile).bind (fun r2 =>
    (read_u32 r2.2).bind (fun r3 =>
    if r2.1 ≤ files.invFiles.length ∧ r2.1 ≤ files.lexFiles.length then
      (parseAllLexFiles r2.1 files.lexFiles).map (fun lex =>
        { N := r0.1,
          avgdlBytes := r0.2.take 4,
          docs := docs,
          lex := lex,
          barrel_params := ⟨r2.1, r3.1⟩,
          invFiles := files.invFiles })
    else none)))))

/-- Read cnt (docId, tf) postings from a stream (api_engine.cpp posting
loop, in the well-formed case where every read succeeds). -/
def read_postings : List Byte → Nat → Option (List Posting)
  | _, 0 => some []
  | s, n + 1 =>
      (read_u32 s).bind (fun r1 =>
      (read_u32 r1.2).bind (fun r2 =>
      (read_postings r2.2 n).map (fun ps => ⟨r1.1, r2.1⟩ :: ps)))

/-- Seek an inverted stream to a byte offset and read cnt postings. -/
def postingsAt (file : List Byte) (off cnt : Nat) : Option (List Posting) :=
  read_postings (file.drop off) cnt

/-- The posting list of a term assembled from the per-doc forward
entries: every document whose forward record carries the termId
contributes (docId, tf), in increasing docId order.  This is the
specification side of the round-trip claim. -/
def assembleFromForward (forward : List (List (Nat × Nat))) (tid : Nat) :
    List Posting :=
  forward.enum.filterMap
    (fun df => (df.2.find? (fun q => q.1 == tid)).map
      (fun q => ⟨df.1, q.2⟩))

/-! ### Specification views of the barrel-writing loop

These functions give the closed form of what emitBarrels accumulates per
barrel; the emit loop is proved equal to them and the reader theorems are
stated against them. -/

/-- The termIds among 0..n-1 that the entry function emits into barrel b,
in increasing termId order (the loop order). -/
def tidsOfBarrel (bp : BarrelParams)
    (entry : Nat → Option (List Byte × List Posting)) (n b : Nat) :
    List Nat :=
  (List.range n).filter
    (fun tid => (entry tid).isSome && (barrel_for_term tid bp == b))

/-- The term string the entry function emits for tid. -/
def termOf (entry : Nat → Option (List Byte × List Posting)) (tid : Nat) :
    List Byte :=
  ((entry tid).map Prod.fst).getD []

/-- The posting list the entry function emits for tid. -/
def plistOf (entry : Nat → Option (List Byte × List Posting)) (tid : Nat) :
    List Posting :=
  ((entry tid).map Prod.snd).getD []

/-- The bytes of barrel b's inverted file after the loop has processed
termIds 0..n-1. -/
def invContent (bp : BarrelParams)
    (entry : Nat → Option (List Byte × List Posting)) (n b : Nat) :
    List Byte :=
  ((tidsOfBarrel bp entry n b).map (fun tid => plistBytes (plistOf entry tid))).flatten

/-- The parsed records of barrel b's lexicon file: each emitted term with
its df, its byte offset into the barrel's inverted file (the bytes
emitted into that barrel by smaller termIds), and count = df. -/
def lexRecordsOfBarrel (bp : BarrelParams)
    (entry : Nat → Option (List Byte × List Posting)) (n b : Nat) :
    List (List Byte × LexEntry) :=
  (tidsOfBarrel bp entry n b).map (fun tid =>
    (termOf entry tid,
     ⟨tid, (plistOf entry tid).length, (invContent bp entry tid b).length,
      (plistOf entry tid).length, b⟩))

/-- The record bytes of one parsed lexicon record. -/
def lexRecBytesOf (r : List Byte × LexEntry) : List Byte :=
  lexRecordBytes r.1 r.2.termId r.2.df r.2.offset r.2.count

/-! ### Tokenizer and stopwords (textutil.hpp) -/

/-- std::isalnum in the C locale on an octet. -/
def isAlnumByte (c : Byte) : Bool :=
  (48 ≤ c && c ≤ 57) || (65 ≤ c && c ≤ 90) || (97 ≤ c && c ≤ 122)

/-- std::tolower in the C locale on an octet. -/
def toLowerByte (c : Byte) : Byte :=
  if 65 ≤ c && c ≤ 90 then c + 32 else c

/-- textutil.hpp tokenize inner loop; cur holds the current token
reversed. -/
def tokenizeAux : List Byte → List Byte → List (List Byte)
  | [], cur => if cur.isEmpty then [] else [cur.reverse]
  | c :: rest, cur =>
      if isAlnumByte c then tokenizeAux rest (toLowerByte c :: cur)
      else if cur.isEmpty then tokenizeAux rest []
      else cur.reverse :: tokenizeAux rest []

/-- textutil.hpp tokenize: lowercased maximal [a-z0-9] runs. -/
def tokenize (text : List Byte) : List (List Byte) :=
  tokenizeAux text []

/-- textutil.hpp stopword set. -/
def stopwords : List (List Byte) :=
  [bytes "the", bytes "a", bytes "an", bytes "and", bytes "or",
   bytes "of", bytes "to", bytes "in", bytes "for", bytes "on",
   bytes "with", bytes "by", bytes "as", bytes "is", bytes "are",
   bytes "was", bytes "were", bytes "be", bytes "been", bytes "it",
   bytes "this", bytes "that", bytes "from", bytes "at"]

/-- textutil.hpp is_stopword. -/
def is_stopword (t : List Byte) : Bool := stopwords.contains t

/-- The index-time and query-time token filter: drop tokens shorter than
2 and stopwords (api_add_document.cpp lines 93-98, api_engine.cpp lines
393-397). -/
def filterTokens (toks : List (List Byte)) : List (List Byte) :=
  toks.filter (fun t => !(decide (t.length < 2)) && !(is_stopword t))

/-! ### Manifest and segment names (api_segment.cpp) -/

/-- api_segment.cpp seg_name: "seg_" then the id, zero-padded to at
least 6 decimal digits. -/
def seg_name (id : Nat) : List Byte :=
  let ds := (Nat.toDigits 10 id).map Char.toNat
  bytes "seg_" ++ List.replicate (6 - ds.length) 48 ++ ds

/-- api_segment.cpp save_manifest: u32 count then the names. -/
def save_manifest (segs : List (List Byte)) : List Byte :=
  write_u32 segs.length ++ (segs.map write_string).flatten

/-- Read n length-prefixed strings. -/
def parseStrings : Nat → List Byte → Option (List (List Byte))
  | 0, _ => some []
  | n + 1, s =>
      (read_string s).bind (fun r =>
        (parseStrings n r.2).map (fun xs => r.1 :: xs))

/-- api_segment.cpp load_manifest: u32 count then count names (none
models the short-read failure the C++ would turn into garbage names). -/
def load_manifest (file : List Byte) : Option (List (List Byte)) :=
  (read_u32 file).bind (fun r => parseStrings r.1 r.2)

/-! ### Single-document append (api_add_document.cpp /
write_barrelized_index_files_single_doc) -/

/-- api_segment.cpp write_barrelized_index_files_single_doc: the tf
array indexed by termId (last assignment wins, out-of-range termIds are
ignored). -/
def tf_by_tid (tcount : Nat) (fwd : List (Nat × Nat)) : List Nat :=
  fwd.foldl (fun arr q => if q.1 < tcount then arr.set q.1 q.2 else arr)
    (List.replicate tcount 0)

/-- The entry function of the single-document barrel writer: skip terms
with tf 0, emit the single posting (docId = 0, tf) otherwise; the C++
writes df = 1 and count = 1 literally, which the shared loop reproduces
as the length of the one-posting list. -/
def singleDocEntry (id_to_term : List (List Byte))
    (fwd : List (Nat × Nat)) (tid : Nat) :
    Option (List Byte × List Posting) :=
  let tfv := (tf_by_tid id_to_term.length fwd).getD tid 0
  if tfv = 0 then none
  else some (id_to_term.getD tid [], [⟨0, tfv⟩])

/-- Three-decimal-digit barrel suffix (barrels.hpp barrel_suffix). -/
def barrel_suffix (b : Nat) : List Byte :=
  let ds := (Nat.toDigits 10 b).map Char.toNat
  List.replicate (3 - ds.length) 48 ++ ds

/-- api_add_document.cpp handle_add_document, success path, after body
validation: tokenize and filter the document text, build the per-segment
term table and forward list, write the segment files in program order,
and append the new segment name to the manifest last.  The unordered_map
iteration order that fixes termIds is the parameter ts (any enumeration
of the distinct indexable terms); the avgdl f32 encoder is the parameter
f32.  Returns the ordered list of (file name, content) writes and the
new manifest name list. -/
def handle_add_document (f32 : Nat → List Byte) (segs : List (List Byte))
    (cord_uid title relpath : List Byte) (toks : List (List Byte))
    (ts : List (List Byte)) :
    List (List Byte × List Byte) × List (List Byte) :=
  let filtered := filterTokens toks
  let doc_len := filtered.length
  let fwd := sortBy pairLe
    (ts.enum.map (fun it => (it.1, filtered.count it.2)))
  let bp := bp_of_tcount ts.length
  let st := emitBarrels bp ts.length (singleDocEntry ts fwd)
  let new_seg := seg_name (segs.length + 1)
  ([(bytes "docs.bin",
      write_u32 1 ++ docRecordBytes ⟨cord_uid, title, relpath, doc_len⟩),
    (bytes "stats.bin", write_u32 1 ++ f32 doc_len),
    (bytes "forward.bin", write_u32 1 ++ fwdRecordBytes fwd),
    (bytes "terms.bin",
      write_u32 ts.length ++ (ts.map write_string).flatten),
    (bytes "barrels.bin", write_barrels_manifest bp)]
   ++ (List.range bp.barrel_count).map (fun b =>
        (bytes "lexicon_b" ++ barrel_suffix b ++ bytes ".bin",
         (patchedLexFiles st).getD b []))
   ++ (List.range bp.barrel_count).map (fun b =>
        (bytes "inverted_b" ++ barrel_suffix b ++ bytes ".bin",
         st.inv.getD b []))
   ++ [(bytes "manifest.bin", save_manifest (segs ++ [new_seg]))],
   segs ++ [new_seg])

/-- Invariant of SegmentWriter states reachable by add_document calls
whose per-document term lists carry distinct terms (the input is an
ordered map): the term table is dense and duplicate-free, every posting
list is exactly the list assembled from the forward records (hence
strictly increasing by docId) and nonempty, and forward records are
well-formed. -/
def WFWriter (w : SegmentWriter) : Prop :=
  w.inverted.length = w.id_to_term.length ∧
  w.forward.length = w.docs.length ∧
  w.id_to_term.Nodup ∧
  (∀ tid, tid < w.id_to_term.length →
    w.inverted.getD tid [] = assembleFromForward w.forward tid) ∧
  (∀ tid, tid < w.id_to_term.length → w.inverted.getD tid [] ≠ []) ∧
  (∀ f ∈ w.forward, (∀ q ∈ f, q.1 < w.id_to_term.length) ∧
    (f.map Prod.fst).Nodup)

/-! ### Engine::search front end (api_engine.cpp lines 369-426)

The JSON output is modelled as an ordered field list; the claims about
it only quantify over which fields are present and their values. -/

/-- Minimal model of nlohmann::json values. -/
inductive Json where
  | null : Json
  | jstr (s : List Byte) : Json
  | jint (n : Int) : Json
  | jarr (xs : List Json) : Json
  | jobj (fields : List (List Byte × Json)) : Json

/-- json::is_null. -/
def Json.isNull : Json → Bool
  | Json.null => true
  | _ => false

/-- The field names of a JSON object. -/
def jsonKeys : Json → List (List Byte)
  | Json.jobj fs => fs.map Prod.fst
  | _ => []

/-- Look up a field of a JSON object. -/
def jsonGet (j : Json) (key : List Byte) : Option Json :=
  match j with
  | Json.jobj fs => (fs.find? (fun f => f.1 == key)).map Prod.snd
  | _ => none

/-- Engine::make_cache_key: query + "|" + std::to_string(k). -/
def make_cache_key (query : String) (k : Int) : String :=
  query ++ "|" ++ toString k

/-- The front end of Engine::search up to the early return: clamp k to
1..100, return any non-null cached value for the key verbatim,
otherwise tokenize and filter the query and build the output skeleton
holding query, k, the current segment count and an empty results array;
that skeleton is returned as-is when no terms survive the filters or no
segments are loaded.  none means execution continues into the scoring
loop over the current segment list. -/
def search_frontend (segment_count : Nat) (cache : List (String × Json))
    (query : String) (k : Int) : Option Json :=
  let K : Int := max 1 (min k 100)
  let out := Json.jobj
    [(bytes "query", Json.jstr (bytes query)),
     (bytes "k", Json.jint K),
     (bytes "segments", Json.jint segment_count),
     (bytes "results", Json.jarr [])]
  let miss :=
    if (filterTokens (tokenize (bytes query))).isEmpty
        || segment_count = 0 then some out
    else none
  match cacheFind (make_cache_key query K) cache with
  | some v => if v.isNull then miss else some v
  | none => miss

/-! ### Query-time posting reads (api_engine.cpp lines 469-481,
indexio.hpp read_u32)

indexio.hpp read_u32 performs in.read without testing the stream, so a
read past end-of-file returns whatever was in the uninitialized
variable; the junk parameter is that unspecified value.  After a failed
read the stream stays failed, so every later read also returns junk. -/

/-- read_u32 on an ifstream: the next four little-endian bytes, or the
junk value once the stream is exhausted. -/
def stream_read_u32 (junk : Nat) (s : List Byte) : Nat × List Byte :=
  match read_u32 s with
  | some r => r
  | none => (junk, s.drop 4)

/-- The posting loop of Engine::search for one term: reads count
(docId, tf) pairs from the stream and accumulates score[docId] for each
— seg.docs[docId] is indexed without any bound check against N. -/
def posting_loop (junk : Nat) : Nat → List Byte → List (Nat × Nat)
  | 0, _ => []
  | i + 1, s =>
      let r1 := stream_read_u32 junk s
      let r2 := stream_read_u32 junk r1.2
      (r1.1, r2.1) :: posting_loop junk i r2.2

/-- The (docId, tf) pairs the scoring loop touches for a lexicon entry:
seek the inverted stream to the entry's offset and read count pairs. -/
def score_events (junk : Nat) (invFile : List Byte) (off cnt : Nat) :
    List (Nat × Nat) :=
  posting_loop junk cnt (invFile.drop off)

/-! ### Autocomplete (api_autocomplete.cpp)

The trie is represented by its observable content: the node reached by
a prefix exists iff the prefix is a prefix of some indexed term, and
its top list is the fold of update_top over the terms that pass through
it, in insertion (index) order.  std::stable_sort with a strict
comparator is modelled by sorting with the comparator's non-strict
closure; on the reachable inputs the comparator is a total order, so
the sorted permutation is unique. -/

/-- AutocompleteIndex::normalize_token: keep alnum octets, lowered. -/
def normalize_token (s : List Byte) : List Byte :=
  (s.filter isAlnumByte).map toLowerByte

/-- std::string operator< : lexicographic byte order. -/
def bytesLt : List Byte → List Byte → Bool
  | [], [] => false
  | [], _ :: _ => true
  | _ :: _, [] => false
  | a :: as, b :: bs =>
      if a < b then true else if b < a then false else bytesLt as bs

/-- The comparator passed to std::stable_sort in build and update_top:
a ranks strictly before b when its score is larger, or scores tie and
its term is lexicographically smaller.  Here on (term, score) pairs. -/
def term_before (a b : List Byte × Nat) : Bool :=
  if a.2 ≠ b.2 then decide (b.2 < a.2) else bytesLt a.1 b.1

/-- The non-strict closure of term_before: a is not strictly after b. -/
def term_order (a b : List Byte × Nat) : Bool := !(term_before b a)

/-- The same comparator on candidates (term_index, score), resolving
indexes through the term table. -/
def cand_before (terms : List (List Byte)) (a b : Nat × Nat) : Bool :=
  if a.2 ≠ b.2 then decide (b.2 < a.2)
  else bytesLt (terms.getD a.1 []) (terms.getD b.1 [])

/-- Non-strict closure of cand_before. -/
def cand_order (terms : List (List Byte)) (a b : Nat × Nat) : Bool :=
  !(cand_before terms b a)

/-- AutocompleteIndex::update_top: merge a candidate into a node's top
list (same term_index keeps the higher score), re-sort by (score desc,
term asc) and trim to max_top. -/
def update_top (terms : List (List Byte)) (max_top : Nat)
    (top : List (Nat × Nat)) (c : Nat × Nat) : List (Nat × Nat) :=
  let merged :=
    if top.any (fun e => e.1 == c.1) then
      top.map (fun e => if e.1 == c.1 then (e.1, max e.2 c.2) else e)
    else top ++ [c]
  (sortBy (cand_order terms) merged).take max_top

/-- The top list of the trie node reached by prefix p: every inserted
term passing through the node contributed its candidate, in insertion
order (build inserts term indexes ascending). -/
def node_top (terms : List (List Byte)) (scores : List Nat)
    (max_top : Nat) (p : List Byte) : List (Nat × Nat) :=
  ((terms.enum.filter (fun it => p.isPrefixOf it.2)).map
      (fun it => (it.1, scores.getD it.1 0))).foldl
    (update_top terms max_top) []

/-- AutocompleteIndex::lookup_node succeeds iff the walk stays on paths
the inserted terms created: the prefix is empty (root) or a prefix of
some indexed term. -/
def lookup_exists (terms : List (List Byte)) (p : List Byte) : Bool :=
  p.isEmpty || terms.any (fun t => p.isPrefixOf t)

/-- AutocompleteIndex::build: normalize the map's terms, drop those
shorter than 2, stable-sort by (score desc, term asc) and store the
reordered term and score tables; max_top = max(1, max_candidates).
Returns (terms_, scores_, max_top_). -/
def ac_build (term_to_score : List (List Byte × Nat))
    (max_candidates : Nat) :
    List (List Byte) × List Nat × Nat :=
  let kept := term_to_score.filterMap (fun kv =>
    let t := normalize_token kv.1
    if t.length < 2 then none else some (t, kv.2))
  let sorted := sortBy term_order kept
  (sorted.map Prod.fst, sorted.map Prod.snd, max 1 max_candidates)

/-- suggest_query's split of the raw input: capture the trailing
non-alnum characters and the last alphanumeric run before them; base is
everything before that run. -/
def last_alnum_run (input : List Byte) : List Byte × List Byte :=
  let rev := input.reverse
  let trail := rev.takeWhile (fun c => !(isAlnumByte c))
  let run := (rev.drop trail.length).takeWhile isAlnumByte
  ((rev.drop (trail.length + run.length)).reverse, run.reverse)

/-- AutocompleteIndex::suggest_query: empty on an empty index or zero
limit; normalize the last alphanumeric run of the input, walk the trie,
and return up to limit suggestions base + term from the node's top. -/
def suggest_query (terms : List (List Byte)) (scores : List Nat)
    (max_top : Nat) (user_input : List Byte) (limit : Nat) :
    List (List Byte) :=
  if terms.isEmpty || limit = 0 then []
  else
    let br := last_alnum_run user_input
    let p := normalize_token br.2
    if p.isEmpty then []
    else if !(lookup_exists terms p) then []
    else
      let top := node_top terms scores max_top p
      (top.take (min limit top.length)).map
        (fun c => br.1 ++ terms.getD c.1 [])

/-! ### Concrete fixtures used to evaluate the development -/

/-- A two-document stream: "hello"(2) in doc 0; "hello"(1), "world"(2)
in doc 1. -/
def exampleStream : List (DocMeta × List (List Byte × Nat)) :=
  [(⟨bytes "u1", bytes "T1", bytes "p1", 2⟩, [(bytes "hello", 2)]),
   (⟨bytes "u2", bytes "T2", bytes "p2", 3⟩,
     [(bytes "hello", 1), (bytes "world", 2)])]

/-- A fixed four-byte avgdl encoder for concrete evaluations. -/
def zeroF32 : Nat → Nat → List Byte := fun _ _ => [0, 0, 0, 0]

/-! # Theorems -/

theorem write_u32_length (v : Nat) : (write_u32 v).length = 4 := rfl

/-- read_u32 inverts write_u32 up to the 32-bit truncation the source
performs on write. -/
theorem read_u32_write_u32 (v : Nat) (rest : List Byte) :
    read_u32 (write_u32 v ++ rest) = some (v % 4294967296, rest) := by
  simp only [write_u32, read_u32, List.cons_append, List.nil_append]
  congr 1
  congr 1
  omega

/-- read_u64 inverts write_u64 up to the 64-bit truncation. -/
theorem read_u64_write_u64 (v : Nat) (rest : List Byte) :
    read_u64 (write_u64 v ++ rest) =
      some (v % 18446744073709551616, rest) := by
  simp only [write_u64, read_u64, List.cons_append, List.nil_append]
  congr 1
  congr 1
  omega

/-- read_string inverts write_string for strings shorter than 2^32. -/
theorem read_string_write_string (s : List Byte) (rest : List Byte)
    (h : s.length < 4294967296) :
    read_string (write_string s ++ rest) = some (s, rest) := by
  unfold read_string write_string
  rw [List.append_assoc, read_u32_write_u32]
  simp only [Nat.mod_eq_of_lt h, Option.some_bind]
  rw [if_pos (by simp)]
  congr 1
  congr 1
  · exact List.take_left s rest
  · exact List.drop_left s rest

theorem read_string_write_string_witness :
    read_string (write_string (bytes "ab") ++ [7]) = some (bytes "ab", [7]) :=
  read_string_write_string (bytes "ab") [7] (by decide)

/-! ## The sort model -/

theorem insertSorted_perm {α : Type} (le : α → α → Bool) (x : α)
    (l : List α) : (insertSorted le x l).Perm (x :: l) := by
  induction l with
  | nil => exact List.Perm.refl _
  | cons y ys ih =>
      unfold insertSorted
      by_cases h : le x y
      · rw [if_pos h]
      · rw [if_neg h]
        exact (ih.cons y).trans (List.Perm.swap x y ys)

theorem sortBy_perm {α : Type} (le : α → α → Bool) (l : List α) :
    (sortBy le l).Perm l := by
  induction l with
  | nil => exact List.Perm.refl _
  | cons x xs ih =>
      exact (insertSorted_perm le x (sortBy le xs)).trans (ih.cons x)

theorem sortBy_length {α : Type} (le : α → α → Bool) (l : List α) :
    (sortBy le l).length = l.length :=
  (sortBy_perm le l).length_eq

theorem sortBy_of_sorted {α : Type} (le : α → α → Bool) (l : List α)
    (h : l.Pairwise (fun a b => le a b = true)) : sortBy le l = l := by
  induction l with
  | nil => rfl
  | cons x xs ih =>
      rw [List.pairwise_cons] at h
      show insertSorted le x (sortBy le xs) = x :: xs
      rw [ih h.2]
      cases xs with
      | nil => rfl
      | cons y ys =>
          show insertSorted le x (y :: ys) = x :: y :: ys
          unfold insertSorted
          rw [if_pos (h.1 y (by simp))]

theorem mem_insertSorted {α : Type} (le : α → α → Bool) (x z : α)
    (l : List α) : z ∈ insertSorted le x l ↔ z = x ∨ z ∈ l :=
  ((insertSorted_perm le x l).mem_iff).trans (by simp)

theorem insertSorted_pairwise {α : Type} (le : α → α → Bool)
    (htrans : ∀ a b c, le a b = true → le b c = true → le a c = true)
    (htot : ∀ a b, le a b = true ∨ le b a = true) (x : α) (l : List α)
    (h : l.Pairwise (fun a b => le a b = true)) :
    (insertSorted le x l).Pairwise (fun a b => le a b = true) := by
  induction l with
  | nil => simp [insertSorted]
  | cons y ys ih =>
      rw [List.pairwise_cons] at h
      unfold insertSorted
      by_cases hxy : le x y
      · rw [if_pos hxy]
        rw [List.pairwise_cons]
        refine ⟨?_, List.pairwise_cons.mpr h⟩
        intro z hz
        rcases List.mem_cons.mp hz with rfl | hz
        · exact hxy
        · exact htrans x y z hxy (h.1 z hz)
      · rw [if_neg hxy]
        rw [List.pairwise_cons]
        refine ⟨?_, ih h.2⟩
        intro z hz
        rcases (mem_insertSorted le x z ys).mp hz with rfl | hz
        · rcases htot z y with h1 | h2
          · exact absurd h1 hxy
          · exact h2
        · exact h.1 z hz

theorem sortBy_pairwise {α : Type} (le : α → α → Bool)
    (htrans : ∀ a b c, le a b = true → le b c = true → le a c = true)
    (htot : ∀ a b, le a b = true ∨ le b a = true) (l : List α) :
    (sortBy le l).Pairwise (fun a b => le a b = true) := by
  induction l with
  | nil => exact List.Pairwise.nil
  | cons x xs ih =>
      exact insertSorted_pairwise le htrans htot x (sortBy le xs) ih

/-- Helper: the csv_row loop computes the split-then-strip-quotes
specification, for every loop state whose accumulators correspond
(the code accumulator is the spec accumulator with quotes removed). -/
theorem csvRowAux_eq_spec (l : List Byte) :
    ∀ (inq : Bool) (cur : List Byte),
      csvRowAux l inq (cur.filter (fun c => c ≠ 34)) =
        (csvSplitOutsideQuotes l inq cur).map (List.filter (fun c => c ≠ 34)) := by
  induction l with
  | nil =>
      intro inq cur
      simp [csvRowAux, csvSplitOutsideQuotes, List.filter_reverse]
  | cons c rest ih =>
      intro inq cur
      by_cases hq : c = 34
      · subst hq
        have e1 : csvRowAux (34 :: rest) inq (cur.filter (fun b => b ≠ 34)) =
            csvRowAux rest (!inq) (cur.filter (fun b => b ≠ 34)) := by
          simp [csvRowAux]
        have e2 : csvSplitOutsideQuotes (34 :: rest) inq cur =
            csvSplitOutsideQuotes rest (!inq) (34 :: cur) := by
          simp [csvSplitOutsideQuotes]
        have e3 : ((34 : Byte) :: cur).filter (fun b => b ≠ 34) =
            cur.filter (fun b => b ≠ 34) := by simp
        rw [e1, e2, ← ih (!inq) (34 :: cur), e3]
      · by_cases hc : (!inq && c = 44) = true
        · have e1 : csvRowAux (c :: rest) inq (cur.filter (fun b => b ≠ 34)) =
              (cur.filter (fun b => b ≠ 34)).reverse :: csvRowAux rest false [] := by
            simp [csvRowAux, hq, hc]
          have e2 : csvSplitOutsideQuotes (c :: rest) inq cur =
              cur.reverse :: csvSplitOutsideQuotes rest false [] := by
            simp [csvSplitOutsideQuotes, hq, hc]
          rw [e1, e2, List.map_cons, List.filter_reverse, ← ih false []]
          simp
        · have e1 : csvRowAux (c :: rest) inq (cur.filter (fun b => b ≠ 34)) =
              csvRowAux rest inq (c :: cur.filter (fun b => b ≠ 34)) := by
            simp [csvRowAux, hq, hc]
          have e2 : csvSplitOutsideQuotes (c :: rest) inq cur =
              csvSplitOutsideQuotes rest inq (c :: cur) := by
            simp [csvSplitOutsideQuotes, hq, hc]
          have e3 : (c :: cur).filter (fun b => b ≠ 34) =
              c :: cur.filter (fun b => b ≠ 34) := by
            simp [List.filter_cons, hq]
          rw [e1, e2, ← ih inq (c :: cur), e3]

/-- C10 counterexample: on the line a,"b""c" the parser yields column
"bc", not the RFC column with a literal quote b"c, so the doubled-quote
clause of the claim is false on the code. -/
theorem C10_doubled_quote_counterexample :
    csv_row (bytes "a,\"b\"\"c\"") = [bytes "a", bytes "bc"] ∧
      csv_row (bytes "a,\"b\"\"c\"") ≠ [bytes "a", bytes "b\"c"] := by
  constructor
  · rfl
  · decide

/-- C10 (amended): the row parser splits columns on commas that are
outside double-quoted sections, and every double-quote byte is dropped
from the column values, so a doubled quote inside a quoted field decodes
to the empty string rather than a literal quote. -/
theorem C10_csv_row_splits_outside_quotes_and_drops_quotes (line : List Byte) :
    csv_row line = csvColumnsSpec line := by
  have h := csvRowAux_eq_spec line false []
  simpa [csv_row, csvColumnsSpec] using h

/-! ## LRU cache lemmas -/

theorem cacheFind_eq_none_iff {V : Type} (k : String) (m : List (String × V)) :
    cacheFind k m = none ↔ k ∉ m.map Prod.fst := by
  unfold cacheFind
  rw [Option.map_eq_none', List.find?_eq_none]
  constructor
  · intro h hk
    rcases List.mem_map.mp hk with ⟨p, hp, hfst⟩
    exact h p hp (by simp [hfst])
  · intro h p hp hbeq
    exact h (List.mem_map.mpr ⟨p, hp, by simpa using hbeq⟩)

theorem cacheFind_isSome_iff {V : Type} (k : String) (m : List (String × V)) :
    (cacheFind k m).isSome ↔ k ∈ m.map Prod.fst := by
  rw [← not_iff_not]
  simp only [Option.not_isSome_iff_eq_none]
  exact cacheFind_eq_none_iff k m

theorem mapfst_eraseP {V : Type} (k : String) (m : List (String × V)) :
    (m.eraseP (fun p => p.1 == k)).map Prod.fst = (m.map Prod.fst).erase k := by
  induction m with
  | nil => rfl
  | cons p m ih =>
      by_cases h : p.1 = k
      · simp [List.eraseP_cons, List.erase_cons, h]
      · simp only [List.eraseP_cons, List.map_cons, List.erase_cons]
        rw [if_neg (by simpa using h)]
        have : (p.1 == k) = false := by simpa using h
        simp [this, ih]

theorem mapfst_update {V : Type} (k : String) (v : V) (m : List (String × V)) :
    ((m.map (fun p => if p.1 == k then (k, v) else p)).map Prod.fst)
      = m.map Prod.fst := by
  rw [List.map_map]
  apply List.map_congr_left
  intro p _
  by_cases h : p.1 = k
  · simp [h]
  · simp [h]

theorem erase_getLast_eq_dropLast (l : List String) (hnd : l.Nodup)
    (e : String) (h : l.getLast? = some e) : l.erase e = l.dropLast := by
  have hne : l ≠ [] := by
    intro hl; rw [hl] at h; simp at h
  have hlast : l.getLast hne = e := by
    have := List.getLast?_eq_getLast l hne
    rw [this] at h; exact (Option.some_inj.mp h)
  have hdecomp := List.dropLast_append_getLast hne
  rw [hlast] at hdecomp
  have hnotmem : e ∉ l.dropLast := by
    intro hmem
    have hnd2 : (l.dropLast ++ [e]).Nodup := by rw [hdecomp]; exact hnd
    rcases List.nodup_append.mp hnd2 with ⟨_, _, hdisj⟩
    exact hdisj hmem (by simp)
  conv_lhs => rw [← hdecomp]
  rw [List.erase_append_right _ hnotmem]
  simp

theorem WF_emptyCache (V : Type) : WFCache (emptyCache V) := by
  refine ⟨List.nodup_nil, List.nodup_nil, ?_, ?_, rfl⟩ <;> simp [emptyCache]

theorem WF_get_step {V : Type} (k : String) (st : LruCache V)
    (h : WFCache st) :
    WFCache (get_from_cache k st).2 ∧
      (get_from_cache k st).2.cache.length = st.cache.length := by
  obtain ⟨hnd, hndm, hsub1, hsub2, hlen⟩ := h
  unfold get_from_cache
  cases hc : cacheFind k st.cache with
  | none => exact ⟨⟨hnd, hndm, hsub1, hsub2, hlen⟩, rfl⟩
  | some v =>
      have hkmem : k ∈ st.cache.map Prod.fst := by
        rw [← cacheFind_isSome_iff]; simp [hc]
      have hklru : k ∈ st.lru_list := hsub2 k hkmem
      refine ⟨⟨?_, hndm, ?_, ?_, ?_⟩, rfl⟩
      · refine List.nodup_cons.mpr ⟨?_, hnd.erase k⟩
        intro hmem
        exact ((hnd.mem_erase_iff.mp hmem).1 rfl)
      · intro x hx
        rcases List.mem_cons.mp hx with hx | hx
        · exact hx ▸ hkmem
        · exact hsub1 x (hnd.mem_erase_iff.mp hx).2
      · intro x hx
        by_cases hxk : x = k
        · exact hxk ▸ List.mem_cons_self k _
        · exact List.mem_cons_of_mem _
            (hnd.mem_erase_iff.mpr ⟨hxk, hsub2 x hx⟩)
      · simp only [List.length_cons, List.length_erase_of_mem hklru]
        have : 1 ≤ st.lru_list.length := List.length_pos.mpr
          (List.ne_nil_of_mem hklru)
        omega

theorem WF_put_step {V : Type} (C : Nat) (k : String) (v : V)
    (st : LruCache V) (hC : 0 < C) (h : WFCache st)
    (hle : st.cache.length ≤ C) :
    WFCache (put_in_cache C k v st) ∧
      (put_in_cache C k v st).cache.length ≤ C := by
  obtain ⟨hnd, hndm, hsub1, hsub2, hlen⟩ := h
  unfold put_in_cache
  by_cases hhit : (cacheFind k st.cache).isSome
  · rw [if_pos hhit]
    have hkmem : k ∈ st.cache.map Prod.fst :=
      (cacheFind_isSome_iff k st.cache).mp hhit
    have hklru : k ∈ st.lru_list := hsub2 k hkmem
    have hmapfst := mapfst_update k v st.cache
    refine ⟨⟨?_, by rw [hmapfst]; exact hndm, ?_, ?_, ?_⟩, ?_⟩
    · refine List.nodup_cons.mpr ⟨?_, hnd.erase k⟩
      intro hmem
      exact ((hnd.mem_erase_iff.mp hmem).1 rfl)
    · intro x hx
      rw [hmapfst]
      rcases List.mem_cons.mp hx with hx | hx
      · exact hx ▸ hkmem
      · exact hsub1 x (hnd.mem_erase_iff.mp hx).2
    · intro x hx
      rw [hmapfst] at hx
      by_cases hxk : x = k
      · exact hxk ▸ List.mem_cons_self k _
      · exact List.mem_cons_of_mem _
          (hnd.mem_erase_iff.mpr ⟨hxk, hsub2 x hx⟩)
    · simp only [List.length_cons, List.length_map,
        List.length_erase_of_mem hklru]
      have : 1 ≤ st.lru_list.length := List.length_pos.mpr
        (List.ne_nil_of_mem hklru)
      omega
    · simpa using hle
  · rw [if_neg hhit]
    have hknot : k ∉ st.cache.map Prod.fst := by
      rw [← cacheFind_isSome_iff]; exact hhit
    have hknotlru : k ∉ st.lru_list := fun hmem => hknot (hsub1 k hmem)
    by_cases hcap : C ≤ st.cache.length
    · -- eviction branch
      have hlenC : st.cache.length = C := le_antisymm hle hcap
      have hlrune : st.lru_list ≠ [] := by
        intro hemp
        rw [hemp] at hlen
        simp at hlen
        omega
      obtain ⟨e, he⟩ : ∃ e, st.lru_list.getLast? = some e := by
        cases hgl : st.lru_list.getLast? with
        | none => exact absurd (List.getLast?_eq_none_iff.mp hgl) hlrune
        | some e => exact ⟨e, rfl⟩
      have hemem : e ∈ st.lru_list := by
        have := List.getLast?_eq_getLast st.lru_list hlrune
        rw [this] at he
        rw [← Option.some_inj.mp he]
        exact List.getLast_mem hlrune
      have hemap : e ∈ st.cache.map Prod.fst := hsub1 e hemem
      have heSome : (cacheFind e st.cache).isSome :=
        (cacheFind_isSome_iff e st.cache).mpr hemap
      rw [if_pos hcap, he]
      simp only [heSome, if_true]
      have hmapfst := mapfst_eraseP e st.cache
      have hkne : k ≠ e := fun hek => hknotlru (hek ▸ hemem)
      have hlen1 : (st.cache.eraseP (fun p => p.1 == e)).length
          = st.cache.length - 1 := by
        rcases List.mem_map.mp hemap with ⟨p, hp, hfst⟩
        exact List.length_eraseP_of_mem hp (by simp [hfst])
      refine ⟨⟨?_, ?_, ?_, ?_, ?_⟩, ?_⟩
      · refine List.nodup_cons.mpr ⟨?_, hnd.erase e⟩
        intro hmem
        exact hknotlru (hnd.mem_erase_iff.mp hmem).2
      · simp only [List.map_cons, hmapfst]
        refine List.nodup_cons.mpr ⟨?_, hndm.erase e⟩
        intro hmem
        exact hknot (hndm.mem_erase_iff.mp hmem).2
      · intro x hx
        simp only [List.map_cons, hmapfst]
        rcases List.mem_cons.mp hx with hx | hx
        · exact hx ▸ List.mem_cons_self _ _
        · rcases hnd.mem_erase_iff.mp hx with ⟨hxe, hxl⟩
          exact List.mem_cons_of_mem _
            (hndm.mem_erase_iff.mpr ⟨hxe, hsub1 x hxl⟩)
      · intro x hx
        simp only [List.map_cons, hmapfst] at hx
        rcases List.mem_cons.mp hx with hx | hx
        · exact hx ▸ List.mem_cons_self _ _
        · rcases hndm.mem_erase_iff.mp hx with ⟨hxe, hxm⟩
          exact List.mem_cons_of_mem _
            (hnd.mem_erase_iff.mpr ⟨hxe, hsub2 x hxm⟩)
      · simp only [List.length_cons, hlen1,
          List.length_erase_of_mem hemem, hlen]
      · simp only [List.length_cons, hlen1]
        omega
    · -- room left: plain insert
      rw [if_neg hcap]
      refine ⟨⟨?_, ?_, ?_, ?_, ?_⟩, ?_⟩
      · exact List.nodup_cons.mpr ⟨hknotlru, hnd⟩
      · exact List.nodup_cons.mpr ⟨hknot, hndm⟩
      · intro x hx
        rcases List.mem_cons.mp hx with hx | hx
        · simp [hx]
        · exact List.mem_cons_of_mem _ (hsub1 x hx)
      · intro x hx
        rcases List.mem_cons.mp hx with hx | hx
        · simp [hx]
        · exact List.mem_cons_of_mem _ (hsub2 x hx)
      · simp [hlen]
      · simp only [List.length_cons]
        omega

theorem WF_applyCacheOp {V : Type} (C : Nat) (hC : 0 < C)
    (st : LruCache V) (op : CacheOp V) (h : WFCache st)
    (hle : st.cache.length ≤ C) :
    WFCache (applyCacheOp C st op) ∧
      (applyCacheOp C st op).cache.length ≤ C := by
  cases op with
  | get k =>
      obtain ⟨hwf, hl⟩ := WF_get_step k st h
      exact ⟨hwf, by simpa [applyCacheOp, hl] using hle⟩
  | put k v => exact WF_put_step C k v st hC h hle

theorem WF_runOps {V : Type} (C : Nat) (hC : 0 < C)
    (ops : List (CacheOp V)) :
    WFCache (runOps C ops) ∧ (runOps C ops).cache.length ≤ C := by
  suffices h : ∀ st : LruCache V, WFCache st → st.cache.length ≤ C →
      WFCache (ops.foldl (applyCacheOp C) st) ∧
        (ops.foldl (applyCacheOp C) st).cache.length ≤ C by
    exact h (emptyCache V) (WF_emptyCache V) (by simp [emptyCache])
  induction ops with
  | nil => intro st h hle; exact ⟨h, hle⟩
  | cons op ops ih =>
      intro st h hle
      obtain ⟨h1, h2⟩ := WF_applyCacheOp C hC st op h hle
      exact ih (applyCacheOp C st op) h1 h2

theorem mem_of_getLast_some {α : Type} (l : List α) (e : α)
    (h : l.getLast? = some e) : e ∈ l := by
  have hne : l ≠ [] := by
    intro hl; rw [hl] at h; simp at h
  have heq := List.getLast?_eq_getLast l hne
  rw [heq] at h
  rw [← Option.some_inj.mp h]
  exact List.getLast_mem hne

/-- C6: the caches never exceed their capacity; a put of a fresh key at
capacity evicts exactly the key at the back of the LRU list (the least
recently used); and after any put, or any successful get, the touched key
sits at the front of the LRU list (the MRU position).  Stated for every
reachable state (any sequence of gets and puts from the empty cache) and
every positive capacity, hence for the three engine caches with C = 2600,
500 and 1000. -/
theorem C6_lru_bound_evict_mru {V : Type} (C : Nat)
    (ops : List (CacheOp V)) (key e : String) (v : V) (hC : 0 < C)
    (hfresh : cacheFind key (runOps C ops).cache = none)
    (hcap : (runOps C ops).cache.length = C)
    (hlast : (runOps C ops).lru_list.getLast? = some e) :
    (runOps C ops).cache.length ≤ C ∧
    (put_in_cache C key v (runOps C ops)).lru_list
        = key :: (runOps C ops).lru_list.dropLast ∧
    (put_in_cache C key v (runOps C ops)).cache.map Prod.fst
        = key :: ((runOps C ops).cache.map Prod.fst).erase e ∧
    (put_in_cache C key v (runOps C ops)).cache.length = C ∧
    (∀ k2 : String, ∀ v2 : V,
      (put_in_cache C k2 v2 (runOps C ops)).lru_list.head? = some k2) ∧
    (∀ k2 : String, (cacheFind k2 (runOps C ops).cache).isSome →
      (get_from_cache k2 (runOps C ops)).2.lru_list.head? = some k2) := by
  obtain ⟨hwf, hle⟩ := WF_runOps C hC ops
  obtain ⟨hnd, hndm, hsub1, hsub2, hlen⟩ := hwf
  have hemem : e ∈ (runOps C ops).lru_list := mem_of_getLast_some _ e hlast
  have heSome : (cacheFind e (runOps C ops).cache).isSome :=
    (cacheFind_isSome_iff e _).mpr (hsub1 e hemem)
  have hred : put_in_cache C key v (runOps C ops) =
      { cache := (key, v) ::
          (runOps C ops).cache.eraseP (fun p => p.1 == e),
        lru_list := key :: (runOps C ops).lru_list.erase e } := by
    simp [put_in_cache, hfresh, hlast, heSome, hcap]
  have hlen1 : ((runOps C ops).cache.eraseP (fun p => p.1 == e)).length
      = (runOps C ops).cache.length - 1 := by
    rcases List.mem_map.mp (hsub1 e hemem) with ⟨p, hp, hfst⟩
    exact List.length_eraseP_of_mem hp (by simp [hfst])
  refine ⟨hle, ?_, ?_, ?_, ?_, ?_⟩
  · rw [hred, erase_getLast_eq_dropLast _ hnd e hlast]
  · rw [hred]
    simp [mapfst_eraseP]
  · rw [hred]
    simp only [List.length_cons, hlen1, hcap]
    omega
  · intro k2 v2
    unfold put_in_cache
    by_cases h : (cacheFind k2 (runOps C ops).cache).isSome
    · simp [h]
    · simp [h]
  · intro k2 hk2
    rcases Option.isSome_iff_exists.mp hk2 with ⟨v2, hv2⟩
    simp [get_from_cache, hv2]

/-- C6 witness: capacity 2, run put k1, put k2, get k1, put k3 (evicting
k2); then a fresh put of k4 at capacity evicts k1, the back of the LRU
list. -/
theorem C6_lru_bound_evict_mru_witness :
    ((0 : Nat) < 2 ∧
     cacheFind "k4" (runOps 2 [CacheOp.put "k1" (1 : Nat),
        CacheOp.put "k2" 2, CacheOp.get "k1", CacheOp.put "k3" 3]).cache
          = none ∧
     (runOps 2 [CacheOp.put "k1" (1 : Nat), CacheOp.put "k2" 2,
        CacheOp.get "k1", CacheOp.put "k3" 3]).cache.length = 2 ∧
     (runOps 2 [CacheOp.put "k1" (1 : Nat), CacheOp.put "k2" 2,
        CacheOp.get "k1", CacheOp.put "k3" 3]).lru_list.getLast?
          = some "k1") ∧
    ((runOps 2 [CacheOp.put "k1" (1 : Nat), CacheOp.put "k2" 2,
        CacheOp.get "k1", CacheOp.put "k3" 3]).cache.length ≤ 2 ∧
     (put_in_cache 2 "k4" 4 (runOps 2 [CacheOp.put "k1" (1 : Nat),
        CacheOp.put "k2" 2, CacheOp.get "k1", CacheOp.put "k3" 3])).lru_list
        = "k4" :: (runOps 2 [CacheOp.put "k1" (1 : Nat), CacheOp.put "k2" 2,
            CacheOp.get "k1", CacheOp.put "k3" 3]).lru_list.dropLast ∧
     (put_in_cache 2 "k4" 4 (runOps 2 [CacheOp.put "k1" (1 : Nat),
        CacheOp.put "k2" 2, CacheOp.get "k1",
        CacheOp.put "k3" 3])).cache.map Prod.fst
        = "k4" :: ((runOps 2 [CacheOp.put "k1" (1 : Nat), CacheOp.put "k2" 2,
            CacheOp.get "k1",
            CacheOp.put "k3" 3]).cache.map Prod.fst).erase "k1" ∧
     (put_in_cache 2 "k4" 4 (runOps 2 [CacheOp.put "k1" (1 : Nat),
        CacheOp.put "k2" 2, CacheOp.get "k1",
        CacheOp.put "k3" 3])).cache.length = 2 ∧
     (∀ k2 : String, ∀ v2 : Nat,
       (put_in_cache 2 k2 v2 (runOps 2 [CacheOp.put "k1" (1 : Nat),
          CacheOp.put "k2" 2, CacheOp.get "k1",
          CacheOp.put "k3" 3])).lru_list.head? = some k2) ∧
     (∀ k2 : String,
       (cacheFind k2 (runOps 2 [CacheOp.put "k1" (1 : Nat),
          CacheOp.put "k2" 2, CacheOp.get "k1",
          CacheOp.put "k3" 3]).cache).isSome →
       (get_from_cache k2 (runOps 2 [CacheOp.put "k1" (1 : Nat),
          CacheOp.put "k2" 2, CacheOp.get "k1",
          CacheOp.put "k3" 3])).2.lru_list.head? = some k2)) :=
  ⟨⟨by decide, by decide, by decide, by decide⟩,
   C6_lru_bound_evict_mru 2
     [CacheOp.put "k1" (1 : Nat), CacheOp.put "k2" 2,
      CacheOp.get "k1", CacheOp.put "k3" 3]
     "k4" "k1" 4 (by decide) (by decide) (by decide) (by decide)⟩

/-! ## Cache persistence round trip -/

theorem cacheFind_mem {V : Type} (k : String) (v : V)
    (m : List (String × V)) (hnd : (m.map Prod.fst).Nodup)
    (hm : (k, v) ∈ m) : cacheFind k m = some v := by
  induction m with
  | nil => cases hm
  | cons p m ih =>
      rcases List.mem_cons.mp hm with hm | hm
      · unfold cacheFind
        rw [List.find?_cons_of_pos _ (by simp [← hm])]
        simp [← hm]
      · have hpk : p.1 ≠ k := by
          intro hpk
          have : k ∈ m.map Prod.fst :=
            List.mem_map.mpr ⟨(k, v), hm, rfl⟩
          rw [List.map_cons, List.nodup_cons] at hnd
          exact hnd.1 (hpk ▸ this)
        unfold cacheFind
        rw [List.find?_cons_of_neg _ (by simp [hpk])]
        exact ih (by rw [List.map_cons, List.nodup_cons] at hnd; exact hnd.2) hm

theorem mem_of_cacheFind_eq_some {V : Type} (k : String) (v : V)
    (m : List (String × V)) (h : cacheFind k m = some v) : (k, v) ∈ m := by
  unfold cacheFind at h
  cases hf : m.find? (fun p => p.1 == k) with
  | none => rw [hf] at h; cases h
  | some p =>
      rw [hf] at h
      have hp1 : p.1 = k := by simpa using List.find?_some hf
      have hp2 : p.2 = v := by simpa using h
      have : p ∈ m := List.mem_of_find?_eq_some hf
      rwa [show (k, v) = p from by rw [← hp1, ← hp2]]

theorem cacheFind_perm {V : Type} (k : String) (m m2 : List (String × V))
    (hnd : (m.map Prod.fst).Nodup) (hperm : m2.Perm m) :
    cacheFind k m2 = cacheFind k m := by
  have hnd2 : (m2.map Prod.fst).Nodup := ((hperm.map Prod.fst).nodup_iff).mpr hnd
  cases hm : cacheFind k m with
  | none =>
      rw [cacheFind_eq_none_iff] at hm ⊢
      intro hmem
      exact hm ((hperm.map Prod.fst).mem_iff.mp hmem)
  | some v =>
      exact cacheFind_mem k v m2 hnd2
        (hperm.mem_iff.mpr (mem_of_cacheFind_eq_some k v m hm))

theorem load_cache_foldl {V : Type} (file : List (String × V)) :
    ∀ st0 : LruCache V,
      ((st0.cache.map Prod.fst) ++ file.map Prod.fst).Nodup →
      (file.foldl
        (fun st kv =>
          { cache := insertAssoc kv st.cache,
            lru_list := st.lru_list ++ [kv.1] })
        st0).cache = file.reverse ++ st0.cache ∧
      (file.foldl
        (fun st kv =>
          { cache := insertAssoc kv st.cache,
            lru_list := st.lru_list ++ [kv.1] })
        st0).lru_list = st0.lru_list ++ file.map Prod.fst := by
  induction file with
  | nil => intro st0 h; simp
  | cons kv file ih =>
      intro st0 h
      have hkfresh : kv.1 ∉ st0.cache.map Prod.fst := by
        have := (List.nodup_append.mp h).2.2
        intro hmem
        exact this hmem (by simp)
      have hins : insertAssoc kv st0.cache = kv :: st0.cache := by
        unfold insertAssoc
        rw [if_neg]
        rw [Option.isSome_iff_ne_none]
        simp only [ne_eq, not_not]
        exact (cacheFind_eq_none_iff kv.1 st0.cache).mpr hkfresh
      have hnd1 : (((kv :: st0.cache).map Prod.fst)
          ++ file.map Prod.fst).Nodup := by
        simp only [List.map_cons, List.cons_append]
        have hperm : (kv.1 :: (List.map Prod.fst st0.cache
            ++ List.map Prod.fst file)).Perm
            (List.map Prod.fst st0.cache
              ++ kv.1 :: List.map Prod.fst file) :=
          (List.perm_middle).symm
        have : (List.map Prod.fst st0.cache
            ++ kv.1 :: List.map Prod.fst file).Nodup := by
          simpa using h
        exact (hperm.nodup_iff).mpr this
      obtain ⟨h1, h2⟩ := ih ⟨kv :: st0.cache, st0.lru_list ++ [kv.1]⟩ hnd1
      constructor
      · simp only [List.foldl_cons, hins]
        rw [h1]
        simp
      · simp only [List.foldl_cons, hins]
        rw [h2]
        simp

/-- C7 counterexample: a two-entry cache with LRU order [a (MRU), b]
saved in the unordered map iteration order b-first loads back with LRU
order [b (MRU), a]; the key-to-result mapping survives but the LRU order
does not, so a subsequent eviction at capacity removes b from the
original cache yet keeps b in the reloaded one. -/
theorem C7_save_load_counterexample :
    [("b", (1 : Nat)), ("a", 2)].Perm
        (runOps 2 [CacheOp.put "b" (1 : Nat), CacheOp.put "a" 2]).cache ∧
    (load_cache [("b", (1 : Nat)), ("a", 2)]).lru_list ≠
        (runOps 2 [CacheOp.put "b" (1 : Nat), CacheOp.put "a" 2]).lru_list ∧
    cacheFind "b" (put_in_cache 2 "c" 3
        (runOps 2 [CacheOp.put "b" (1 : Nat), CacheOp.put "a" 2])).cache
      = none ∧
    (cacheFind "b" (put_in_cache 2 "c" 3
        (load_cache [("b", (1 : Nat)), ("a", 2)])).cache).isSome := by
  refine ⟨?_, by decide, by decide, by decide⟩
  decide

/-- C7 (amended): saving a well-formed cache (one {key, result} item per
unordered_map entry, in whatever order the map iterates) and loading the
file back restores exactly the same key-to-result mapping, so any
sequence of gets sees the same hits and misses; but the restored LRU
order is the serialization order of the map (first item saved becomes
MRU), not the pre-save LRU order, so eviction choices may differ. -/
theorem C7_save_load_restores_mapping {V : Type} (st : LruCache V)
    (file : List (String × V)) (hwf : WFCache st)
    (hperm : file.Perm st.cache) :
    (∀ k, cacheFind k (load_cache file).cache = cacheFind k st.cache) ∧
    (load_cache file).lru_list = file.map Prod.fst := by
  obtain ⟨hnd, hndm, hsub1, hsub2, hlen⟩ := hwf
  have hndfile : (file.map Prod.fst).Nodup :=
    ((hperm.map Prod.fst).nodup_iff).mpr hndm
  obtain ⟨h1, h2⟩ := load_cache_foldl file (emptyCache V)
    (by simpa [emptyCache] using hndfile)
  have hlc : (load_cache file).cache = file.reverse ++ (emptyCache V).cache := h1
  have hll : (load_cache file).lru_list
      = (emptyCache V).lru_list ++ file.map Prod.fst := h2
  constructor
  · intro k
    rw [hlc]
    have hpermrev : (file.reverse ++ (emptyCache V).cache).Perm st.cache := by
      simpa [emptyCache] using (file.reverse_perm.trans hperm)
    exact cacheFind_perm k st.cache _ hndm hpermrev
  · rw [hll]
    simp [emptyCache]

/-- C7 witness: the amended round trip applied to the concrete two-entry
cache of the counterexample, saved in map-iteration order b-first. -/
theorem C7_save_load_restores_mapping_witness :
    (WFCache (runOps 2 [CacheOp.put "b" (1 : Nat), CacheOp.put "a" 2]) ∧
     [("b", (1 : Nat)), ("a", 2)].Perm
       (runOps 2 [CacheOp.put "b" (1 : Nat), CacheOp.put "a" 2]).cache) ∧
    ((∀ k, cacheFind k (load_cache [("b", (1 : Nat)), ("a", 2)]).cache
        = cacheFind k
            (runOps 2 [CacheOp.put "b" (1 : Nat), CacheOp.put "a" 2]).cache) ∧
     (load_cache [("b", (1 : Nat)), ("a", 2)]).lru_list
        = [("b", (1 : Nat)), ("a", 2)].map Prod.fst) :=
  ⟨⟨by decide, by decide⟩,
   C7_save_load_restores_mapping
     (runOps 2 [CacheOp.put "b" (1 : Nat), CacheOp.put "a" 2])
     [("b", (1 : Nat)), ("a", 2)] (by decide) (by decide)⟩

/-! ## Record-level round trips -/

theorem parseStrings_flatten (ss : List (List Byte)) (rest : List Byte)
    (h : ∀ s ∈ ss, s.length < 4294967296) :
    parseStrings ss.length ((ss.map write_string).flatten ++ rest)
      = some ss := by
  induction ss with
  | nil => rfl
  | cons s ss ih =>
      simp only [List.map_cons, List.flatten_cons, List.length_cons,
        List.append_assoc]
      unfold parseStrings
      rw [read_string_write_string s _ (h s (by simp))]
      simp only [Option.some_bind]
      rw [ih (fun x hx => h x (by simp [hx]))]
      rfl

theorem load_manifest_save_manifest (segs : List (List Byte))
    (hn : segs.length < 4294967296)
    (h : ∀ s ∈ segs, s.length < 4294967296) :
    load_manifest (save_manifest segs) = some segs := by
  unfold load_manifest save_manifest
  rw [read_u32_write_u32, Nat.mod_eq_of_lt hn]
  have := parseStrings_flatten segs [] h
  simpa using this

theorem parseDocs_flatten (ds : List DocMeta) (rest : List Byte)
    (h : ∀ d ∈ ds, d.cord_uid.length < 4294967296 ∧
      d.title.length < 4294967296 ∧ d.json_relpath.length < 4294967296 ∧
      d.doc_len < 4294967296) :
    parseDocs ds.length ((ds.map docRecordBytes).flatten ++ rest)
      = some ds := by
  induction ds with
  | nil => rfl
  | cons d ds ih =>
      obtain ⟨h1, h2, h3, h4⟩ := h d (by simp)
      simp only [List.map_cons, List.flatten_cons, List.length_cons,
        docRecordBytes, List.append_assoc]
      unfold parseDocs
      rw [read_string_write_string _ _ h1]
      simp only [Option.some_bind]
      rw [read_string_write_string _ _ h2]
      simp only [Option.some_bind]
      rw [read_string_write_string _ _ h3]
      simp only [Option.some_bind]
      rw [read_u32_write_u32, Nat.mod_eq_of_lt h4]
      simp only [Option.some_bind]
      rw [ih (fun x hx => h x (by simp [hx]))]
      rfl

theorem parseLexRecords_flatten (b : Nat)
    (rs : List (List Byte × LexEntry)) (rest : List Byte)
    (h : ∀ r ∈ rs, r.1.length < 4294967296 ∧ r.2.termId < 4294967296 ∧
      r.2.df < 4294967296 ∧ r.2.offset < 18446744073709551616 ∧
      r.2.count < 4294967296 ∧ r.2.barrelId = b) :
    parseLexRecords b rs.length ((rs.map lexRecBytesOf).flatten ++ rest)
      = some rs := by
  induction rs with
  | nil => rfl
  | cons r rs ih =>
      obtain ⟨h1, h2, h3, h4, h5, h6⟩ := h r (by simp)
      simp only [List.map_cons, List.flatten_cons, List.length_cons,
        lexRecBytesOf, lexRecordBytes, List.append_assoc]
      unfold parseLexRecords
      rw [read_string_write_string _ _ h1]
      simp only [Option.some_bind]
      rw [read_u32_write_u32, Nat.mod_eq_of_lt h2]
      simp only [Option.some_bind]
      rw [read_u32_write_u32, Nat.mod_eq_of_lt h3]
      simp only [Option.some_bind]
      rw [read_u64_write_u64, Nat.mod_eq_of_lt h4]
      simp only [Option.some_bind]
      rw [read_u32_write_u32, Nat.mod_eq_of_lt h5]
      simp only [Option.some_bind]
      rw [ih (fun x hx => h x (by simp [hx]))]
      obtain ⟨t, e⟩ := r
      obtain ⟨tid, df, off, cnt, bid⟩ := e
      simp only at h6
      subst h6
      rfl

theorem read_postings_flatten (ps : List Posting) (rest : List Byte)
    (h : ∀ p ∈ ps, p.docId < 4294967296 ∧ p.tf < 4294967296) :
    read_postings (plistBytes ps ++ rest) ps.length = some ps := by
  induction ps with
  | nil => rfl
  | cons p ps ih =>
      obtain ⟨h1, h2⟩ := h p (by simp)
      simp only [plistBytes, List.map_cons, List.flatten_cons,
        List.length_cons, postingBytes, List.append_assoc]
      unfold read_postings
      rw [read_u32_write_u32, Nat.mod_eq_of_lt h1]
      simp only [Option.some_bind]
      rw [read_u32_write_u32, Nat.mod_eq_of_lt h2]
      simp only [Option.some_bind]
      have := ih (fun x hx => h x (by simp [hx]))
      unfold plistBytes at this
      rw [this]
      rfl

/-! ## The barrel-writing loop: closed form -/

theorem getD_set_self {α : Type} (l : List α) (i : Nat) (x d : α)
    (h : i < l.length) : (l.set i x).getD i d = x := by
  rw [List.getD_eq_getElem?_getD, List.getElem?_set_self h]
  rfl

theorem getD_set_ne {α : Type} (l : List α) (i j : Nat) (x d : α)
    (h : i ≠ j) : (l.set i x).getD j d = l.getD j d := by
  rw [List.getD_eq_getElem?_getD, List.getElem?_set_ne h,
    ← List.getD_eq_getElem?_getD]

theorem getD_replicate {α : Type} (n i : Nat) (a d : α) (h : i < n) :
    (List.replicate n a).getD i d = a := by
  rw [List.getD_eq_getElem?_getD, List.getElem?_replicate, if_pos h]
  rfl

theorem barrel_for_term_lt (tid : Nat) (bp : BarrelParams)
    (h1 : 0 < bp.barrel_count) (h2 : bp.barrel_count ≤ 4294967296) :
    barrel_for_term tid bp < bp.barrel_count := by
  unfold barrel_for_term
  by_cases h : bp.terms_per_barrel = 0
  · simp [h, h1]
  · simp only [h, if_false]
    by_cases hb : bp.barrel_count ≤ tid / bp.terms_per_barrel
    · rw [if_pos hb]
      have : (bp.barrel_count + 4294967295) % 4294967296
          = bp.barrel_count - 1 := by omega
      omega
    · rw [if_neg hb]
      omega

theorem plistBytes_length (l : List Posting) :
    (plistBytes l).length = 8 * l.length := by
  induction l with
  | nil => rfl
  | cons p l ih =>
      simp only [plistBytes, List.map_cons, List.flatten_cons,
        List.length_append, List.length_cons] at *
      have h8 : (postingBytes p).length = 8 := rfl
      omega

theorem tidsOfBarrel_succ (bp : BarrelParams)
    (entry : Nat → Option (List Byte × List Posting)) (n b : Nat) :
    tidsOfBarrel bp entry (n + 1) b =
      tidsOfBarrel bp entry n b ++
        (if (entry n).isSome && (barrel_for_term n bp == b) then [n]
         else []) := by
  unfold tidsOfBarrel
  rw [List.range_succ, List.filter_append, List.filter_singleton]
  by_cases h : ((entry n).isSome && (barrel_for_term n bp == b)) = true
  · simp [h]
  · simp [h, Bool.eq_false_iff.mpr h]

theorem invContent_succ (bp : BarrelParams)
    (entry : Nat → Option (List Byte × List Posting)) (n b : Nat) :
    invContent bp entry (n + 1) b =
      invContent bp entry n b ++
        (if (entry n).isSome && (barrel_for_term n bp == b) then
          plistBytes (plistOf entry n)
         else []) := by
  unfold invContent
  rw [tidsOfBarrel_succ, List.map_append, List.flatten_append]
  congr 1
  by_cases h : ((entry n).isSome && (barrel_for_term n bp == b)) = true
  · simp [h]
  · simp [h]

theorem lexRecordsOfBarrel_succ (bp : BarrelParams)
    (entry : Nat → Option (List Byte × List Posting)) (n b : Nat) :
    lexRecordsOfBarrel bp entry (n + 1) b =
      lexRecordsOfBarrel bp entry n b ++
        (if (entry n).isSome && (barrel_for_term n bp == b) then
          [(termOf entry n,
            ⟨n, (plistOf entry n).length, (invContent bp entry n b).length,
             (plistOf entry n).length, b⟩)]
         else []) := by
  unfold lexRecordsOfBarrel
  rw [tidsOfBarrel_succ, List.map_append]
  congr 1
  by_cases h : ((entry n).isSome && (barrel_for_term n bp == b)) = true
  · simp [h]
  · simp [h]

theorem emitBarrels_spec (bp : BarrelParams)
    (entry : Nat → Option (List Byte × List Posting))
    (hbc : 0 < bp.barrel_count) (hbc2 : bp.barrel_count ≤ 4294967296)
    (n : Nat) :
    (emitBarrels bp n entry).inv.length = bp.barrel_count ∧
    (emitBarrels bp n entry).lex.length = bp.barrel_count ∧
    (emitBarrels bp n entry).offsets.length = bp.barrel_count ∧
    (emitBarrels bp n entry).counts.length = bp.barrel_count ∧
    ∀ b, b < bp.barrel_count →
      (emitBarrels bp n entry).inv.getD b [] = invContent bp entry n b ∧
      (emitBarrels bp n entry).lex.getD b [] =
        ((lexRecordsOfBarrel bp entry n b).map lexRecBytesOf).flatten ∧
      (emitBarrels bp n entry).offsets.getD b 0 =
        (invContent bp entry n b).length ∧
      (emitBarrels bp n entry).counts.getD b 0 =
        (tidsOfBarrel bp entry n b).length := by
  induction n with
  | zero =>
      refine ⟨by simp [emitBarrels, initBarrelState],
        by simp [emitBarrels, initBarrelState],
        by simp [emitBarrels, initBarrelState],
        by simp [emitBarrels, initBarrelState], ?_⟩
      intro b hb
      simp [emitBarrels, initBarrelState, invContent, tidsOfBarrel,
        lexRecordsOfBarrel, getD_replicate _ _ _ _ hb]
  | succ n ih =>
      obtain ⟨hl1, hl2, hl3, hl4, hb⟩ := ih
      have hstep : emitBarrels bp (n + 1) entry =
          emitTerm bp entry (emitBarrels bp n entry) n := by
        unfold emitBarrels
        rw [List.range_succ, List.foldl_append]
        rfl
      rw [hstep]
      cases hen : entry n with
      | none =>
          have hskip : emitTerm bp entry (emitBarrels bp n entry) n
              = emitBarrels bp n entry := by
            unfold emitTerm
            rw [hen]
          rw [hskip]
          refine ⟨hl1, hl2, hl3, hl4, ?_⟩
          intro b hbb
          obtain ⟨g1, g2, g3, g4⟩ := hb b hbb
          have hcond : ((entry n).isSome &&
              (barrel_for_term n bp == b)) = false := by
            rw [hen]; rfl
          refine ⟨?_, ?_, ?_, ?_⟩
          · rw [invContent_succ, hcond]; simpa using g1
          · rw [lexRecordsOfBarrel_succ, hcond]; simpa using g2
          · rw [invContent_succ, hcond]; simpa using g3
          · rw [tidsOfBarrel_succ, hcond]; simpa using g4
      | some tp =>
          obtain ⟨term, plist⟩ := tp
          have hb0 : barrel_for_term n bp < bp.barrel_count :=
            barrel_for_term_lt n bp hbc hbc2
          have hemit : emitTerm bp entry (emitBarrels bp n entry) n =
              { inv := (emitBarrels bp n entry).inv.set (barrel_for_term n bp)
                  ((emitBarrels bp n entry).inv.getD (barrel_for_term n bp) []
                    ++ plistBytes plist),
                lex := (emitBarrels bp n entry).lex.set (barrel_for_term n bp)
                  ((emitBarrels bp n entry).lex.getD (barrel_for_term n bp) []
                    ++ lexRecordBytes term n plist.length
                      ((emitBarrels bp n entry).offsets.getD
                        (barrel_for_term n bp) 0)
                      plist.length),
                offsets := (emitBarrels bp n entry).offsets.set
                  (barrel_for_term n bp)
                  ((emitBarrels bp n entry).offsets.getD
                    (barrel_for_term n bp) 0 + plist.length * 8),
                counts := (emitBarrels bp n entry).counts.set
                  (barrel_for_term n bp)
                  ((emitBarrels bp n entry).counts.getD
                    (barrel_for_term n bp) 0 + 1) } := by
            unfold emitTerm
            rw [hen]
          rw [hemit]
          have hplistOf : plistOf entry n = plist := by simp [plistOf, hen]
          have htermOf : termOf entry n = term := by simp [termOf, hen]
          refine ⟨by simp [List.length_set, hl1],
            by simp [List.length_set, hl2],
            by simp [List.length_set, hl3],
            by simp [List.length_set, hl4], ?_⟩
          intro b hbb
          obtain ⟨g1, g2, g3, g4⟩ := hb b hbb
          by_cases hbeq : b = barrel_for_term n bp
          · subst hbeq
            have hcond : ((entry n).isSome &&
                (barrel_for_term n bp == barrel_for_term n bp)) = true := by
              rw [hen]; simp
            refine ⟨?_, ?_, ?_, ?_⟩
            · rw [getD_set_self _ _ _ _ (by rw [hl1]; exact hb0)]
              rw [invContent_succ, hcond, g1, hplistOf]
              simp
            · rw [getD_set_self _ _ _ _ (by rw [hl2]; exact hb0)]
              rw [lexRecordsOfBarrel_succ, hcond]
              simp only [if_true, List.map_append, List.flatten_append,
                g2, g3]
              simp [lexRecBytesOf, htermOf, hplistOf]
            · rw [getD_set_self _ _ _ _ (by rw [hl3]; exact hb0)]
              rw [invContent_succ, hcond, g3]
              simp only [if_true, List.length_append, hplistOf,
                plistBytes_length]
              omega
            · rw [getD_set_self _ _ _ _ (by rw [hl4]; exact hb0)]
              rw [tidsOfBarrel_succ, hcond, g4]
              simp
          · have hcond : ((entry n).isSome &&
                (barrel_for_term n bp == b)) = false := by
              simp only [Bool.and_eq_false_iff]
              right
              simp [Ne.symm hbeq]
            refine ⟨?_, ?_, ?_, ?_⟩
            · rw [getD_set_ne _ _ _ _ _ (Ne.symm hbeq),
                invContent_succ, hcond, g1]
              simp
            · rw [getD_set_ne _ _ _ _ _ (Ne.symm hbeq),
                lexRecordsOfBarrel_succ, hcond, g2]
              simp
            · rw [getD_set_ne _ _ _ _ _ (Ne.symm hbeq),
                invContent_succ, hcond, g3]
              simp
            · rw [getD_set_ne _ _ _ _ _ (Ne.symm hbeq),
                tidsOfBarrel_succ, hcond, g4]
              simp

/-- Postings of an emitted term are addressable in the final inverted
barrel at the offset recorded when the term was written: the bytes
emitted by larger termIds only ever append. -/
theorem invContent_addr (bp : BarrelParams)
    (entry : Nat → Option (List Byte × List Posting)) :
    ∀ n tid, tid < n → ∀ term plist, entry tid = some (term, plist) →
      ∃ suffix, invContent bp entry n (barrel_for_term tid bp) =
        invContent bp entry tid (barrel_for_term tid bp)
          ++ plistBytes plist ++ suffix := by
  intro n
  induction n with
  | zero => intro tid h; omega
  | succ n ih =>
      intro tid h term plist hen
      by_cases htid : tid < n
      · obtain ⟨suffix, hsuf⟩ := ih tid htid term plist hen
        refine ⟨suffix ++
          (if ((entry n).isSome &&
              (barrel_for_term n bp == barrel_for_term tid bp)) = true
           then plistBytes (plistOf entry n) else []), ?_⟩
        rw [invContent_succ, hsuf]
        simp
      · have htn : tid = n := by omega
        subst htn
        rw [invContent_succ]
        have hcond : ((entry tid).isSome &&
            (barrel_for_term tid bp == barrel_for_term tid bp)) = true := by
          rw [hen]; simp
        rw [hcond]
        refine ⟨[], ?_⟩
        simp only [if_true]
        have : plistOf entry tid = plist := by simp [plistOf, hen]
        rw [this]
        simp

/-- The patched lexicon file of barrel b: the final term count followed
by the record bytes. -/
theorem patchedLexFiles_spec (bp : BarrelParams)
    (entry : Nat → Option (List Byte × List Posting))
    (hbc : 0 < bp.barrel_count) (hbc2 : bp.barrel_count ≤ 4294967296)
    (n : Nat) :
    (patchedLexFiles (emitBarrels bp n entry)).length = bp.barrel_count ∧
    ∀ b, b < bp.barrel_count →
      (patchedLexFiles (emitBarrels bp n entry)).getD b [] =
        write_u32 (tidsOfBarrel bp entry n b).length ++
          ((lexRecordsOfBarrel bp entry n b).map lexRecBytesOf).flatten := by
  obtain ⟨hl1, hl2, hl3, hl4, hb⟩ := emitBarrels_spec bp entry hbc hbc2 n
  constructor
  · simp [patchedLexFiles, List.length_zipWith, hl2, hl4]
  · intro b hbb
    obtain ⟨g1, g2, g3, g4⟩ := hb b hbb
    unfold patchedLexFiles
    have hb4 : b < (emitBarrels bp n entry).counts.length := by
      rw [hl4]; exact hbb
    have hb2 : b < (emitBarrels bp n entry).lex.length := by
      rw [hl2]; exact hbb
    rw [List.getD_eq_getElem?_getD, List.getElem?_zipWith]
    rw [List.getElem?_eq_getElem hb4]
    rw [List.getElem?_eq_getElem hb2]
    have e4 : (emitBarrels bp n entry).counts[b]
        = (tidsOfBarrel bp entry n b).length := by
      rw [← g4, List.getD_eq_getElem?_getD,
        List.getElem?_eq_getElem hb4]
      rfl
    have e2 : (emitBarrels bp n entry).lex[b]
        = ((lexRecordsOfBarrel bp entry n b).map lexRecBytesOf).flatten := by
      rw [← g2, List.getD_eq_getElem?_getD,
        List.getElem?_eq_getElem hb2]
      rfl
    simp [e4, e2]

/-- Generic parse of the whole lexicon directory: if every barrel file
parses, the flat map is the concatenation in barrel order. -/
theorem parseAllLexFiles_eq (files : List (List Byte))
    (recs : Nat → List (List Byte × LexEntry)) :
    ∀ bs : List Nat,
      (∀ b ∈ bs, parseLexFile b (files.getD b []) = some (recs b)) →
      bs.foldr
        (fun b acc =>
          match parseLexFile b (files.getD b []), acc with
          | some l, some a => some (l ++ a)
          | _, _ => none)
        (some []) = some ((bs.map recs).flatten) := by
  intro bs
  induction bs with
  | nil => intro h; rfl
  | cons b bs ih =>
      intro h
      simp only [List.foldr_cons, ih (fun x hx => h x (by simp [hx])),
        h b (by simp), List.map_cons, List.flatten_cons]

/-! ## Association and assembly helper lemmas -/

theorem find?_pair_eq_none_iff {α β : Type} [BEq α] [LawfulBEq α]
    (l : List (α × β)) (k : α) :
    l.find? (fun q => q.1 == k) = none ↔ k ∉ l.map Prod.fst := by
  rw [List.find?_eq_none]
  constructor
  · intro h hk
    rcases List.mem_map.mp hk with ⟨p, hp, hfst⟩
    exact h p hp (by simp [hfst])
  · intro h p hp hbeq
    exact h (List.mem_map.mpr ⟨p, hp, by simpa using hbeq⟩)

theorem find?_pair_mem {α β : Type} [BEq α] [LawfulBEq α]
    (l : List (α × β)) (k : α) (v : β)
    (hnd : (l.map Prod.fst).Nodup) (hm : (k, v) ∈ l) :
    l.find? (fun q => q.1 == k) = some (k, v) := by
  induction l with
  | nil => cases hm
  | cons p l ih =>
      rcases List.mem_cons.mp hm with hm | hm
      · rw [List.find?_cons_of_pos _ (by simp [← hm])]
        rw [← hm]
      · have hpk : p.1 ≠ k := by
          intro hpk
          have : k ∈ l.map Prod.fst := List.mem_map.mpr ⟨(k, v), hm, rfl⟩
          rw [List.map_cons, List.nodup_cons] at hnd
          exact hnd.1 (hpk ▸ this)
        rw [List.find?_cons_of_neg _ (by simp [hpk])]
        exact ih (by rw [List.map_cons, List.nodup_cons] at hnd; exact hnd.2) hm

theorem find?_map_unique {α β : Type} (f : α → β) (p : β → Bool)
    (l : List α) (a : α) (ha : a ∈ l) (hpa : p (f a) = true)
    (huniq : ∀ x ∈ l, p (f x) = true → x = a) :
    (l.map f).find? p = some (f a) := by
  induction l with
  | nil => cases ha
  | cons x l ih =>
      by_cases hx : p (f x) = true
      · have : x = a := huniq x (by simp) hx
        subst this
        simp [List.find?_cons_of_pos _ hx]
      · rw [List.map_cons, List.find?_cons_of_neg _ (by simpa using hx)]
        have hal : a ∈ l := by
          rcases List.mem_cons.mp ha with h | h
          · exact absurd (h ▸ hpa) hx
          · exact h
        exact ih hal (fun y hy hpy => huniq y (by simp [hy]) hpy)

theorem getD_append_single {α : Type} (l : List α) (x d : α) (i : Nat) :
    (l ++ [x]).getD i d = if i = l.length then x else l.getD i d := by
  rw [List.getD_eq_getElem?_getD, List.getElem?_append]
  by_cases h : i < l.length
  · rw [if_pos h, if_neg (by omega), ← List.getD_eq_getElem?_getD]
  · rw [if_neg h]
    by_cases h2 : i = l.length
    · subst h2
      simp
    · rw [if_neg h2, List.getD_eq_getElem?_getD]
      have : l[i]? = none := List.getElem?_eq_none (by omega)
      have h3 : i - l.length ≠ 0 := by omega
      rw [this]
      cases hi : i - l.length with
      | zero => omega
      | succ m => simp

theorem assembleFromForward_append_one (forward : List (List (Nat × Nat)))
    (f : List (Nat × Nat)) (tid : Nat) :
    assembleFromForward (forward ++ [f]) tid =
      assembleFromForward forward tid ++
        (match f.find? (fun q => q.1 == tid) with
         | some q => [(⟨forward.length, q.2⟩ : Posting)]
         | none => []) := by
  unfold assembleFromForward
  rw [List.enum_append, List.filterMap_append]
  congr 1
  rw [List.enumFrom_cons]
  cases hf : f.find? (fun q => q.1 == tid) with
  | none => simp [List.filterMap_cons, hf]
  | some q => simp [List.filterMap_cons, hf]

theorem assembleFromForward_sorted_bounded (forward : List (List (Nat × Nat)))
    (tid : Nat) :
    List.Pairwise (fun p q : Posting => p.docId < q.docId)
      (assembleFromForward forward tid) ∧
    ∀ p ∈ assembleFromForward forward tid, p.docId < forward.length := by
  induction forward using List.reverseRecOn with
  | nil => exact ⟨List.Pairwise.nil, by intro p hp; cases hp⟩
  | append_singleton l f ih =>
      obtain ⟨ih1, ih2⟩ := ih
      rw [assembleFromForward_append_one]
      constructor
      · rw [List.pairwise_append]
        refine ⟨ih1, ?_, ?_⟩
        · cases hf : f.find? (fun q => q.1 == tid) <;> simp
        · intro a ha b hb
          have ha2 := ih2 a ha
          cases hf : f.find? (fun q => q.1 == tid) with
          | none => rw [hf] at hb; cases hb
          | some q =>
              rw [hf] at hb
              rcases List.mem_singleton.mp hb with rfl
              exact ha2
      · intro p hp
        rw [List.length_append, List.length_singleton]
        rcases List.mem_append.mp hp with hp | hp
        · have := ih2 p hp; omega
        · cases hf : f.find? (fun q => q.1 == tid) with
          | none => rw [hf] at hp; cases hp
          | some q =>
              rw [hf] at hp
              rcases List.mem_singleton.mp hp with rfl
              simp

theorem assembleFromForward_empty_of_ge (forward : List (List (Nat × Nat)))
    (T tid : Nat) (hT : T ≤ tid)
    (hf : ∀ f ∈ forward, ∀ q ∈ f, q.1 < T) :
    assembleFromForward forward tid = [] := by
  unfold assembleFromForward
  rw [List.filterMap_eq_nil_iff]
  intro df hdf
  have hmem : df.2 ∈ forward := by
    have h1 := List.mem_enum_iff_getElem?.mp hdf
    exact List.getElem?_mem h1
  have hnone : df.2.find? (fun q => q.1 == tid) = none := by
    rw [List.find?_eq_none]
    intro q hq
    have := hf df.2 hmem q hq
    simp only [beq_iff_eq]
    omega
  rw [hnone]
  rfl

/-! ## Term interning -/

theorem indexOfTerm_eq_none_iff (l : List (List Byte)) (t : List Byte) :
    indexOfTerm l t = none ↔ t ∉ l := by
  induction l with
  | nil => simp [indexOfTerm]
  | cons x l ih =>
      unfold indexOfTerm
      by_cases h : x = t
      · simp [h]
      · have : (x == t) = false := by simpa using h
        simp [this, ih, Option.map_eq_none', h, Ne.symm h]

theorem indexOfTerm_spec (l : List (List Byte)) (t : List Byte) (i : Nat)
    (h : indexOfTerm l t = some i) : i < l.length ∧ l.getD i [] = t := by
  induction l generalizing i with
  | nil => cases h
  | cons x l ih =>
      unfold indexOfTerm at h
      by_cases hx : x = t
      · have : (x == t) = true := by simpa using hx
        rw [this] at h
        simp only [if_true] at h
        cases h
        simp [hx]
      · have : (x == t) = false := by simpa using hx
        rw [this] at h
        simp only [Bool.false_eq_true, if_false] at h
        cases hio : indexOfTerm l t with
        | none => rw [hio] at h; cases h
        | some j =>
            rw [hio] at h
            simp only [Option.map_some'] at h
            obtain ⟨hj1, hj2⟩ := ih j hio
            cases h
            constructor
            · simp; omega
            · simpa using hj2

theorem indexOfTerm_append_of_some (l l2 : List (List Byte))
    (t : List Byte) (i : Nat) (h : indexOfTerm l t = some i) :
    indexOfTerm (l ++ l2) t = some i := by
  induction l generalizing i with
  | nil => cases h
  | cons x l ih =>
      simp only [indexOfTerm] at h
      rw [List.cons_append]
      simp only [indexOfTerm]
      by_cases hx : (x == t) = true
      · rw [hx] at h
        rw [hx]
        simpa using h
      · rw [Bool.eq_false_iff.mpr hx] at h
        rw [Bool.eq_false_iff.mpr hx]
        simp only [Bool.false_eq_true, if_false] at h ⊢
        cases hio : indexOfTerm l t with
        | none => rw [hio] at h; cases h
        | some j =>
            rw [hio] at h
            rw [ih j hio]
            exact h

theorem indexOfTerm_append_self (l : List (List Byte)) (t : List Byte)
    (h : t ∉ l) : indexOfTerm (l ++ [t]) t = some l.length := by
  induction l with
  | nil => simp [indexOfTerm]
  | cons x l ih =>
      have hx : (x == t) = false := by
        simp only [beq_eq_false_iff_ne, ne_eq]
        intro hxt
        exact h (hxt ▸ List.mem_cons_self x l)
      rw [List.cons_append]
      simp only [indexOfTerm]
      rw [hx]
      simp only [Bool.false_eq_true, if_false]
      rw [ih (fun hm => h (List.mem_cons_of_mem x hm))]
      simp

theorem indexOfTerm_getD (l : List (List Byte)) (i : Nat)
    (hnd : l.Nodup) (hi : i < l.length) :
    indexOfTerm l (l.getD i []) = some i := by
  induction l generalizing i with
  | nil => exact absurd hi (by simp)
  | cons x l ih =>
      rw [List.nodup_cons] at hnd
      cases i with
      | zero =>
          unfold indexOfTerm
          simp
      | succ j =>
          have hj : j < l.length := by simpa using hi
          have hgd : (x :: l).getD (j + 1) [] = l.getD j [] := by
            simp [List.getD_cons_succ]
          rw [hgd]
          have hx : (x == l.getD j []) = false := by
            simp only [beq_eq_false_iff_ne, ne_eq]
            intro hxe
            apply hnd.1
            rw [hxe]
            rw [List.getD_eq_getElem?_getD, List.getElem?_eq_getElem hj]
            exact List.getElem_mem hj
          simp only [indexOfTerm]
          rw [hx]
          simp only [Bool.false_eq_true, if_false]
          rw [ih j hnd.2 hj]
          rfl

theorem getD_of_ge {α : Type} (l : List α) (i : Nat) (d : α)
    (h : l.length ≤ i) : l.getD i d = d := by
  rw [List.getD_eq_getElem?_getD, List.getElem?_eq_none h]
  rfl

theorem forall2_mem_right {α β : Type} (R : α → β → Prop)
    (as : List α) (bs : List β) (h : List.Forall₂ R as bs) (b : β)
    (hb : b ∈ bs) : ∃ a ∈ as, R a b := by
  induction h with
  | nil => cases hb
  | cons hR hrest ih =>
      rcases List.mem_cons.mp hb with hb | hb
      · exact ⟨_, by simp, hb ▸ hR⟩
      · rcases ih hb with ⟨a, ha, hab⟩
        exact ⟨a, by simp [ha], hab⟩

theorem forall2_mem_left {α β : Type} (R : α → β → Prop)
    (as : List α) (bs : List β) (h : List.Forall₂ R as bs) (a : α)
    (ha : a ∈ as) : ∃ b ∈ bs, R a b := by
  induction h with
  | nil => cases ha
  | cons hR hrest ih =>
      rcases List.mem_cons.mp ha with ha | ha
      · exact ⟨_, by simp, ha ▸ hR⟩
      · rcases ih ha with ⟨b, hb, hab⟩
        exact ⟨b, by simp [hb], hab⟩

theorem intern_term_spec (w : SegmentWriter) (term : List Byte)
    (hnd : w.id_to_term.Nodup)
    (hlen : w.inverted.length = w.id_to_term.length) :
    (intern_term w term).2.docs = w.docs ∧
    (intern_term w term).2.forward = w.forward ∧
    (intern_term w term).2.total_len = w.total_len ∧
    (intern_term w term).2.id_to_term
      = w.id_to_term ++ (if term ∈ w.id_to_term then [] else [term]) ∧
    (intern_term w term).2.id_to_term.Nodup ∧
    (intern_term w term).2.inverted.length
      = (intern_term w term).2.id_to_term.length ∧
    (intern_term w term).1 < (intern_term w term).2.inverted.length ∧
    indexOfTerm (intern_term w term).2.id_to_term term
      = some (intern_term w term).1 ∧
    (∀ tid, (intern_term w term).2.inverted.getD tid []
      = w.inverted.getD tid []) := by
  cases hio : indexOfTerm w.id_to_term term with
  | some id =>
      have hred : intern_term w term = (id, w) := by
        unfold intern_term
        rw [hio]
      obtain ⟨hid1, hid2⟩ := indexOfTerm_spec _ _ _ hio
      have hmem : term ∈ w.id_to_term := by
        rw [← hid2, List.getD_eq_getElem?_getD,
          List.getElem?_eq_getElem hid1]
        exact List.getElem_mem hid1
      rw [hred]
      exact ⟨rfl, rfl, rfl, by simp [hmem], hnd, hlen,
        by show id < w.inverted.length; omega, hio, fun _ => rfl⟩
  | none =>
      have hnio : term ∉ w.id_to_term := (indexOfTerm_eq_none_iff _ _).mp hio
      have hred : intern_term w term =
          (w.id_to_term.length,
           { w with id_to_term := w.id_to_term ++ [term],
                    inverted := w.inverted ++ [[]] }) := by
        unfold intern_term
        rw [hio]
      rw [hred]
      refine ⟨rfl, rfl, rfl, by simp [hnio], ?_, ?_, ?_, ?_, ?_⟩
      · rw [List.nodup_append]
        refine ⟨hnd, List.nodup_singleton term, ?_⟩
        intro a ha hb
        rcases List.mem_singleton.mp hb with rfl
        exact hnio ha
      · simp [hlen]
      · simp [hlen]
      · exact indexOfTerm_append_self _ _ hnio
      · intro tid
        show (w.inverted ++ [[]]).getD tid [] = w.inverted.getD tid []
        rw [getD_append_single]
        by_cases h : tid = w.inverted.length
        · rw [if_pos h, h, getD_of_ge _ _ _ (le_refl _)]
        · rw [if_neg h]

theorem internAll_cons (docId : Nat) (w : SegmentWriter) (t : List Byte)
    (tf : Nat) (rest : List (List Byte × Nat)) :
    internAll docId w ((t, tf) :: rest) =
      ((internAll docId
          { (intern_term w t).2 with
            inverted := (intern_term w t).2.inverted.set (intern_term w t).1
              (((intern_term w t).2.inverted.getD (intern_term w t).1 [])
                ++ [⟨docId, tf⟩]) } rest).1,
       ((intern_term w t).1, tf) ::
        (internAll docId
          { (intern_term w t).2 with
            inverted := (intern_term w t).2.inverted.set (intern_term w t).1
              (((intern_term w t).2.inverted.getD (intern_term w t).1 [])
                ++ [⟨docId, tf⟩]) } rest).2) := rfl

theorem internAll_spec (docId : Nat) (tfs : List (List Byte × Nat)) :
    ∀ (w : SegmentWriter),
    w.inverted.length = w.id_to_term.length →
    w.id_to_term.Nodup →
    (tfs.map Prod.fst).Nodup →
    (internAll docId w tfs).1.docs = w.docs ∧
    (internAll docId w tfs).1.forward = w.forward ∧
    (internAll docId w tfs).1.total_len = w.total_len ∧
    (internAll docId w tfs).1.id_to_term = w.id_to_term ++
      (tfs.map Prod.fst).filter (fun t => !(decide (t ∈ w.id_to_term))) ∧
    (internAll docId w tfs).1.id_to_term.Nodup ∧
    (internAll docId w tfs).1.inverted.length
      = (internAll docId w tfs).1.id_to_term.length ∧
    List.Forall₂ (fun (p : List Byte × Nat) (q : Nat × Nat) =>
        indexOfTerm (internAll docId w tfs).1.id_to_term p.1 = some q.1 ∧
          q.2 = p.2) tfs (internAll docId w tfs).2 ∧
    (∀ tid, (internAll docId w tfs).1.inverted.getD tid [] =
      (w.inverted.getD tid []) ++
      (match (internAll docId w tfs).2.find? (fun q => q.1 == tid) with
       | some q => [(⟨docId, q.2⟩ : Posting)]
       | none => [])) := by
  induction tfs with
  | nil =>
      intro w hlen hnd hkeys
      refine ⟨rfl, rfl, rfl, by simp [internAll], hnd, hlen,
        List.Forall₂.nil, ?_⟩
      intro tid
      show w.inverted.getD tid [] = w.inverted.getD tid [] ++
        (match ([] : List (Nat × Nat)).find? (fun q => q.1 == tid) with
         | some q => [(⟨docId, q.2⟩ : Posting)]
         | none => [])
      simp [List.find?]
  | cons p rest ih =>
      obtain ⟨t, tf⟩ := p
      intro w hlen hnd hkeys
      obtain ⟨hi1, hi2, hi3, hi4, hi5, hi6, hi7, hi8, hi9⟩ :=
        intern_term_spec w t hnd hlen
      have hkeys_rest : (rest.map Prod.fst).Nodup := by
        rw [List.map_cons, List.nodup_cons] at hkeys
        exact hkeys.2
      have htnotin : t ∉ rest.map Prod.fst := by
        rw [List.map_cons, List.nodup_cons] at hkeys
        exact hkeys.1
      set w2 := (intern_term w t).2 with hw2
      set tid0 := (intern_term w t).1 with htid0
      set w3 : SegmentWriter :=
        ⟨w2.id_to_term, w2.forward,
         w2.inverted.set tid0 ((w2.inverted.getD tid0 []) ++ [⟨docId, tf⟩]),
         w2.docs, w2.total_len⟩ with hw3
      have hw3len : w3.inverted.length = w3.id_to_term.length := by
        show (w2.inverted.set tid0 _).length = w2.id_to_term.length
        rw [List.length_set]
        exact hi6
      have hw3nd : w3.id_to_term.Nodup := hi5
      obtain ⟨g1, g2, g3, g4, g5, g6, g7, g8⟩ :=
        ih w3 hw3len hw3nd hkeys_rest
      have hfst : (internAll docId w ((t, tf) :: rest)).1
          = (internAll docId w3 rest).1 := rfl
      have hsnd : (internAll docId w ((t, tf) :: rest)).2
          = (tid0, tf) :: (internAll docId w3 rest).2 := rfl
      have hw3id : w3.id_to_term = w2.id_to_term := rfl
      have hgetd3 : ∀ tid, w3.inverted.getD tid [] =
          (if tid = tid0 then w.inverted.getD tid [] ++ [⟨docId, tf⟩]
           else w.inverted.getD tid []) := by
        intro tid
        by_cases h : tid = tid0
        · rw [if_pos h, h]
          show (w2.inverted.set tid0 (w2.inverted.getD tid0 [] ++
            [⟨docId, tf⟩])).getD tid0 []
            = w.inverted.getD tid0 [] ++ [⟨docId, tf⟩]
          rw [getD_set_self _ _ _ _ hi7, hi9]
        · rw [if_neg h]
          show (w2.inverted.set tid0 (w2.inverted.getD tid0 [] ++
            [⟨docId, tf⟩])).getD tid []
            = w.inverted.getD tid []
          rw [getD_set_ne _ _ _ _ _ (fun hh => h hh.symm), hi9]
      -- the final term table seen through the head term
      have hfinal_id : (internAll docId w3 rest).1.id_to_term
          = w2.id_to_term ++ (rest.map Prod.fst).filter
              (fun x => !(decide (x ∈ w2.id_to_term))) := g4
      have hidx_t : indexOfTerm (internAll docId w3 rest).1.id_to_term t
          = some tid0 := by
        rw [hfinal_id]
        exact indexOfTerm_append_of_some _ _ _ _ hi8
      have hfind_none : (internAll docId w3 rest).2.find?
          (fun q => q.1 == tid0) = none := by
        rw [List.find?_eq_none]
        intro q hq hbeq
        rcases forall2_mem_right _ _ _ g7 q hq with ⟨pr, hpr, hR⟩
        have hq1 : q.1 = tid0 := by simpa using hbeq
        have hidx_p : indexOfTerm (internAll docId w3 rest).1.id_to_term pr.1
            = some tid0 := hq1 ▸ hR.1
        obtain ⟨hb1, hb2⟩ := indexOfTerm_spec _ _ _ hidx_p
        obtain ⟨hb3, hb4⟩ := indexOfTerm_spec _ _ _ hidx_t
        have : pr.1 = t := by rw [← hb2, ← hb4]
        exact htnotin (this ▸ List.mem_map.mpr ⟨pr, hpr, rfl⟩)
      refine ⟨?_, ?_, ?_, ?_, ?_, ?_, ?_, ?_⟩
      · rw [hfst, g1]
        show w2.docs = w.docs
        exact hi1
      · rw [hfst, g2]
        show w2.forward = w.forward
        exact hi2
      · rw [hfst, g3]
        show w2.total_len = w.total_len
        exact hi3
      · rw [hfst, hfinal_id, hi4]
        by_cases hmem : t ∈ w.id_to_term
        · rw [if_pos hmem]
          simp only [List.append_nil, List.map_cons]
          rw [List.filter_cons]
          have hcf : (!(decide (t ∈ w.id_to_term))) = false := by simp [hmem]
          have hw2eq : w2.id_to_term = w.id_to_term := by
            rw [hi4, if_pos hmem]
            simp
          simp only [hcf, cond_false, hw2eq]
          simp
        · rw [if_neg hmem]
          simp only [List.map_cons]
          rw [List.filter_cons]
          have hc : (!(decide (t ∈ w.id_to_term))) = true := by simp [hmem]
          simp only [hc, cond_true]
          rw [List.append_assoc, List.singleton_append]
          congr 2
          apply List.filter_congr
          intro x hx
          have hxt : x ≠ t := fun hh => htnotin (hh ▸ hx)
          have hiff : x ∈ w2.id_to_term ↔ x ∈ w.id_to_term := by
            rw [hi4, if_neg hmem]
            simp [List.mem_append, hxt]
          simp [hiff, hxt]
      · rw [hfst]; exact g5
      · rw [hfst]; exact g6
      · rw [hfst, hsnd]
        refine List.Forall₂.cons ⟨hidx_t, rfl⟩ ?_
        exact g7
      · intro tid
        rw [hfst, hsnd, g8 tid, hgetd3 tid]
        by_cases h : tid = tid0
        · subst h
          rw [if_pos rfl]
          rw [List.find?_cons_of_pos _ (by simp)]
          rw [hfind_none]
          simp
        · rw [if_neg h]
          rw [List.find?_cons_of_neg _
            (by simp only [beq_iff_eq]; exact fun hh => h hh.symm)]

theorem find?_pair_perm {α β : Type} [BEq α] [LawfulBEq α]
    (l l2 : List (α × β)) (k : α) (hnd : (l.map Prod.fst).Nodup)
    (hperm : l2.Perm l) :
    l2.find? (fun q => q.1 == k) = l.find? (fun q => q.1 == k) := by
  have hnd2 : (l2.map Prod.fst).Nodup := ((hperm.map Prod.fst).nodup_iff).mpr hnd
  cases hm : l.find? (fun q => q.1 == k) with
  | none =>
      rw [find?_pair_eq_none_iff] at hm ⊢
      intro hmem
      exact hm ((hperm.map Prod.fst).mem_iff.mp hmem)
  | some q =>
      have hq1 : q.1 = k := by simpa using List.find?_some hm
      have hqm : q ∈ l := List.mem_of_find?_eq_some hm
      have : q = (k, q.2) := by rw [← hq1]
      rw [this] at hqm ⊢
      exact find?_pair_mem l2 k q.2 hnd2 (hperm.mem_iff.mpr hqm)

theorem keys_nodup_of_forall2 (table : List (List Byte))
    (tfs : List (List Byte × Nat)) (r2 : List (Nat × Nat))
    (hf : List.Forall₂ (fun (p : List Byte × Nat) (q : Nat × Nat) =>
        indexOfTerm table p.1 = some q.1 ∧ q.2 = p.2) tfs r2)
    (hkeys : (tfs.map Prod.fst).Nodup) :
    (r2.map Prod.fst).Nodup := by
  induction hf with
  | nil => exact List.nodup_nil
  | cons hR hrest ih =>
      rename_i p q tfs2 r22
      rw [List.map_cons, List.nodup_cons] at hkeys ⊢
      refine ⟨?_, ih hkeys.2⟩
      intro hqmem
      rcases List.mem_map.mp hqmem with ⟨q2, hq2, hq2fst⟩
      rcases forall2_mem_right _ _ _ hrest q2 hq2 with ⟨p2, hp2, hRp2⟩
      have hidx2 : indexOfTerm table p2.1 = some q.1 := hq2fst ▸ hRp2.1
      obtain ⟨ha1, ha2⟩ := indexOfTerm_spec _ _ _ hidx2
      obtain ⟨hb1, hb2⟩ := indexOfTerm_spec _ _ _ hR.1
      have : p2.1 = p.1 := by rw [← ha2, ← hb2]
      exact hkeys.1 (this ▸ List.mem_map.mpr ⟨p2, hp2, rfl⟩)

theorem WFWriter_add_document (w : SegmentWriter) (meta : DocMeta)
    (tfs : List (List Byte × Nat)) (hw : WFWriter w)
    (hkeys : (tfs.map Prod.fst).Nodup) :
    WFWriter (add_document w meta tfs) := by
  obtain ⟨hlen, hfl, hnd, hasm, hne, hfwd⟩ := hw
  set docId := w.docs.length with hdocId
  set w1 : SegmentWriter :=
    ⟨w.id_to_term, w.forward, w.inverted, w.docs ++ [meta],
     w.total_len + meta.doc_len⟩ with hw1
  have hw1len : w1.inverted.length = w1.id_to_term.length := hlen
  have hw1nd : w1.id_to_term.Nodup := hnd
  obtain ⟨g1, g2, g3, g4, g5, g6, g7, g8⟩ :=
    internAll_spec docId tfs w1 hw1len hw1nd hkeys
  rw [show w1.id_to_term = w.id_to_term from rfl] at g4
  rw [show w1.inverted = w.inverted from rfl] at g8
  set r1 := (internAll docId w1 tfs).1 with hr1
  set r2 := (internAll docId w1 tfs).2 with hr2
  set fsorted := sortBy pairLe r2 with hfsorted
  have hres : add_document w meta tfs =
      ⟨r1.id_to_term, r1.forward ++ [fsorted], r1.inverted, r1.docs,
       r1.total_len⟩ := rfl
  have hr2keys : (r2.map Prod.fst).Nodup :=
    keys_nodup_of_forall2 _ _ _ g7 hkeys
  have hfind_eq : ∀ tid, fsorted.find? (fun q => q.1 == tid)
      = r2.find? (fun q => q.1 == tid) := by
    intro tid
    exact find?_pair_perm r2 fsorted tid hr2keys (sortBy_perm pairLe r2)
  have hfs_mem : ∀ q ∈ fsorted, q ∈ r2 := by
    intro q hq
    exact (sortBy_perm pairLe r2).mem_iff.mp hq
  have hTmono : w.id_to_term.length ≤ r1.id_to_term.length := by
    rw [g4]
    simp only [List.length_append]
    omega
  rw [hres]
  refine ⟨?_, ?_, ?_, ?_, ?_, ?_⟩
  · show r1.inverted.length = r1.id_to_term.length
    exact g6
  · show (r1.forward ++ [fsorted]).length = r1.docs.length
    rw [g1, g2]
    show (w.forward ++ [fsorted]).length = (w.docs ++ [meta]).length
    simp [hfl]
  · exact g5
  · intro tid htid
    show r1.inverted.getD tid [] =
      assembleFromForward (r1.forward ++ [fsorted]) tid
    rw [g8 tid, g2]
    show w.inverted.getD tid [] ++ _ =
      assembleFromForward (w.forward ++ [fsorted]) tid
    rw [assembleFromForward_append_one, hfind_eq tid]
    show w.inverted.getD tid [] ++ _ = _ ++ _
    congr 1
    · by_cases h : tid < w.id_to_term.length
      · exact hasm tid h
      · rw [getD_of_ge _ _ _ (by omega : w.inverted.length ≤ tid)]
        rw [assembleFromForward_empty_of_ge w.forward w.id_to_term.length tid
          (by omega) (fun f hf q hq => (hfwd f hf).1 q hq)]
    · rw [← hfl]
  · intro tid htid
    have htid2 : tid < r1.id_to_term.length := htid
    show r1.inverted.getD tid [] ≠ []
    rw [g8 tid]
    by_cases h : tid < w.id_to_term.length
    · have := hne tid h
      simp only [ne_eq, List.append_eq_nil]
      intro hcon
      exact this hcon.1
    · -- a freshly interned term: its pair is in r2
      have htds : r1.id_to_term.getD tid [] ∈
          (tfs.map Prod.fst).filter
            (fun t => !(decide (t ∈ w.id_to_term))) := by
        have hlt2 : tid - w.id_to_term.length <
            ((tfs.map Prod.fst).filter
              (fun t => !(decide (t ∈ w.id_to_term)))).length := by
          have h2 := htid2
          rw [g4, List.length_append] at h2
          omega
        rw [g4, List.getD_eq_getElem?_getD, List.getElem?_append,
          if_neg (by omega)]
        rw [List.getElem?_eq_getElem hlt2]
        exact List.getElem_mem hlt2
      have htmem : r1.id_to_term.getD tid [] ∈ tfs.map Prod.fst :=
        (List.mem_filter.mp htds).1
      rcases List.mem_map.mp htmem with ⟨p, hp, hpfst⟩
      rcases forall2_mem_left _ _ _ g7 p hp with ⟨q, hq, hR⟩
      have hidx_p : indexOfTerm r1.id_to_term p.1 = some q.1 := hR.1
      have hidx_tid : indexOfTerm r1.id_to_term
          (r1.id_to_term.getD tid []) = some tid :=
        indexOfTerm_getD _ _ g5 htid2
      rw [hpfst] at hidx_p
      rw [hidx_p] at hidx_tid
      have hq1 : q.1 = tid := Option.some_inj.mp hidx_tid
      have hfind : r2.find? (fun x => x.1 == tid) ≠ none := by
        intro hnone
        rw [List.find?_eq_none] at hnone
        exact hnone q hq (by simp [hq1])
      cases hfo : r2.find? (fun x => x.1 == tid) with
      | none => exact absurd hfo hfind
      | some qq => simp
  · intro f hf
    show (∀ q ∈ f, q.1 < r1.id_to_term.length) ∧ (f.map Prod.fst).Nodup
    rcases List.mem_append.mp hf with hf | hf
    · rw [g2] at hf
      obtain ⟨hh1, hh2⟩ := hfwd f hf
      exact ⟨fun q hq => lt_of_lt_of_le (hh1 q hq) hTmono, hh2⟩
    · rcases List.mem_singleton.mp hf with rfl
      constructor
      · intro q hq
        rcases forall2_mem_right _ _ _ g7 q (hfs_mem q hq) with ⟨p, hp, hR⟩
        exact (indexOfTerm_spec _ _ _ hR.1).1
      · have : (fsorted.map Prod.fst).Nodup := by
          refine ((sortBy_perm pairLe r2).map Prod.fst).nodup_iff.mpr ?_
          exact hr2keys
        exact this

theorem WFWriter_emptyWriter : WFWriter emptyWriter := by
  refine ⟨rfl, rfl, List.nodup_nil, ?_, ?_, ?_⟩ <;>
    intro x hx <;> simp [emptyWriter] at hx

theorem WFWriter_buildWriter
    (stream : List (DocMeta × List (List Byte × Nat)))
    (h : ∀ d ∈ stream, (d.2.map Prod.fst).Nodup) :
    WFWriter (buildWriter stream) := by
  suffices hs : ∀ w : SegmentWriter, WFWriter w →
      WFWriter (stream.foldl (fun w d => add_document w d.1 d.2) w) by
    exact hs emptyWriter WFWriter_emptyWriter
  induction stream with
  | nil => intro w hw; exact hw
  | cons d stream ih =>
      intro w hw
      exact ih (fun x hx => h x (by simp [hx]))
        (add_document w d.1 d.2)
        (WFWriter_add_document w d.1 d.2 hw (h d (by simp)))

theorem sum_range_map_mono (f : Nat → Nat) (n m : Nat) (h : n ≤ m) :
    ((List.range n).map f).sum ≤ ((List.range m).map f).sum := by
  induction m with
  | zero =>
      have : n = 0 := by omega
      subst this
      exact le_refl _
  | succ m ih =>
      by_cases h2 : n ≤ m
      · have := ih h2
        rw [List.range_succ, List.map_append, List.sum_append]
        simp only [List.map_cons, List.map_nil, List.sum_cons, List.sum_nil]
        omega
      · have : n = m + 1 := by omega
        subst this
        exact le_refl _

theorem invContent_length_le (bp : BarrelParams)
    (entry : Nat → Option (List Byte × List Posting)) (n b : Nat) :
    (invContent bp entry n b).length ≤
      ((List.range n).map (fun tid => 8 * (plistOf entry tid).length)).sum := by
  induction n with
  | zero => simp [invContent, tidsOfBarrel]
  | succ n ih =>
      rw [invContent_succ, List.range_succ, List.map_append, List.sum_append,
        List.length_append]
      simp only [List.map_cons, List.map_nil, List.sum_cons, List.sum_nil]
      by_cases h : ((entry n).isSome && (barrel_for_term n bp == b)) = true
      · rw [h]
        simp only [if_true]
        rw [plistBytes_length]
        omega
      · rw [Bool.eq_false_iff.mpr h]
        simp only [Bool.false_eq_true, if_false, List.length_nil]
        omega

theorem sum_range_getD_lengths (l : List (List Posting)) :
    ((List.range l.length).map
      (fun i => 8 * (l.getD i []).length)).sum
      = (l.map (fun pl => 8 * pl.length)).sum := by
  induction l using List.reverseRecOn with
  | nil => rfl
  | append_singleton l x ih =>
      rw [List.length_append, List.length_singleton, List.range_succ,
        List.map_append, List.sum_append, List.map_append, List.sum_append]
      congr 1
      · rw [← ih]
        apply congrArg
        apply List.map_congr_left
        intro i hi
        have hilt : i < l.length := List.mem_range.mp hi
        congr 1
        rw [List.getD_eq_getElem?_getD, List.getElem?_append, if_pos hilt,
          ← List.getD_eq_getElem?_getD]
      · simp only [List.map_cons, List.map_nil]
        congr 2
        rw [getD_append_single, if_pos rfl]

theorem lexFind_flatten (bp : BarrelParams)
    (entry : Nat → Option (List Byte × List Posting)) (n bc tid : Nat)
    (hb0 : barrel_for_term tid bp < bc) (htid : tid < n)
    (hsome : (entry tid).isSome)
    (hinj : ∀ t1 t2, t1 < n → t2 < n → (entry t1).isSome →
      (entry t2).isSome → termOf entry t1 = termOf entry t2 → t1 = t2) :
    lexFind (termOf entry tid)
      (((List.range bc).map (fun b => lexRecordsOfBarrel bp entry n b)).flatten)
      = some ⟨tid, (plistOf entry tid).length,
          (invContent bp entry tid (barrel_for_term tid bp)).length,
          (plistOf entry tid).length, barrel_for_term tid bp⟩ := by
  have htid_mem : tid ∈ tidsOfBarrel bp entry n (barrel_for_term tid bp) := by
    unfold tidsOfBarrel
    rw [List.mem_filter]
    exact ⟨List.mem_range.mpr htid, by simp [hsome]⟩
  have hFact2 : (lexRecordsOfBarrel bp entry n (barrel_for_term tid bp)).find?
      (fun p => p.1 == termOf entry tid)
      = some (termOf entry tid,
          ⟨tid, (plistOf entry tid).length,
           (invContent bp entry tid (barrel_for_term tid bp)).length,
           (plistOf entry tid).length, barrel_for_term tid bp⟩) := by
    unfold lexRecordsOfBarrel
    apply find?_map_unique _ _ _ tid htid_mem (by simp)
    intro x hx hpx
    have hxconds := List.mem_filter.mp hx
    have hx_n : x < n := List.mem_range.mp hxconds.1
    have hx_some : (entry x).isSome := by
      have := hxconds.2
      rw [Bool.and_eq_true] at this
      exact this.1
    have : termOf entry x = termOf entry tid := by simpa using hpx
    exact hinj x tid hx_n htid hx_some hsome this
  have hFact1 : ∀ b, b ≠ barrel_for_term tid bp →
      (lexRecordsOfBarrel bp entry n b).find?
        (fun p => p.1 == termOf entry tid) = none := by
    intro b hb
    rw [List.find?_eq_none]
    intro r hr hpr
    unfold lexRecordsOfBarrel at hr
    rcases List.mem_map.mp hr with ⟨x, hx, hxr⟩
    have hxconds := List.mem_filter.mp hx
    have hx_n : x < n := List.mem_range.mp hxconds.1
    have hconds := hxconds.2
    rw [Bool.and_eq_true] at hconds
    have hx_some : (entry x).isSome := hconds.1
    have hx_b : barrel_for_term x bp = b := by simpa using hconds.2
    have hterm : termOf entry x = termOf entry tid := by
      rw [← hxr] at hpr
      simpa using hpr
    have hxeq : x = tid := hinj x tid hx_n htid hx_some hsome hterm
    exact hb (by rw [← hx_b, hxeq])
  suffices hmain : ∀ bs : List Nat, barrel_for_term tid bp ∈ bs →
      ((bs.map (fun b => lexRecordsOfBarrel bp entry n b)).flatten).find?
        (fun p => p.1 == termOf entry tid)
        = some (termOf entry tid,
            ⟨tid, (plistOf entry tid).length,
             (invContent bp entry tid (barrel_for_term tid bp)).length,
             (plistOf entry tid).length, barrel_for_term tid bp⟩) by
    unfold lexFind
    rw [hmain (List.range bc) (List.mem_range.mpr hb0)]
    rfl
  intro bs
  induction bs with
  | nil => intro h; cases h
  | cons b bs ih =>
      intro hmem
      rw [List.map_cons, List.flatten_cons, List.find?_append]
      by_cases hbb : b = barrel_for_term tid bp
      · rw [hbb, hFact2]
        rfl
      · rw [hFact1 b hbb]
        have hmem2 : barrel_for_term tid bp ∈ bs := by
          rcases List.mem_cons.mp hmem with h | h
          · exact absurd h.symm hbb
          · exact h
        rw [ih hmem2]
        rfl

/-- Load of a written segment: the reader recovers N, the docs, the flat
lexicon (the parsed records of every barrel in barrel order) and keeps
the inverted barrel byte streams. -/
theorem write_read_segment (f32 : Nat → Nat → List Byte) (w : SegmentWriter)
    (hwf : WFWriter w)
    (hf32 : ∀ a b, (f32 a b).length = 4)
    (hN : w.docs.length < 4294967296)
    (hT : w.id_to_term.length < 4294967296)
    (hterms : ∀ s ∈ w.id_to_term, s.length < 4294967296)
    (hdocs : ∀ d ∈ w.docs, d.cord_uid.length < 4294967296 ∧
      d.title.length < 4294967296 ∧ d.json_relpath.length < 4294967296 ∧
      d.doc_len < 4294967296)
    (hdf : ∀ pl ∈ w.inverted, pl.length < 4294967296)
    (hoff : (w.inverted.map (fun pl => 8 * pl.length)).sum
      < 18446744073709551616) :
    load_segment (write_segment f32 w) = some
      { N := w.docs.length,
        avgdlBytes := (f32 w.total_len w.docs.length).take 4,
        docs := w.docs,
        lex := ((List.range BARREL_COUNT).map
          (fun b => lexRecordsOfBarrel (bp_of_tcount w.id_to_term.length)
            (segmentEntry w) w.id_to_term.length b)).flatten,
        barrel_params := ⟨BARREL_COUNT,
          (bp_of_tcount w.id_to_term.length).terms_per_barrel⟩,
        invFiles := (emitBarrels (bp_of_tcount w.id_to_term.length)
          w.id_to_term.length (segmentEntry w)).inv } := by
  obtain ⟨hwlen, hwfl, hwnd, hasm, hne, hfwd⟩ := hwf
  have hbc : (bp_of_tcount w.id_to_term.length).barrel_count = 64 := rfl
  have hbc0 : 0 < (bp_of_tcount w.id_to_term.length).barrel_count := by
    rw [hbc]; norm_num
  have hbc2 : (bp_of_tcount w.id_to_term.length).barrel_count
      ≤ 4294967296 := by rw [hbc]; norm_num
  obtain ⟨hE1, hE2, hE3, hE4, hEb⟩ :=
    emitBarrels_spec (bp_of_tcount w.id_to_term.length) (segmentEntry w)
      hbc0 hbc2 w.id_to_term.length
  obtain ⟨hP1, hPb⟩ :=
    patchedLexFiles_spec (bp_of_tcount w.id_to_term.length) (segmentEntry w)
      hbc0 hbc2 w.id_to_term.length
  have hplen : ∀ tid, (plistOf (segmentEntry w) tid).length
      = (w.inverted.getD tid []).length := by
    intro tid
    by_cases h : (w.inverted.getD tid []).isEmpty = true
    · have h2 : w.inverted[tid]?.getD [] = ([] : List Posting) := by
        rw [← List.getD_eq_getElem?_getD]
        exact List.isEmpty_iff.mp h
      have he : segmentEntry w tid = none := by
        unfold segmentEntry
        simp [h2]
      rw [List.isEmpty_iff] at h
      rw [h]
      simp [plistOf, he]
    · have h2 : ¬ w.inverted[tid]?.getD [] = ([] : List Posting) := by
        rw [← List.getD_eq_getElem?_getD]
        exact fun hc => h (List.isEmpty_iff.mpr hc)
      have he : segmentEntry w tid = some (w.id_to_term.getD tid [],
          sortBy (fun a b => decide (a.docId ≤ b.docId))
            (w.inverted.getD tid [])) := by
        unfold segmentEntry
        simp [h2, List.getD_eq_getElem?_getD]
      simp [plistOf, he, sortBy_length]
  have hoffb : ∀ x b, x ≤ w.id_to_term.length →
      (invContent (bp_of_tcount w.id_to_term.length) (segmentEntry w) x b).length
        < 18446744073709551616 := by
    intro x b hx
    have h1 := invContent_length_le (bp_of_tcount w.id_to_term.length)
      (segmentEntry w) x b
    have h2 := sum_range_map_mono
      (fun tid => 8 * (plistOf (segmentEntry w) tid).length) x
      w.id_to_term.length hx
    have h3 : ((List.range w.id_to_term.length).map
        (fun tid => 8 * (plistOf (segmentEntry w) tid).length)).sum
        = (w.inverted.map (fun pl => 8 * pl.length)).sum := by
      rw [← hwlen, ← sum_range_getD_lengths]
      apply congrArg
      apply List.map_congr_left
      intro i hi
      rw [hplen i]
    omega
  have hstats : (write_segment f32 w).stats
      = write_u32 w.docs.length ++ f32 w.total_len w.docs.length := rfl
  have hdocsF : (write_segment f32 w).docsFile
      = write_u32 w.docs.length ++ (w.docs.map docRecordBytes).flatten := rfl
  have hbarF : (write_segment f32 w).barrelsFile
      = write_u32 64 ++
        write_u32 (bp_of_tcount w.id_to_term.length).terms_per_barrel := rfl
  have hlexF : (write_segment f32 w).lexFiles
      = patchedLexFiles (emitBarrels (bp_of_tcount w.id_to_term.length)
          w.id_to_term.length (segmentEntry w)) := rfl
  have hinvF : (write_segment f32 w).invFiles
      = (emitBarrels (bp_of_tcount w.id_to_term.length)
          w.id_to_term.length (segmentEntry w)).inv := rfl
  have hr0 : read_u32 (write_segment f32 w).stats
      = some (w.docs.length, f32 w.total_len w.docs.length) := by
    rw [hstats, read_u32_write_u32, Nat.mod_eq_of_lt hN]
  have hr1 : read_u32 (write_segment f32 w).docsFile
      = some (w.docs.length, (w.docs.map docRecordBytes).flatten) := by
    rw [hdocsF, read_u32_write_u32, Nat.mod_eq_of_lt hN]
  have hpd : parseDocs w.docs.length ((w.docs.map docRecordBytes).flatten)
      = some w.docs := by
    have := parseDocs_flatten w.docs [] hdocs
    simpa using this
  have hr2 : read_u32 (write_segment f32 w).barrelsFile
      = some (64, write_u32 (bp_of_tcount w.id_to_term.length).terms_per_barrel) := by
    rw [hbarF, read_u32_write_u32]
  have htpb_lt : (bp_of_tcount w.id_to_term.length).terms_per_barrel
      < 4294967296 := by
    show (let tpb := (w.id_to_term.length + BARREL_COUNT - 1) / BARREL_COUNT
      (⟨BARREL_COUNT, if tpb = 0 then 1 else tpb⟩ : BarrelParams)).terms_per_barrel < 4294967296
    show (if (w.id_to_term.length + BARREL_COUNT - 1) / BARREL_COUNT = 0 then 1
      else (w.id_to_term.length + BARREL_COUNT - 1) / BARREL_COUNT) < 4294967296
    unfold BARREL_COUNT
    by_cases h : (w.id_to_term.length + 64 - 1) / 64 = 0
    · rw [if_pos h]; norm_num
    · rw [if_neg h]; omega
  have hr3 : read_u32
      (write_u32 (bp_of_tcount w.id_to_term.length).terms_per_barrel)
      = some ((bp_of_tcount w.id_to_term.length).terms_per_barrel, []) := by
    rw [show write_u32 (bp_of_tcount w.id_to_term.length).terms_per_barrel
        = write_u32 (bp_of_tcount w.id_to_term.length).terms_per_barrel ++ []
      from (List.append_nil _).symm]
    rw [read_u32_write_u32, Nat.mod_eq_of_lt htpb_lt]
  have hpl : ∀ b ∈ List.range 64,
      parseLexFile b ((write_segment f32 w).lexFiles.getD b [])
        = some (lexRecordsOfBarrel (bp_of_tcount w.id_to_term.length)
            (segmentEntry w) w.id_to_term.length b) := by
    intro b hb
    have hblt : b < 64 := List.mem_range.mp hb
    have hgd := hPb b (by rw [hbc]; exact hblt)
    rw [hlexF, hgd]
    unfold parseLexFile
    have hcnt_le : (tidsOfBarrel (bp_of_tcount w.id_to_term.length)
        (segmentEntry w) w.id_to_term.length b).length
        ≤ w.id_to_term.length := by
      have h1 := List.length_filter_le
        (fun tid => (segmentEntry w tid).isSome &&
          (barrel_for_term tid (bp_of_tcount w.id_to_term.length) == b))
        (List.range w.id_to_term.length)
      rw [List.length_range] at h1
      exact h1
    rw [read_u32_write_u32, Nat.mod_eq_of_lt (by omega)]
    simp only [Option.some_bind]
    have hcnt_eq : (tidsOfBarrel (bp_of_tcount w.id_to_term.length)
        (segmentEntry w) w.id_to_term.length b).length
        = (lexRecordsOfBarrel (bp_of_tcount w.id_to_term.length)
            (segmentEntry w) w.id_to_term.length b).length := by
      unfold lexRecordsOfBarrel
      rw [List.length_map]
    rw [hcnt_eq]
    have hbounds : ∀ r ∈ lexRecordsOfBarrel (bp_of_tcount w.id_to_term.length)
        (segmentEntry w) w.id_to_term.length b,
        r.1.length < 4294967296 ∧ r.2.termId < 4294967296 ∧
        r.2.df < 4294967296 ∧ r.2.offset < 18446744073709551616 ∧
        r.2.count < 4294967296 ∧ r.2.barrelId = b := by
      intro r hr
      unfold lexRecordsOfBarrel at hr
      rcases List.mem_map.mp hr with ⟨x, hx, hxr⟩
      have hxconds := List.mem_filter.mp hx
      have hx_T : x < w.id_to_term.length := List.mem_range.mp hxconds.1
      have hx_some : (segmentEntry w x).isSome := by
        have := hxconds.2
        rw [Bool.and_eq_true] at this
        exact this.1
      have hne_x : ¬ (w.inverted.getD x []).isEmpty = true := by
        intro hcon
        have h2 : w.inverted[x]?.getD [] = ([] : List Posting) := by
          rw [← List.getD_eq_getElem?_getD]
          exact List.isEmpty_iff.mp hcon
        have : segmentEntry w x = none := by
          unfold segmentEntry
          simp [h2]
        rw [this] at hx_some
        cases hx_some
      have h2x : ¬ w.inverted[x]?.getD [] = ([] : List Posting) := by
        rw [← List.getD_eq_getElem?_getD]
        exact fun hc => hne_x (List.isEmpty_iff.mpr hc)
      have htermOf_x : termOf (segmentEntry w) x = w.id_to_term.getD x [] := by
        unfold termOf segmentEntry
        simp [h2x, List.getD_eq_getElem?_getD]
      have htmem : w.id_to_term.getD x [] ∈ w.id_to_term := by
        rw [List.getD_eq_getElem?_getD, List.getElem?_eq_getElem hx_T]
        exact List.getElem_mem hx_T
      have hplmem : w.inverted.getD x [] ∈ w.inverted := by
        have hlt : x < w.inverted.length := by omega
        rw [List.getD_eq_getElem?_getD, List.getElem?_eq_getElem hlt]
        exact List.getElem_mem hlt
      rw [← hxr]
      refine ⟨?_, by show x < 4294967296; omega, ?_, ?_, ?_, rfl⟩
      · show (termOf (segmentEntry w) x).length < 4294967296
        rw [htermOf_x]
        exact hterms _ htmem
      · show (plistOf (segmentEntry w) x).length < 4294967296
        rw [hplen x]
        exact hdf _ hplmem
      · show (invContent (bp_of_tcount w.id_to_term.length) (segmentEntry w)
          x b).length < 18446744073709551616
        exact hoffb x b (by omega)
      · show (plistOf (segmentEntry w) x).length < 4294967296
        rw [hplen x]
        exact hdf _ hplmem
    have := parseLexRecords_flatten b
      (lexRecordsOfBarrel (bp_of_tcount w.id_to_term.length)
        (segmentEntry w) w.id_to_term.length b) [] hbounds
    rw [List.append_nil] at this
    have hrec_eq : ((lexRecordsOfBarrel (bp_of_tcount w.id_to_term.length)
        (segmentEntry w) w.id_to_term.length b).map lexRecBytesOf).flatten
        = ((lexRecordsOfBarrel (bp_of_tcount w.id_to_term.length)
            (segmentEntry w) w.id_to_term.length b).map lexRecBytesOf).flatten := rfl
    exact this
  have hpal : parseAllLexFiles 64 (write_segment f32 w).lexFiles
      = some (((List.range 64).map
          (fun b => lexRecordsOfBarrel (bp_of_tcount w.id_to_term.length)
            (segmentEntry w) w.id_to_term.length b)).flatten) := by
    unfold parseAllLexFiles
    exact parseAllLexFiles_eq _ _ (List.range 64) hpl
  unfold load_segment
  rw [hr0]
  simp only [Option.some_bind]
  rw [if_neg (by rw [hf32]; norm_num)]
  rw [hr1]
  simp only [Option.some_bind]
  rw [hpd]
  simp only [Option.some_bind]
  rw [hr2]
  simp only [Option.some_bind]
  rw [hr3]
  simp only [Option.some_bind]
  rw [if_pos ⟨by rw [hinvF, hE1, hbc], by rw [hlexF, hP1, hbc]⟩]
  rw [hpal]
  simp only [Option.map_some']
  rw [hinvF]
  simp only [BARREL_COUNT]

/-! ## Same-terms permutation helpers -/

theorem map_range_getD {α : Type} (l : List α) (d : α) :
    (List.range l.length).map (fun i => l.getD i d) = l := by
  induction l using List.reverseRecOn with
  | nil => rfl
  | append_singleton l x ih =>
      rw [List.length_append, List.length_singleton, List.range_succ,
        List.map_append]
      congr 1
      · have hc : ∀ i ∈ List.range l.length,
            (l ++ [x]).getD i d = l.getD i d := by
          intro i hi
          have hilt : i < l.length := List.mem_range.mp hi
          rw [getD_append_single]
          rw [if_neg (by omega)]
        exact (List.map_congr_left hc).trans ih
      · simp only [List.map_cons, List.map_nil]
        rw [getD_append_single, if_pos rfl]

theorem sum_map_ite_eq_zero (bs : List Nat) (c n : Nat) (h : c ∉ bs) :
    (bs.map (fun b => if c = b then n else 0)).sum = 0 := by
  induction bs with
  | nil => rfl
  | cons b bs ih =>
      simp only [List.map_cons, List.sum_cons]
      rw [if_neg (fun hc => h (by rw [hc]; exact List.mem_cons_self b bs)),
        ih (fun hc => h (List.mem_cons_of_mem b hc))]

theorem sum_map_ite_eq (bs : List Nat) (c n : Nat) (hnd : bs.Nodup)
    (hmem : c ∈ bs) :
    (bs.map (fun b => if c = b then n else 0)).sum = n := by
  induction bs with
  | nil => cases hmem
  | cons b bs ih =>
      simp only [List.map_cons, List.sum_cons]
      rw [List.nodup_cons] at hnd
      by_cases hc : c = b
      · rw [if_pos hc, sum_map_ite_eq_zero bs c n (by rw [hc]; exact hnd.1)]
        omega
      · rw [if_neg hc]
        simp only [Nat.zero_add]
        refine ih hnd.2 ?_
        rcases List.mem_cons.mp hmem with h | h
        · exact absurd h hc
        · exact h

theorem filter_partition_perm (bc : Nat) (g : Nat → Nat) (l : List Nat)
    (h : ∀ x ∈ l, g x < bc) :
    (((List.range bc).map
        (fun b => l.filter (fun x => g x == b))).flatten).Perm l := by
  rw [List.perm_iff_count]
  intro a
  rw [List.count_flatten, List.map_map]
  by_cases hmem : a ∈ l
  · have hga : g a < bc := h a hmem
    have hcongr : ∀ b ∈ List.range bc,
        (List.count a ∘ fun b => l.filter (fun x => g x == b)) b
          = if g a = b then l.count a else 0 := by
      intro b hb
      simp only [Function.comp_apply]
      by_cases hgb : g a = b
      · rw [if_pos hgb, List.count_filter (by simp [hgb])]
      · rw [if_neg hgb, List.count_eq_zero]
        intro hc
        have h2 := List.mem_filter.mp hc
        exact hgb (by simpa using h2.2)
    rw [List.map_congr_left hcongr]
    exact sum_map_ite_eq (List.range bc) (g a) (l.count a)
      (List.nodup_range bc) (List.mem_range.mpr hga)
  · have hz : ∀ b ∈ List.range bc,
        (List.count a ∘ fun b => l.filter (fun x => g x == b)) b = 0 := by
      intro b hb
      simp only [Function.comp_apply]
      rw [List.count_eq_zero]
      exact fun hc => hmem (List.mem_of_mem_filter hc)
    rw [List.map_congr_left hz, List.count_eq_zero.mpr hmem]
    simp

/-! ## segmentEntry characterization -/

theorem segmentEntry_some (w : SegmentWriter) (tid : Nat)
    (hne : w.inverted.getD tid [] ≠ []) :
    segmentEntry w tid = some (w.id_to_term.getD tid [],
      sortBy (fun a b => decide (a.docId ≤ b.docId))
        (w.inverted.getD tid [])) := by
  unfold segmentEntry
  have h2 : ¬ w.inverted[tid]?.getD [] = ([] : List Posting) := by
    rw [← List.getD_eq_getElem?_getD]; exact hne
  simp [h2, List.getD_eq_getElem?_getD]

theorem termOf_segmentEntry (w : SegmentWriter) (tid : Nat)
    (hne : w.inverted.getD tid [] ≠ []) :
    termOf (segmentEntry w) tid = w.id_to_term.getD tid [] := by
  unfold termOf
  rw [segmentEntry_some w tid hne]
  rfl

theorem plistOf_segmentEntry (w : SegmentWriter) (tid : Nat)
    (hne : w.inverted.getD tid [] ≠ []) :
    plistOf (segmentEntry w) tid
      = sortBy (fun a b => decide (a.docId ≤ b.docId))
          (w.inverted.getD tid []) := by
  unfold plistOf
  rw [segmentEntry_some w tid hne]
  rfl

theorem tids_flatten_perm (w : SegmentWriter)
    (hne : ∀ tid, tid < w.id_to_term.length →
      w.inverted.getD tid [] ≠ []) :
    (((List.range BARREL_COUNT).map
        (fun b => tidsOfBarrel (bp_of_tcount w.id_to_term.length)
          (segmentEntry w) w.id_to_term.length b)).flatten).Perm
      (List.range w.id_to_term.length) := by
  have hfe : ∀ b, tidsOfBarrel (bp_of_tcount w.id_to_term.length)
      (segmentEntry w) w.id_to_term.length b
      = (List.range w.id_to_term.length).filter
          (fun tid =>
            barrel_for_term tid (bp_of_tcount w.id_to_term.length) == b) := by
    intro b
    unfold tidsOfBarrel
    apply List.filter_congr
    intro tid htid
    have h1 : (segmentEntry w tid).isSome = true := by
      rw [segmentEntry_some w tid (hne tid (List.mem_range.mp htid))]
      rfl
    rw [h1, Bool.true_and]
  rw [List.map_congr_left (fun b _ => hfe b)]
  exact filter_partition_perm BARREL_COUNT
    (fun tid => barrel_for_term tid (bp_of_tcount w.id_to_term.length))
    (List.range w.id_to_term.length)
    (fun x hx => barrel_for_term_lt x _
      (by rw [show (bp_of_tcount w.id_to_term.length).barrel_count = 64
          from rfl]; norm_num)
      (by rw [show (bp_of_tcount w.id_to_term.length).barrel_count = 64
          from rfl]; norm_num))

theorem lex_map_fst_perm (w : SegmentWriter)
    (hne : ∀ tid, tid < w.id_to_term.length →
      w.inverted.getD tid [] ≠ []) :
    ((((List.range BARREL_COUNT).map
        (fun b => lexRecordsOfBarrel (bp_of_tcount w.id_to_term.length)
          (segmentEntry w) w.id_to_term.length b)).flatten).map
        Prod.fst).Perm w.id_to_term := by
  have h1 : (((List.range BARREL_COUNT).map
      (fun b => lexRecordsOfBarrel (bp_of_tcount w.id_to_term.length)
        (segmentEntry w) w.id_to_term.length b)).flatten).map Prod.fst
      = (((List.range BARREL_COUNT).map
          (fun b => tidsOfBarrel (bp_of_tcount w.id_to_term.length)
            (segmentEntry w) w.id_to_term.length b)).flatten).map
          (termOf (segmentEntry w)) := by
    rw [List.map_flatten, List.map_flatten, List.map_map, List.map_map]
    apply congrArg
    apply List.map_congr_left
    intro b hb
    simp only [Function.comp_apply]
    unfold lexRecordsOfBarrel
    rw [List.map_map]
    rfl
  rw [h1]
  have h2 := (tids_flatten_perm w hne).map (termOf (segmentEntry w))
  apply h2.trans
  have h3 : (List.range w.id_to_term.length).map (termOf (segmentEntry w))
      = (List.range w.id_to_term.length).map
          (fun tid => w.id_to_term.getD tid []) := by
    apply List.map_congr_left
    intro tid htid
    exact termOf_segmentEntry w tid (hne tid (List.mem_range.mp htid))
  rw [h3, map_range_getD]

theorem assembleFromForward_tf_mem (forward : List (List (Nat × Nat)))
    (tid : Nat) (p : Posting) (hp : p ∈ assembleFromForward forward tid) :
    ∃ f ∈ forward, ∃ q ∈ f, p.tf = q.2 := by
  unfold assembleFromForward at hp
  rcases List.mem_filterMap.mp hp with ⟨df, hdf, hmap⟩
  cases hfind : df.2.find? (fun q => q.1 == tid) with
  | none => rw [hfind] at hmap; cases hmap
  | some q =>
      rw [hfind] at hmap
      simp only [Option.map_some'] at hmap
      have hfm : df.2 ∈ forward :=
        List.getElem?_mem (List.mem_enum_iff_getElem?.mp hdf)
      refine ⟨df.2, hfm, q, List.mem_of_find?_eq_some hfind, ?_⟩
      have hpq := Option.some_inj.mp hmap
      rw [← hpq]

theorem getD_inj_of_nodup {α : Type} (l : List α) (d : α) (hnd : l.Nodup)
    (i j : Nat) (hi : i < l.length) (hj : j < l.length)
    (h : l.getD i d = l.getD j d) : i = j := by
  rw [List.getD_eq_getElem?_getD, List.getD_eq_getElem?_getD,
    List.getElem?_eq_getElem hi, List.getElem?_eq_getElem hj] at h
  simp only [Option.getD_some] at h
  have h2 : l.get ⟨i, hi⟩ = l.get ⟨j, hj⟩ := by simpa using h
  simpa using (@List.Nodup.get_inj_iff _ l hnd ⟨i, hi⟩ ⟨j, hj⟩).mp h2

/-- C1: for every document stream ingested through add_document (the
per-document term-frequency input carries distinct terms, as the
caller's map guarantees), writing the segment with write_segment and
loading it back with load_segment yields the same docs, a lexicon whose
terms are exactly the writer's term table, and for every term the
posting list located via the term's lexicon offset/count in its barrel
equals the list assembled from the per-doc forward entries, which is
strictly ascending by docId and nonempty, with df equal to its length.
The size hypotheses say every on-disk u32/u64 field fits its width. -/
theorem C1_write_read_round_trip
    (f32 : Nat → Nat → List Byte) (hf32 : ∀ a b, (f32 a b).length = 4)
    (stream : List (DocMeta × List (List Byte × Nat)))
    (hstream : ∀ d ∈ stream, (d.2.map Prod.fst).Nodup)
    (hN : (buildWriter stream).docs.length < 4294967296)
    (hT : (buildWriter stream).id_to_term.length < 4294967296)
    (hterms : ∀ s ∈ (buildWriter stream).id_to_term,
      s.length < 4294967296)
    (hdocs : ∀ d ∈ (buildWriter stream).docs,
      d.cord_uid.length < 4294967296 ∧ d.title.length < 4294967296 ∧
      d.json_relpath.length < 4294967296 ∧ d.doc_len < 4294967296)
    (hdf : ∀ pl ∈ (buildWriter stream).inverted, pl.length < 4294967296)
    (hoff : ((buildWriter stream).inverted.map
      (fun pl => 8 * pl.length)).sum < 18446744073709551616)
    (htf : ∀ f ∈ (buildWriter stream).forward, ∀ q ∈ f,
      q.2 < 4294967296) :
    ∃ seg : Segment,
      load_segment (write_segment f32 (buildWriter stream)) = some seg ∧
      seg.docs = (buildWriter stream).docs ∧
      (seg.lex.map Prod.fst).Perm (buildWriter stream).id_to_term ∧
      (∀ tid, tid < (buildWriter stream).id_to_term.length →
        ∃ e : LexEntry,
          lexFind ((buildWriter stream).id_to_term.getD tid []) seg.lex
            = some e ∧
          postingsAt (seg.invFiles.getD e.barrelId []) e.offset e.count
            = some (assembleFromForward (buildWriter stream).forward tid) ∧
          e.df = (assembleFromForward
            (buildWriter stream).forward tid).length ∧
          assembleFromForward (buildWriter stream).forward tid ≠ [] ∧
          List.Pairwise (fun p q : Posting => p.docId < q.docId)
            (assembleFromForward (buildWriter stream).forward tid)) := by
  have hwf := WFWriter_buildWriter stream hstream
  set w := buildWriter stream with hw
  obtain ⟨hwlen, hwfl, hwnd, hasm, hne, hfwd⟩ := hwf
  have hload := write_read_segment f32 w
    ⟨hwlen, hwfl, hwnd, hasm, hne, hfwd⟩
    hf32 hN hT hterms hdocs hdf hoff
  refine ⟨_, hload, rfl, lex_map_fst_perm w hne, ?_⟩
  intro tid htid
  have hneT := hne tid htid
  have hA1 : w.inverted.getD tid [] = assembleFromForward w.forward tid :=
    hasm tid htid
  have hAsorted := (assembleFromForward_sorted_bounded w.forward tid).1
  have hAbound := (assembleFromForward_sorted_bounded w.forward tid).2
  have hplist : plistOf (segmentEntry w) tid
      = assembleFromForward w.forward tid := by
    rw [plistOf_segmentEntry w tid hneT, hA1]
    exact sortBy_of_sorted _ _
      (hAsorted.imp (fun h => decide_eq_true (Nat.le_of_lt h)))
  have hsome : (segmentEntry w tid).isSome = true := by
    rw [segmentEntry_some w tid hneT]; rfl
  have hinj : ∀ t1 t2, t1 < w.id_to_term.length →
      t2 < w.id_to_term.length → ((segmentEntry w) t1).isSome →
      ((segmentEntry w) t2).isSome →
      termOf (segmentEntry w) t1 = termOf (segmentEntry w) t2 →
      t1 = t2 := by
    intro t1 t2 h1 h2 _ _ hteq
    rw [termOf_segmentEntry w t1 (hne t1 h1),
      termOf_segmentEntry w t2 (hne t2 h2)] at hteq
    exact getD_inj_of_nodup w.id_to_term [] hwnd t1 t2 h1 h2 hteq
  have hbcrfl : (bp_of_tcount w.id_to_term.length).barrel_count = 64 := rfl
  have hb0 : barrel_for_term tid (bp_of_tcount w.id_to_term.length)
      < BARREL_COUNT := by
    have := barrel_for_term_lt tid (bp_of_tcount w.id_to_term.length)
      (by rw [hbcrfl]; norm_num) (by rw [hbcrfl]; norm_num)
    rw [hbcrfl] at this
    exact this
  have hlf := lexFind_flatten (bp_of_tcount w.id_to_term.length)
    (segmentEntry w) w.id_to_term.length BARREL_COUNT tid hb0 htid hsome hinj
  rw [termOf_segmentEntry w tid hneT] at hlf
  refine ⟨_, hlf, ?_, ?_, ?_, hAsorted⟩
  · show postingsAt
      (((emitBarrels (bp_of_tcount w.id_to_term.length)
          w.id_to_term.length (segmentEntry w)).inv).getD
        (barrel_for_term tid (bp_of_tcount w.id_to_term.length)) [])
      (invContent (bp_of_tcount w.id_to_term.length) (segmentEntry w) tid
        (barrel_for_term tid (bp_of_tcount w.id_to_term.length))).length
      (plistOf (segmentEntry w) tid).length
      = some (assembleFromForward w.forward tid)
    obtain ⟨hE1, hE2, hE3, hE4, hEb⟩ := emitBarrels_spec
      (bp_of_tcount w.id_to_term.length) (segmentEntry w)
      (by rw [hbcrfl]; norm_num) (by rw [hbcrfl]; norm_num)
      w.id_to_term.length
    obtain ⟨g1, g2, g3, g4⟩ :=
      hEb (barrel_for_term tid (bp_of_tcount w.id_to_term.length)) hb0
    have hentry : segmentEntry w tid = some (w.id_to_term.getD tid [],
        assembleFromForward w.forward tid) := by
      rw [segmentEntry_some w tid hneT, hA1, sortBy_of_sorted _ _
        (hAsorted.imp (fun h => decide_eq_true (Nat.le_of_lt h)))]
    obtain ⟨suffix, hsuf⟩ := invContent_addr
      (bp_of_tcount w.id_to_term.length) (segmentEntry w)
      w.id_to_term.length tid htid _ _ hentry
    rw [g1, hsuf, hplist]
    unfold postingsAt
    rw [List.append_assoc, List.drop_left]
    apply read_postings_flatten
    intro p hp
    constructor
    · have := hAbound p hp
      omega
    · obtain ⟨f, hf, q, hq, heq⟩ :=
        assembleFromForward_tf_mem w.forward tid p hp
      rw [heq]
      exact htf f hf q hq
  · show (plistOf (segmentEntry w) tid).length
      = (assembleFromForward w.forward tid).length
    rw [hplist]
  · rw [← hA1]
    exact hneT

/-- Witness for C1 at the concrete two-document stream. -/
theorem C1_write_read_round_trip_witness :
    (∀ d ∈ exampleStream, (d.2.map Prod.fst).Nodup) ∧
    (buildWriter exampleStream).docs.length < 4294967296 ∧
    (buildWriter exampleStream).id_to_term.length < 4294967296 ∧
    (∀ s ∈ (buildWriter exampleStream).id_to_term,
      s.length < 4294967296) ∧
    (∀ d ∈ (buildWriter exampleStream).docs,
      d.cord_uid.length < 4294967296 ∧ d.title.length < 4294967296 ∧
      d.json_relpath.length < 4294967296 ∧ d.doc_len < 4294967296) ∧
    (∀ pl ∈ (buildWriter exampleStream).inverted,
      pl.length < 4294967296) ∧
    ((buildWriter exampleStream).inverted.map
      (fun pl => 8 * pl.length)).sum < 18446744073709551616 ∧
    (∀ f ∈ (buildWriter exampleStream).forward, ∀ q ∈ f,
      q.2 < 4294967296) ∧
    (∃ seg : Segment,
      load_segment (write_segment zeroF32 (buildWriter exampleStream))
        = some seg ∧
      seg.docs = (buildWriter exampleStream).docs ∧
      (seg.lex.map Prod.fst).Perm (buildWriter exampleStream).id_to_term ∧
      (∀ tid, tid < (buildWriter exampleStream).id_to_term.length →
        ∃ e : LexEntry,
          lexFind ((buildWriter exampleStream).id_to_term.getD tid [])
            seg.lex = some e ∧
          postingsAt (seg.invFiles.getD e.barrelId []) e.offset e.count
            = some (assembleFromForward
                (buildWriter exampleStream).forward tid) ∧
          e.df = (assembleFromForward
            (buildWriter exampleStream).forward tid).length ∧
          assembleFromForward (buildWriter exampleStream).forward tid
            ≠ [] ∧
          List.Pairwise (fun p q : Posting => p.docId < q.docId)
            (assembleFromForward
              (buildWriter exampleStream).forward tid))) :=
  ⟨by decide, by decide, by decide, by decide, by decide, by decide,
   by decide, by decide,
   C1_write_read_round_trip zeroF32 (fun _ _ => rfl) exampleStream
     (by decide) (by decide) (by decide) (by decide) (by decide)
     (by decide) (by decide) (by decide)⟩

/-! ## Barrel consistency -/

theorem segmentEntry_isSome (w : SegmentWriter) (tid : Nat) :
    (segmentEntry w tid).isSome = !(w.inverted.getD tid []).isEmpty := by
  by_cases h : (w.inverted.getD tid []).isEmpty = true
  · have h2 : w.inverted[tid]?.getD [] = ([] : List Posting) := by
      rw [← List.getD_eq_getElem?_getD]
      exact List.isEmpty_iff.mp h
    have he : segmentEntry w tid = none := by
      unfold segmentEntry
      simp [h2]
    rw [he, h]
    rfl
  · have hne : w.inverted.getD tid [] ≠ [] :=
      fun hc => h (List.isEmpty_iff.mpr hc)
    rw [segmentEntry_some w tid hne, Bool.eq_false_iff.mpr h]
    rfl

theorem barrel_for_term_eq_min (tid : Nat) (p : BarrelParams)
    (h0 : p.terms_per_barrel ≠ 0) (hbc : p.barrel_count = 64) :
    barrel_for_term tid p
      = min (tid / p.terms_per_barrel) (p.barrel_count - 1) := by
  unfold barrel_for_term
  rw [if_neg h0]
  show (if p.barrel_count ≤ tid / p.terms_per_barrel
    then (p.barrel_count + 4294967295) % 4294967296
    else tid / p.terms_per_barrel) = _
  rw [hbc]
  have hm : (64 + 4294967295) % 4294967296 = 63 := by norm_num
  by_cases h : 64 ≤ tid / p.terms_per_barrel
  · rw [if_pos h, hm]
    omega
  · rw [if_neg h]
    omega

/-- C9: in every segment written with barrels, terms_per_barrel is
ceil(T / barrel_count) raised to at least 1; every lexicon record's
barrelId equals min(termId / terms_per_barrel, barrel_count - 1); every
term with a nonempty posting list appears in exactly one barrel's
lexicon; each patched lexicon header holds that barrel's record count;
and the headers sum over all barrels to the number of terms with df >
0. -/
theorem C9_barrel_consistency (f32 : Nat → Nat → List Byte)
    (w : SegmentWriter) (hT : w.id_to_term.length < 4294967296) :
    1 ≤ (bp_of_tcount w.id_to_term.length).terms_per_barrel ∧
    (bp_of_tcount w.id_to_term.length).terms_per_barrel
      = max 1 ((w.id_to_term.length + BARREL_COUNT - 1) / BARREL_COUNT) ∧
    (∀ b, b < BARREL_COUNT →
      ∀ r ∈ lexRecordsOfBarrel (bp_of_tcount w.id_to_term.length)
          (segmentEntry w) w.id_to_term.length b,
        r.2.barrelId = min
          (r.2.termId /
            (bp_of_tcount w.id_to_term.length).terms_per_barrel)
          (BARREL_COUNT - 1)) ∧
    (∀ tid, tid < w.id_to_term.length → w.inverted.getD tid [] ≠ [] →
      ∃! b, b < BARREL_COUNT ∧
        ∃ r ∈ lexRecordsOfBarrel (bp_of_tcount w.id_to_term.length)
            (segmentEntry w) w.id_to_term.length b, r.2.termId = tid) ∧
    (∀ b, b < BARREL_COUNT → ∃ rest,
      read_u32 ((write_segment f32 w).lexFiles.getD b [])
        = some ((tidsOfBarrel (bp_of_tcount w.id_to_term.length)
            (segmentEntry w) w.id_to_term.length b).length, rest)) ∧
    ((List.range BARREL_COUNT).map
        (fun b => (tidsOfBarrel (bp_of_tcount w.id_to_term.length)
          (segmentEntry w) w.id_to_term.length b).length)).sum
      = ((List.range w.id_to_term.length).filter
          (fun tid => !(w.inverted.getD tid []).isEmpty)).length := by
  have hbcrfl : (bp_of_tcount w.id_to_term.length).barrel_count = 64 := rfl
  have htpb : (bp_of_tcount w.id_to_term.length).terms_per_barrel
      = if (w.id_to_term.length + 64 - 1) / 64 = 0 then 1
        else (w.id_to_term.length + 64 - 1) / 64 := rfl
  have htpb1 : 1 ≤ (bp_of_tcount w.id_to_term.length).terms_per_barrel := by
    rw [htpb]
    by_cases h : (w.id_to_term.length + 64 - 1) / 64 = 0
    · rw [if_pos h]
    · rw [if_neg h]
      omega
  have htpb0 : (bp_of_tcount w.id_to_term.length).terms_per_barrel ≠ 0 := by
    omega
  refine ⟨htpb1, ?_, ?_, ?_, ?_, ?_⟩
  · rw [htpb]
    show _ = max 1 ((w.id_to_term.length + 64 - 1) / 64)
    by_cases h : (w.id_to_term.length + 64 - 1) / 64 = 0
    · rw [if_pos h, h]
      omega
    · rw [if_neg h]
      omega
  · intro b hb r hr
    unfold lexRecordsOfBarrel at hr
    rcases List.mem_map.mp hr with ⟨x, hx, hxr⟩
    have hxconds := List.mem_filter.mp hx
    have hx_b : barrel_for_term x (bp_of_tcount w.id_to_term.length)
        = b := by
      have h2 := hxconds.2
      rw [Bool.and_eq_true] at h2
      simpa using h2.2
    rw [← hxr]
    show b = min
      (x / (bp_of_tcount w.id_to_term.length).terms_per_barrel)
      (BARREL_COUNT - 1)
    rw [← hx_b, barrel_for_term_eq_min x _ htpb0 hbcrfl]
    rfl
  · intro tid htid hnet
    have hsome : (segmentEntry w tid).isSome = true := by
      rw [segmentEntry_some w tid hnet]
      rfl
    have hb0 : barrel_for_term tid (bp_of_tcount w.id_to_term.length)
        < BARREL_COUNT := by
      have h1 := barrel_for_term_lt tid (bp_of_tcount w.id_to_term.length)
        (by rw [hbcrfl]; norm_num) (by rw [hbcrfl]; norm_num)
      rw [hbcrfl] at h1
      exact h1
    refine ⟨barrel_for_term tid (bp_of_tcount w.id_to_term.length),
      ⟨hb0, ?_⟩, ?_⟩
    · have htid_mem : tid ∈ tidsOfBarrel
          (bp_of_tcount w.id_to_term.length) (segmentEntry w)
          w.id_to_term.length
          (barrel_for_term tid (bp_of_tcount w.id_to_term.length)) := by
        unfold tidsOfBarrel
        rw [List.mem_filter]
        exact ⟨List.mem_range.mpr htid, by simp [hsome]⟩
      exact ⟨_, List.mem_map.mpr ⟨tid, htid_mem, rfl⟩, rfl⟩
    · rintro b' ⟨hb', r, hr, hrtid⟩
      unfold lexRecordsOfBarrel at hr
      rcases List.mem_map.mp hr with ⟨x, hx, hxr⟩
      have hxconds := List.mem_filter.mp hx
      have hxb : barrel_for_term x (bp_of_tcount w.id_to_term.length)
          = b' := by
        have h2 := hxconds.2
        rw [Bool.and_eq_true] at h2
        simpa using h2.2
      have hxtid : x = tid := by
        rw [← hxr] at hrtid
        exact hrtid
      rw [← hxb, hxtid]
  · intro b hb
    obtain ⟨hP1, hPb⟩ := patchedLexFiles_spec
      (bp_of_tcount w.id_to_term.length) (segmentEntry w)
      (by rw [hbcrfl]; norm_num) (by rw [hbcrfl]; norm_num)
      w.id_to_term.length
    have hgd := hPb b hb
    have hle : (tidsOfBarrel (bp_of_tcount w.id_to_term.length)
        (segmentEntry w) w.id_to_term.length b).length
        ≤ w.id_to_term.length := by
      have h1 := List.length_filter_le
        (fun tid => (segmentEntry w tid).isSome &&
          (barrel_for_term tid (bp_of_tcount w.id_to_term.length) == b))
        (List.range w.id_to_term.length)
      rw [List.length_range] at h1
      exact h1
    have hread : read_u32 ((write_segment f32 w).lexFiles.getD b [])
        = some ((tidsOfBarrel (bp_of_tcount w.id_to_term.length)
            (segmentEntry w) w.id_to_term.length b).length,
          ((lexRecordsOfBarrel (bp_of_tcount w.id_to_term.length)
            (segmentEntry w) w.id_to_term.length b).map
              lexRecBytesOf).flatten) := by
      rw [show (write_segment f32 w).lexFiles
          = patchedLexFiles (emitBarrels (bp_of_tcount w.id_to_term.length)
              w.id_to_term.length (segmentEntry w)) from rfl]
      rw [hgd, read_u32_write_u32, Nat.mod_eq_of_lt (by omega)]
    exact ⟨_, hread⟩
  · have hfe : ∀ b, tidsOfBarrel (bp_of_tcount w.id_to_term.length)
        (segmentEntry w) w.id_to_term.length b
        = ((List.range w.id_to_term.length).filter
            (fun tid => (segmentEntry w tid).isSome)).filter
          (fun tid =>
            barrel_for_term tid (bp_of_tcount w.id_to_term.length)
              == b) := by
      intro b
      rw [List.filter_filter]
      unfold tidsOfBarrel
      apply List.filter_congr
      intro x hx
      exact Bool.and_comm _ _
    have hperm := filter_partition_perm BARREL_COUNT
      (fun tid => barrel_for_term tid (bp_of_tcount w.id_to_term.length))
      ((List.range w.id_to_term.length).filter
        (fun tid => (segmentEntry w tid).isSome))
      (fun x hx => by
        have h1 := barrel_for_term_lt x (bp_of_tcount w.id_to_term.length)
          (by rw [hbcrfl]; norm_num) (by rw [hbcrfl]; norm_num)
        rw [hbcrfl] at h1
        exact h1)
    have hsum : ((List.range BARREL_COUNT).map
        (fun b => (tidsOfBarrel (bp_of_tcount w.id_to_term.length)
          (segmentEntry w) w.id_to_term.length b).length)).sum
        = (((List.range BARREL_COUNT).map
            (fun b => ((List.range w.id_to_term.length).filter
              (fun tid => (segmentEntry w tid).isSome)).filter
                (fun tid => barrel_for_term tid
                  (bp_of_tcount w.id_to_term.length) == b))).flatten).length := by
      rw [List.length_flatten, List.map_map]
      apply congrArg
      apply List.map_congr_left
      intro b hb
      simp only [Function.comp_apply]
      rw [hfe b]
    rw [hsum, hperm.length_eq]
    exact congrArg List.length
      (List.filter_congr (fun x hx => segmentEntry_isSome w x))

/-- Witness for C9 at the concrete two-document stream's writer. -/
theorem C9_barrel_consistency_witness :
    (buildWriter exampleStream).id_to_term.length < 4294967296 ∧
    (1 ≤ (bp_of_tcount
        (buildWriter exampleStream).id_to_term.length).terms_per_barrel ∧
    (bp_of_tcount
        (buildWriter exampleStream).id_to_term.length).terms_per_barrel
      = max 1 (((buildWriter exampleStream).id_to_term.length
          + BARREL_COUNT - 1) / BARREL_COUNT) ∧
    (∀ b, b < BARREL_COUNT →
      ∀ r ∈ lexRecordsOfBarrel
          (bp_of_tcount (buildWriter exampleStream).id_to_term.length)
          (segmentEntry (buildWriter exampleStream))
          (buildWriter exampleStream).id_to_term.length b,
        r.2.barrelId = min
          (r.2.termId / (bp_of_tcount
            (buildWriter exampleStream).id_to_term.length).terms_per_barrel)
          (BARREL_COUNT - 1)) ∧
    (∀ tid, tid < (buildWriter exampleStream).id_to_term.length →
      (buildWriter exampleStream).inverted.getD tid [] ≠ [] →
      ∃! b, b < BARREL_COUNT ∧
        ∃ r ∈ lexRecordsOfBarrel
            (bp_of_tcount (buildWriter exampleStream).id_to_term.length)
            (segmentEntry (buildWriter exampleStream))
            (buildWriter exampleStream).id_to_term.length b,
          r.2.termId = tid) ∧
    (∀ b, b < BARREL_COUNT → ∃ rest,
      read_u32 ((write_segment zeroF32
          (buildWriter exampleStream)).lexFiles.getD b [])
        = some ((tidsOfBarrel
            (bp_of_tcount (buildWriter exampleStream).id_to_term.length)
            (segmentEntry (buildWriter exampleStream))
            (buildWriter exampleStream).id_to_term.length b).length,
            rest)) ∧
    ((List.range BARREL_COUNT).map
        (fun b => (tidsOfBarrel
          (bp_of_tcount (buildWriter exampleStream).id_to_term.length)
          (segmentEntry (buildWriter exampleStream))
          (buildWriter exampleStream).id_to_term.length b).length)).sum
      = ((List.range (buildWriter exampleStream).id_to_term.length).filter
          (fun tid => !((buildWriter exampleStream).inverted.getD
            tid []).isEmpty)).length) :=
  ⟨by decide,
   C9_barrel_consistency zeroF32 (buildWriter exampleStream) (by decide)⟩

/-! ## Single-document append -/

theorem tf_foldl_length (tcount : Nat) (pairs : List (Nat × Nat)) :
    ∀ arr : List Nat,
      (pairs.foldl (fun arr q => if q.1 < tcount then arr.set q.1 q.2
        else arr) arr).length = arr.length := by
  induction pairs with
  | nil => intro arr; rfl
  | cons q rest ih =>
      intro arr
      rw [List.foldl_cons, ih]
      by_cases h : q.1 < tcount
      · rw [if_pos h, List.length_set]
      · rw [if_neg h]

theorem tf_foldl_getD_ne (tcount : Nat) (k : Nat)
    (pairs : List (Nat × Nat)) :
    ∀ arr : List Nat, (∀ q ∈ pairs, q.1 ≠ k) →
      (pairs.foldl (fun arr q => if q.1 < tcount then arr.set q.1 q.2
        else arr) arr).getD k 0 = arr.getD k 0 := by
  induction pairs with
  | nil => intro arr _; rfl
  | cons q rest ih =>
      intro arr h
      rw [List.foldl_cons,
        ih _ (fun x hx => h x (List.mem_cons_of_mem q hx))]
      by_cases hq : q.1 < tcount
      · rw [if_pos hq, getD_set_ne _ _ _ _ _ (h q (List.mem_cons_self q rest))]
      · rw [if_neg hq]

theorem tf_foldl_getD_mem (tcount : Nat) (k v : Nat)
    (pairs : List (Nat × Nat)) :
    ∀ arr : List Nat, (pairs.map Prod.fst).Nodup → (k, v) ∈ pairs →
      k < tcount → arr.length = tcount →
      (pairs.foldl (fun arr q => if q.1 < tcount then arr.set q.1 q.2
        else arr) arr).getD k 0 = v := by
  induction pairs with
  | nil => intro arr _ hm; cases hm
  | cons q rest ih =>
      intro arr hnd hm hk hlen
      rw [List.map_cons, List.nodup_cons] at hnd
      rw [List.foldl_cons]
      rcases List.mem_cons.mp hm with heq | hm2
      · have hq : q = (k, v) := heq.symm
        subst hq
        have hrest : ∀ x ∈ rest, x.1 ≠ k := by
          intro x hx hc
          exact hnd.1 (List.mem_map.mpr ⟨x, hx, hc⟩)
        rw [tf_foldl_getD_ne tcount k rest _ hrest]
        rw [if_pos hk, getD_set_self _ _ _ _ (by omega)]
      · have hqk : q.1 ≠ k := by
          intro hc
          exact hnd.1 (List.mem_map.mpr ⟨(k, v), hm2, hc.symm ▸ rfl⟩)
        apply ih _ hnd.2 hm2 hk
        by_cases hq : q.1 < tcount
        · rw [if_pos hq, List.length_set]
          exact hlen
        · rw [if_neg hq]
          exact hlen

theorem tf_by_tid_enum_getD (ts : List (List Byte))
    (cnt : List Byte → Nat) (tid : Nat) (htid : tid < ts.length) :
    (tf_by_tid ts.length
      (ts.enum.map (fun it => (it.1, cnt it.2)))).getD tid 0
      = cnt (ts.getD tid []) := by
  unfold tf_by_tid
  apply tf_foldl_getD_mem
  · have h1 : (ts.enum.map
        (fun it : Nat × List Byte => (it.1, cnt it.2))).map Prod.fst
        = List.range ts.length := by
      rw [List.map_map]
      have h2 : (Prod.fst ∘ fun it : Nat × List Byte => (it.1, cnt it.2))
          = Prod.fst := rfl
      rw [h2, List.enum_map_fst]
    rw [h1]
    exact List.nodup_range _
  · apply List.mem_map.mpr
    refine ⟨(tid, ts.getD tid []), ?_, rfl⟩
    rw [List.mem_enum_iff_getElem?]
    show ts[tid]? = some (ts.getD tid [])
    have hgd : ts.getD tid [] = ts.get ⟨tid, htid⟩ := by
      rw [List.getD_eq_getElem?_getD, List.getElem?_eq_getElem htid]
      rfl
    rw [hgd, List.getElem?_eq_getElem htid]
    rfl
  · exact htid
  · exact List.length_replicate _ _

theorem enum_tf_fst_pairwise (ts : List (List Byte))
    (cnt : List Byte → Nat) :
    (ts.enum.map (fun it => (it.1, cnt it.2))).Pairwise
      (fun a b : Nat × Nat => a.1 < b.1) := by
  have h1 : List.Pairwise (fun a b : Nat × List Byte => a.1 < b.1)
      ts.enum := by
    have h2 := List.pairwise_lt_range ts.length
    rw [← List.enum_map_fst ts] at h2
    exact List.pairwise_map.mp h2
  rw [List.pairwise_map]
  exact h1.imp (fun h => h)

theorem enum_tf_pairLe (ts : List (List Byte)) (cnt : List Byte → Nat) :
    (ts.enum.map (fun it => (it.1, cnt it.2))).Pairwise
      (fun a b => pairLe a b = true) := by
  apply (enum_tf_fst_pairwise ts cnt).imp
  intro a b hab
  unfold pairLe
  rw [decide_eq_true hab, Bool.true_or]

/-- C2: a successful single-document append writes docs.bin and
stats.bin announcing N = 1 with the document's record, a single forward
record of (termId, tf) pairs sorted strictly ascending by termId, one
posting (docId = 0, tf) with tf ≥ 1 per distinct indexable term (T =
their number), and the manifest is the last write, appears nowhere
earlier, and holds exactly the old segment-name list with the one new
name appended; reloading that manifest returns the extended list.  ts
is the hash map's enumeration of the distinct indexable terms. -/
theorem C2_single_doc_append
    (f32 : Nat → List Byte) (segs : List (List Byte))
    (cord_uid title relpath : List Byte)
    (toks ts : List (List Byte))
    (hts : ts.Nodup)
    (hts1 : ∀ t ∈ ts, t ∈ filterTokens toks)
    (hts2 : ∀ t ∈ filterTokens toks, t ∈ ts)
    (hsegs : segs.length + 1 < 4294967296)
    (hnames : ∀ s ∈ segs, s.length < 4294967296)
    (hnew : (seg_name (segs.length + 1)).length < 4294967296) :
    ts.length = (filterTokens toks).dedup.length ∧
    (handle_add_document f32 segs cord_uid title relpath toks ts).1.getD
        0 ([], [])
      = (bytes "docs.bin", write_u32 1 ++ docRecordBytes
          ⟨cord_uid, title, relpath, (filterTokens toks).length⟩) ∧
    (handle_add_document f32 segs cord_uid title relpath toks ts).1.getD
        1 ([], [])
      = (bytes "stats.bin",
          write_u32 1 ++ f32 (filterTokens toks).length) ∧
    sortBy pairLe (ts.enum.map
        (fun it => (it.1, (filterTokens toks).count it.2)))
      = ts.enum.map (fun it => (it.1, (filterTokens toks).count it.2)) ∧
    List.Pairwise (fun a b : Nat × Nat => a.1 < b.1)
      (ts.enum.map (fun it => (it.1, (filterTokens toks).count it.2))) ∧
    (handle_add_document f32 segs cord_uid title relpath toks ts).1.getD
        2 ([], [])
      = (bytes "forward.bin", write_u32 1 ++ fwdRecordBytes
          (ts.enum.map
            (fun it => (it.1, (filterTokens toks).count it.2)))) ∧
    (∀ tid, tid < ts.length →
      singleDocEntry ts (sortBy pairLe (ts.enum.map
          (fun it => (it.1, (filterTokens toks).count it.2)))) tid
        = some (ts.getD tid [],
            [⟨0, (filterTokens toks).count (ts.getD tid [])⟩]) ∧
      0 < (filterTokens toks).count (ts.getD tid [])) ∧
    (handle_add_document f32 segs cord_uid title relpath toks
        ts).1.getLast?
      = some (bytes "manifest.bin",
          save_manifest (segs ++ [seg_name (segs.length + 1)])) ∧
    (∀ wr ∈ (handle_add_document f32 segs cord_uid title relpath toks
        ts).1.dropLast, wr.1 ≠ bytes "manifest.bin") ∧
    (handle_add_document f32 segs cord_uid title relpath toks ts).2
      = segs ++ [seg_name (segs.length + 1)] ∧
    load_manifest (save_manifest (segs ++ [seg_name (segs.length + 1)]))
      = some (segs ++ [seg_name (segs.length + 1)]) := by
  have hsorted : sortBy pairLe (ts.enum.map
      (fun it => (it.1, (filterTokens toks).count it.2)))
      = ts.enum.map (fun it => (it.1, (filterTokens toks).count it.2)) :=
    sortBy_of_sorted _ _
      (enum_tf_pairLe ts (fun t => (filterTokens toks).count t))
  refine ⟨?_, rfl, rfl, hsorted,
    enum_tf_fst_pairwise ts (fun t => (filterTokens toks).count t),
    ?_, ?_, ?_, ?_, rfl, ?_⟩
  · have hperm : ts.Perm (filterTokens toks).dedup := by
      rw [List.perm_ext_iff_of_nodup hts (List.nodup_dedup _)]
      intro t
      rw [List.mem_dedup]
      exact ⟨fun h => hts1 t h, fun h => hts2 t h⟩
    exact hperm.length_eq
  · show (bytes "forward.bin", write_u32 1 ++ fwdRecordBytes
        (sortBy pairLe (ts.enum.map
          (fun it => (it.1, (filterTokens toks).count it.2)))))
      = (bytes "forward.bin", write_u32 1 ++ fwdRecordBytes
          (ts.enum.map
            (fun it => (it.1, (filterTokens toks).count it.2))))
    rw [hsorted]
  · intro tid htid
    have htmem : ts.getD tid [] ∈ ts := by
      rw [List.getD_eq_getElem?_getD, List.getElem?_eq_getElem htid]
      exact List.getElem_mem htid
    have hcnt : 0 < (filterTokens toks).count (ts.getD tid []) :=
      List.count_pos_iff.mpr (hts1 _ htmem)
    refine ⟨?_, hcnt⟩
    rw [hsorted]
    show (if (tf_by_tid ts.length (ts.enum.map
        (fun it => (it.1, (filterTokens toks).count it.2)))).getD tid 0
          = 0
      then none
      else some (ts.getD tid [],
        [(⟨0, (tf_by_tid ts.length (ts.enum.map
          (fun it => (it.1, (filterTokens toks).count it.2)))).getD
            tid 0⟩ : Posting)]))
      = some (ts.getD tid [],
          [(⟨0, (filterTokens toks).count (ts.getD tid [])⟩ : Posting)])
    rw [tf_by_tid_enum_getD ts (fun t => (filterTokens toks).count t)
      tid htid, if_neg (by omega)]
  · show ((([(bytes "docs.bin", write_u32 1 ++ docRecordBytes
        ⟨cord_uid, title, relpath, (filterTokens toks).length⟩),
      (bytes "stats.bin",
        write_u32 1 ++ f32 (filterTokens toks).length),
      (bytes "forward.bin", write_u32 1 ++ fwdRecordBytes
        (sortBy pairLe (ts.enum.map
          (fun it => (it.1, (filterTokens toks).count it.2))))),
      (bytes "terms.bin",
        write_u32 ts.length ++ (ts.map write_string).flatten),
      (bytes "barrels.bin",
        write_barrels_manifest (bp_of_tcount ts.length))]
     ++ (List.range (bp_of_tcount ts.length).barrel_count).map (fun b =>
          (bytes "lexicon_b" ++ barrel_suffix b ++ bytes ".bin",
           (patchedLexFiles (emitBarrels (bp_of_tcount ts.length)
             ts.length (singleDocEntry ts (sortBy pairLe (ts.enum.map
               (fun it =>
                 (it.1, (filterTokens toks).count it.2))))))).getD b [])))
     ++ (List.range (bp_of_tcount ts.length).barrel_count).map (fun b =>
          (bytes "inverted_b" ++ barrel_suffix b ++ bytes ".bin",
           (emitBarrels (bp_of_tcount ts.length) ts.length
             (singleDocEntry ts (sortBy pairLe (ts.enum.map
               (fun it =>
                 (it.1, (filterTokens toks).count it.2)))))).inv.getD
             b [])))
     ++ [(bytes "manifest.bin",
          save_manifest (segs ++ [seg_name (segs.length + 1)]))]).getLast?
      = some (bytes "manifest.bin",
          save_manifest (segs ++ [seg_name (segs.length + 1)]))
    rw [List.getLast?_append]
    rfl
  · intro wr hwr
    rw [show (handle_add_document f32 segs cord_uid title relpath toks
        ts).1.dropLast
        = ([(bytes "docs.bin", write_u32 1 ++ docRecordBytes
            ⟨cord_uid, title, relpath, (filterTokens toks).length⟩),
          (bytes "stats.bin",
            write_u32 1 ++ f32 (filterTokens toks).length),
          (bytes "forward.bin", write_u32 1 ++ fwdRecordBytes
            (sortBy pairLe (ts.enum.map
              (fun it => (it.1, (filterTokens toks).count it.2))))),
          (bytes "terms.bin",
            write_u32 ts.length ++ (ts.map write_string).flatten),
          (bytes "barrels.bin",
            write_barrels_manifest (bp_of_tcount ts.length))]
         ++ (List.range (bp_of_tcount ts.length).barrel_count).map
            (fun b =>
              (bytes "lexicon_b" ++ barrel_suffix b ++ bytes ".bin",
               (patchedLexFiles (emitBarrels (bp_of_tcount ts.length)
                 ts.length (singleDocEntry ts (sortBy pairLe
                   (ts.enum.map (fun it =>
                     (it.1,
                      (filterTokens toks).count it.2))))))).getD b []))
         ++ (List.range (bp_of_tcount ts.length).barrel_count).map
            (fun b =>
              (bytes "inverted_b" ++ barrel_suffix b ++ bytes ".bin",
               (emitBarrels (bp_of_tcount ts.length) ts.length
                 (singleDocEntry ts (sortBy pairLe (ts.enum.map
                   (fun it =>
                     (it.1,
                      (filterTokens toks).count it.2)))))).inv.getD
                 b [])))
      from List.dropLast_concat] at hwr
    rcases List.mem_append.mp hwr with hwr1 | hwrInv
    · rcases List.mem_append.mp hwr1 with hwr5 | hwrLex
      · simp only [List.mem_cons, List.not_mem_nil, or_false] at hwr5
        rcases hwr5 with rfl | rfl | rfl | rfl | rfl
        · show bytes "docs.bin" ≠ bytes "manifest.bin"
          decide
        · show bytes "stats.bin" ≠ bytes "manifest.bin"
          decide
        · show bytes "forward.bin" ≠ bytes "manifest.bin"
          decide
        · show bytes "terms.bin" ≠ bytes "manifest.bin"
          decide
        · show bytes "barrels.bin" ≠ bytes "manifest.bin"
          decide
      · rcases List.mem_map.mp hwrLex with ⟨b, hb, hbeq⟩
        rw [← hbeq]
        intro heq
        have h1 : (bytes "manifest.bin").head? = some 108 := by
          rw [← heq]
          rfl
        exact absurd h1 (by decide)
    · rcases List.mem_map.mp hwrInv with ⟨b, hb, hbeq⟩
      rw [← hbeq]
      intro heq
      have h1 : (bytes "manifest.bin").head? = some 105 := by
        rw [← heq]
        rfl
      exact absurd h1 (by decide)
  · apply load_manifest_save_manifest
    · rw [List.length_append, List.length_singleton]
      exact hsegs
    · intro s hs
      rcases List.mem_append.mp hs with h | h
      · exact hnames s h
      · rw [List.mem_singleton] at h
        rw [h]
        exact hnew

/-- Witness for C2: one document with tokens hello/the/world/hello
(filtered terms hello, world), enumerated by the hash map as [world,
hello], appended onto a one-segment manifest. -/
theorem C2_single_doc_append_witness :
    ([bytes "world", bytes "hello"] : List (List Byte)).Nodup ∧
    (∀ t ∈ ([bytes "world", bytes "hello"] : List (List Byte)),
      t ∈ filterTokens
        [bytes "hello", bytes "the", bytes "world", bytes "hello"]) ∧
    (∀ t ∈ filterTokens
        [bytes "hello", bytes "the", bytes "world", bytes "hello"],
      t ∈ ([bytes "world", bytes "hello"] : List (List Byte))) ∧
    ([bytes "seg_000001"] : List (List Byte)).length + 1 < 4294967296 ∧
    (∀ s ∈ ([bytes "seg_000001"] : List (List Byte)),
      s.length < 4294967296) ∧
    (seg_name (([bytes "seg_000001"] : List (List Byte)).length
      + 1)).length < 4294967296 ∧
    (([bytes "world", bytes "hello"] : List (List Byte)).length
      = (filterTokens
          [bytes "hello", bytes "the", bytes "world",
           bytes "hello"]).dedup.length ∧
    (handle_add_document (fun _ => [0, 0, 0, 0]) [bytes "seg_000001"]
        (bytes "u") (bytes "T") (bytes "p")
        [bytes "hello", bytes "the", bytes "world", bytes "hello"]
        [bytes "world", bytes "hello"]).1.getD 0 ([], [])
      = (bytes "docs.bin", write_u32 1 ++ docRecordBytes
          ⟨bytes "u", bytes "T", bytes "p",
           (filterTokens [bytes "hello", bytes "the", bytes "world",
             bytes "hello"]).length⟩) ∧
    (handle_add_document (fun _ => [0, 0, 0, 0]) [bytes "seg_000001"]
        (bytes "u") (bytes "T") (bytes "p")
        [bytes "hello", bytes "the", bytes "world", bytes "hello"]
        [bytes "world", bytes "hello"]).1.getD 1 ([], [])
      = (bytes "stats.bin", write_u32 1 ++ (fun _ => [0, 0, 0, 0])
          (filterTokens [bytes "hello", bytes "the", bytes "world",
            bytes "hello"]).length) ∧
    sortBy pairLe
      (([bytes "world", bytes "hello"] :
          List (List Byte)).enum.map
        (fun it => (it.1, (filterTokens [bytes "hello", bytes "the",
          bytes "world", bytes "hello"]).count it.2)))
      = ([bytes "world", bytes "hello"] :
          List (List Byte)).enum.map
        (fun it => (it.1, (filterTokens [bytes "hello", bytes "the",
          bytes "world", bytes "hello"]).count it.2)) ∧
    List.Pairwise (fun a b : Nat × Nat => a.1 < b.1)
      (([bytes "world", bytes "hello"] :
          List (List Byte)).enum.map
        (fun it => (it.1, (filterTokens [bytes "hello", bytes "the",
          bytes "world", bytes "hello"]).count it.2))) ∧
    (handle_add_document (fun _ => [0, 0, 0, 0]) [bytes "seg_000001"]
        (bytes "u") (bytes "T") (bytes "p")
        [bytes "hello", bytes "the", bytes "world", bytes "hello"]
        [bytes "world", bytes "hello"]).1.getD 2 ([], [])
      = (bytes "forward.bin", write_u32 1 ++ fwdRecordBytes
          (([bytes "world", bytes "hello"] :
              List (List Byte)).enum.map
            (fun it => (it.1, (filterTokens [bytes "hello",
              bytes "the", bytes "world",
              bytes "hello"]).count it.2)))) ∧
    (∀ tid, tid < ([bytes "world", bytes "hello"] :
        List (List Byte)).length →
      singleDocEntry [bytes "world", bytes "hello"]
          (sortBy pairLe
            (([bytes "world", bytes "hello"] :
                List (List Byte)).enum.map
              (fun it => (it.1, (filterTokens [bytes "hello",
                bytes "the", bytes "world",
                bytes "hello"]).count it.2)))) tid
        = some (([bytes "world", bytes "hello"] :
              List (List Byte)).getD tid [],
            [⟨0, (filterTokens [bytes "hello", bytes "the",
              bytes "world", bytes "hello"]).count
                (([bytes "world", bytes "hello"] :
                  List (List Byte)).getD tid [])⟩]) ∧
      0 < (filterTokens [bytes "hello", bytes "the", bytes "world",
          bytes "hello"]).count
        (([bytes "world", bytes "hello"] :
            List (List Byte)).getD tid [])) ∧
    (handle_add_document (fun _ => [0, 0, 0, 0]) [bytes "seg_000001"]
        (bytes "u") (bytes "T") (bytes "p")
        [bytes "hello", bytes "the", bytes "world", bytes "hello"]
        [bytes "world", bytes "hello"]).1.getLast?
      = some (bytes "manifest.bin", save_manifest ([bytes "seg_000001"]
          ++ [seg_name (([bytes "seg_000001"] :
            List (List Byte)).length + 1)])) ∧
    (∀ wr ∈ (handle_add_document (fun _ => [0, 0, 0, 0])
        [bytes "seg_000001"] (bytes "u") (bytes "T") (bytes "p")
        [bytes "hello", bytes "the", bytes "world", bytes "hello"]
        [bytes "world", bytes "hello"]).1.dropLast,
      wr.1 ≠ bytes "manifest.bin") ∧
    (handle_add_document (fun _ => [0, 0, 0, 0]) [bytes "seg_000001"]
        (bytes "u") (bytes "T") (bytes "p")
        [bytes "hello", bytes "the", bytes "world", bytes "hello"]
        [bytes "world", bytes "hello"]).2
      = [bytes "seg_000001"]
          ++ [seg_name (([bytes "seg_000001"] :
            List (List Byte)).length + 1)] ∧
    load_manifest (save_manifest ([bytes "seg_000001"]
        ++ [seg_name (([bytes "seg_000001"] :
          List (List Byte)).length + 1)]))
      = some ([bytes "seg_000001"]
          ++ [seg_name (([bytes "seg_000001"] :
            List (List Byte)).length + 1)])) :=
  ⟨by decide, by decide, by decide, by decide, by decide, by decide,
   C2_single_doc_append (fun _ => [0, 0, 0, 0]) [bytes "seg_000001"]
     (bytes "u") (bytes "T") (bytes "p")
     [bytes "hello", bytes "the", bytes "world", bytes "hello"]
     [bytes "world", bytes "hello"]
     (by decide) (by decide) (by decide) (by decide) (by decide)
     (by decide)⟩

/-! ## Engine::search front end -/

/-- C5 counterexample: the query "the" (its only token is a stopword)
with k = 10 on an engine with one segment and an empty cache returns
the early JSON skeleton, and that JSON has no "found" field — the
original claim's found = 0 is absent (Engine::search only assigns
out["found"] after the scoring loop, which the early return skips). -/
theorem C5_missing_found_counterexample :
    search_frontend 1 [] "the" 10
      = some (Json.jobj
          [(bytes "query", Json.jstr (bytes "the")),
           (bytes "k", Json.jint 10),
           (bytes "segments", Json.jint 1),
           (bytes "results", Json.jarr [])]) ∧
    ¬ bytes "found" ∈ jsonKeys (Json.jobj
          [(bytes "query", Json.jstr (bytes "the")),
           (bytes "k", Json.jint 10),
           (bytes "segments", Json.jint 1),
           (bytes "results", Json.jarr [])]) :=
  ⟨rfl, by decide⟩

/-- C5 (amended): for every query whose tokens are all removed by the
length-<2 and stopword filters and whose key misses the cache, "search"
returns the empty-results JSON holding exactly the fields query, k,
segments and results — and no "found" field. -/
theorem C5_empty_terms_early_return (segment_count : Nat)
    (cache : List (String × Json)) (query : String) (k : Int)
    (hmiss : cacheFind (make_cache_key query (max 1 (min k 100))) cache
      = none)
    (hempty : filterTokens (tokenize (bytes query)) = []) :
    search_frontend segment_count cache query k
      = some (Json.jobj
          [(bytes "query", Json.jstr (bytes query)),
           (bytes "k", Json.jint (max 1 (min k 100))),
           (bytes "segments", Json.jint segment_count),
           (bytes "results", Json.jarr [])]) ∧
    jsonKeys (Json.jobj
        [(bytes "query", Json.jstr (bytes query)),
         (bytes "k", Json.jint (max 1 (min k 100))),
         (bytes "segments", Json.jint segment_count),
         (bytes "results", Json.jarr [])])
      = [bytes "query", bytes "k", bytes "segments", bytes "results"] ∧
    jsonGet (Json.jobj
        [(bytes "query", Json.jstr (bytes query)),
         (bytes "k", Json.jint (max 1 (min k 100))),
         (bytes "segments", Json.jint segment_count),
         (bytes "results", Json.jarr [])]) (bytes "found") = none := by
  refine ⟨?_, rfl, rfl⟩
  simp only [search_frontend]
  rw [hmiss, hempty]
  rfl

/-- Witness for the amended C5 at query "the", k = 0, two segments. -/
theorem C5_empty_terms_early_return_witness :
    cacheFind (make_cache_key "the" (max 1 (min 0 100)))
      ([] : List (String × Json)) = none ∧
    filterTokens (tokenize (bytes "the")) = [] ∧
    (search_frontend 2 [] "the" 0
      = some (Json.jobj
          [(bytes "query", Json.jstr (bytes "the")),
           (bytes "k", Json.jint (max 1 (min 0 100))),
           (bytes "segments", Json.jint 2),
           (bytes "results", Json.jarr [])]) ∧
    jsonKeys (Json.jobj
        [(bytes "query", Json.jstr (bytes "the")),
         (bytes "k", Json.jint (max 1 (min 0 100))),
         (bytes "segments", Json.jint 2),
         (bytes "results", Json.jarr [])])
      = [bytes "query", bytes "k", bytes "segments", bytes "results"] ∧
    jsonGet (Json.jobj
        [(bytes "query", Json.jstr (bytes "the")),
         (bytes "k", Json.jint (max 1 (min 0 100))),
         (bytes "segments", Json.jint 2),
         (bytes "results", Json.jarr [])]) (bytes "found") = none) :=
  ⟨rfl, by decide,
   C5_empty_terms_early_return 2 [] "the" 0 rfl (by decide)⟩

/-! ## Query-time posting reads past end-of-file -/

/-- C4: a segment with N = 1 document whose lexicon entry promises
count = 1 postings at offset 0 of an empty (truncated) inverted file:
the posting loop reads past end-of-file, obtains the uninitialized
junk value (here 5) for both docId and tf, and records a score
accumulation at docId 5 — outside 0..N-1 — instead of contributing
zero and continuing.  read_u32 (indexio.hpp) never tests the stream
and the loop indexes seg.docs[docId] unchecked, so the spec's
safety sentence does not hold of the code. -/
theorem C4_posting_read_past_eof_out_of_range :
    score_events 5 [] 0 1 = [(5, 5)] ∧
    ¬ (∀ ev ∈ score_events 5 [] 0 1, ev.1 < 1) :=
  ⟨rfl, by decide⟩

/-- C3 counterexample: Engine::reload restores the search cache from
disk (load_cache), so after a single-document append + reload (the
engine now holds 2 segments) the query "hello" with k = 10, cached
before the append with the 1-segment answer, is returned verbatim from
the cache by Engine::search — a stale pre-append answer whose
"segments" field still says 1. -/
theorem C3_stale_cache_counterexample :
    cacheFind (make_cache_key "hello" 10)
      (load_cache [(make_cache_key "hello" 10,
        Json.jobj
          [(bytes "query", Json.jstr (bytes "hello")),
           (bytes "k", Json.jint 10),
           (bytes "segments", Json.jint 1),
           (bytes "found", Json.jint 0),
           (bytes "results", Json.jarr [])])]).cache
      = some (Json.jobj
          [(bytes "query", Json.jstr (bytes "hello")),
           (bytes "k", Json.jint 10),
           (bytes "segments", Json.jint 1),
           (bytes "found", Json.jint 0),
           (bytes "results", Json.jarr [])]) ∧
    search_frontend 2
      (load_cache [(make_cache_key "hello" 10,
        Json.jobj
          [(bytes "query", Json.jstr (bytes "hello")),
           (bytes "k", Json.jint 10),
           (bytes "segments", Json.jint 1),
           (bytes "found", Json.jint 0),
           (bytes "results", Json.jarr [])])]).cache
      "hello" 10
      = some (Json.jobj
          [(bytes "query", Json.jstr (bytes "hello")),
           (bytes "k", Json.jint 10),
           (bytes "segments", Json.jint 1),
           (bytes "found", Json.jint 0),
           (bytes "results", Json.jarr [])]) ∧
    jsonGet (Json.jobj
        [(bytes "query", Json.jstr (bytes "hello")),
         (bytes "k", Json.jint 10),
         (bytes "segments", Json.jint 1),
         (bytes "found", Json.jint 0),
         (bytes "results", Json.jarr [])]) (bytes "segments")
      = some (Json.jint 1) ∧
    (1 : Int) ≠ 2 :=
  ⟨rfl, rfl, rfl, by decide⟩

/-- C3 (amended): a query whose key is absent from the (possibly
disk-restored) cache is answered against the engine's current segment
list: either the front end falls through to the scoring loop over the
current segments, or its early return reports the current segment
count.  (Cached keys, by contrast, return the cached value verbatim —
see the counterexample.) -/
theorem C3_uncached_search_current_segments (segment_count : Nat)
    (cache : List (String × Json)) (query : String) (k : Int)
    (hmiss : cacheFind (make_cache_key query (max 1 (min k 100))) cache
      = none) :
    search_frontend segment_count cache query k = none ∨
    search_frontend segment_count cache query k
      = some (Json.jobj
          [(bytes "query", Json.jstr (bytes query)),
           (bytes "k", Json.jint (max 1 (min k 100))),
           (bytes "segments", Json.jint segment_count),
           (bytes "results", Json.jarr [])]) := by
  simp only [search_frontend, hmiss]
  by_cases h : ((filterTokens (tokenize (bytes query))).isEmpty
      || decide (segment_count = 0)) = true
  · right
    rw [if_pos h]
  · left
    rw [if_neg h]

/-- Witness for the amended C3: uncached query "hello" on a 2-segment
engine. -/
theorem C3_uncached_search_current_segments_witness :
    cacheFind (make_cache_key "hello" (max 1 (min 10 100)))
      ([] : List (String × Json)) = none ∧
    (search_frontend 2 [] "hello" 10 = none ∨
    search_frontend 2 [] "hello" 10
      = some (Json.jobj
          [(bytes "query", Json.jstr (bytes "hello")),
           (bytes "k", Json.jint (max 1 (min 10 100))),
           (bytes "segments", Json.jint 2),
           (bytes "results", Json.jarr [])])) :=
  ⟨rfl, C3_uncached_search_current_segments 2 [] "hello" 10 rfl⟩

/-! ## Autocomplete ranking order -/

theorem bytesLt_irrefl (a : List Byte) : bytesLt a a = false := by
  induction a with
  | nil => rfl
  | cons x xs ih =>
      unfold bytesLt
      rw [if_neg (Nat.lt_irrefl x), if_neg (Nat.lt_irrefl x)]
      exact ih

theorem bytesLt_trans (a : List Byte) :
    ∀ b c : List Byte, bytesLt a b = true → bytesLt b c = true →
      bytesLt a c = true := by
  induction a with
  | nil =>
      intro b c hab hbc
      cases b with
      | nil => cases hab
      | cons y ys =>
          cases c with
          | nil => cases hbc
          | cons z zs => rfl
  | cons x xs ih =>
      intro b c hab hbc
      cases b with
      | nil => cases hab
      | cons y ys =>
          cases c with
          | nil => cases hbc
          | cons z zs =>
              unfold bytesLt at hab hbc ⊢
              by_cases hxy : x < y
              · rw [if_pos hxy] at hab
                by_cases hyz : y < z
                · rw [if_pos (Nat.lt_trans hxy hyz)]
                · rw [if_neg hyz] at hbc
                  by_cases hzy : z < y
                  · rw [if_pos hzy] at hbc
                    cases hbc
                  · have hye : y = z := Nat.le_antisymm
                      (Nat.le_of_not_lt hzy) (Nat.le_of_not_lt hyz)
                    rw [if_pos (hye ▸ hxy)]
              · rw [if_neg hxy] at hab
                by_cases hyx : y < x
                · rw [if_pos hyx] at hab
                  cases hab
                · rw [if_neg hyx] at hab
                  have hxe : x = y := Nat.le_antisymm
                    (Nat.le_of_not_lt hyx) (Nat.le_of_not_lt hxy)
                  by_cases hyz : y < z
                  · rw [if_pos hyz] at hbc
                    rw [if_pos (hxe.symm ▸ hyz)]
                  · rw [if_neg hyz] at hbc
                    by_cases hzy : z < y
                    · rw [if_pos hzy] at hbc
                      cases hbc
                    · rw [if_neg hzy] at hbc
                      have hye : y = z := Nat.le_antisymm
                        (Nat.le_of_not_lt hzy) (Nat.le_of_not_lt hyz)
                      have hxz : x = z := hxe.trans hye
                      rw [if_neg (by rw [hxz]; exact Nat.lt_irrefl z),
                        if_neg (by rw [hxz]; exact Nat.lt_irrefl z)]
                      exact ih ys zs hab hbc

theorem bytesLt_trichotomy (a : List Byte) :
    ∀ b : List Byte, a = b ∨ bytesLt a b = true ∨ bytesLt b a = true := by
  induction a with
  | nil =>
      intro b
      cases b with
      | nil => exact Or.inl rfl
      | cons y ys => exact Or.inr (Or.inl rfl)
  | cons x xs ih =>
      intro b
      cases b with
      | nil => exact Or.inr (Or.inr rfl)
      | cons y ys =>
          by_cases hxy : x < y
          · refine Or.inr (Or.inl ?_)
            unfold bytesLt
            rw [if_pos hxy]
          · by_cases hyx : y < x
            · refine Or.inr (Or.inr ?_)
              unfold bytesLt
              rw [if_pos hyx]
            · have hxe : x = y := Nat.le_antisymm
                (Nat.le_of_not_lt hyx) (Nat.le_of_not_lt hxy)
              rcases ih ys with h | h | h
              · exact Or.inl (by rw [hxe, h])
              · refine Or.inr (Or.inl ?_)
                unfold bytesLt
                rw [if_neg hxy, if_neg hyx]
                exact h
              · refine Or.inr (Or.inr ?_)
                unfold bytesLt
                rw [if_neg hyx, if_neg hxy]
                exact h

theorem term_before_iff (a b : List Byte × Nat) :
    term_before a b = true ↔
      b.2 < a.2 ∨ (a.2 = b.2 ∧ bytesLt a.1 b.1 = true) := by
  unfold term_before
  by_cases hs : a.2 = b.2
  · rw [if_neg (by omega)]
    constructor
    · intro h
      exact Or.inr ⟨hs, h⟩
    · rintro (h | ⟨_, h⟩)
      · omega
      · exact h
  · rw [if_pos hs]
    constructor
    · intro h
      exact Or.inl (by simpa using h)
    · rintro (h | ⟨h, _⟩)
      · exact decide_eq_true h
      · exact absurd h hs

theorem term_order_total (a b : List Byte × Nat) :
    term_order a b = true ∨ term_order b a = true := by
  by_cases h1 : term_before b a = true
  · right
    unfold term_order
    rw [Bool.not_eq_true', Bool.eq_false_iff]
    intro h2
    rw [term_before_iff] at h1 h2
    rcases h1 with h1 | ⟨he1, hl1⟩
    · rcases h2 with h2 | ⟨he2, _⟩ <;> omega
    · rcases h2 with h2 | ⟨he2, hl2⟩
      · omega
      · have h3 := bytesLt_trans b.1 a.1 b.1 hl1 hl2
        rw [bytesLt_irrefl] at h3
        cases h3
  · left
    unfold term_order
    rw [Bool.not_eq_true']
    exact Bool.eq_false_iff.mpr h1

theorem term_order_trans (a b c : List Byte × Nat)
    (hab : term_order a b = true) (hbc : term_order b c = true) :
    term_order a c = true := by
  unfold term_order at hab hbc ⊢
  rw [Bool.not_eq_true', Bool.eq_false_iff] at hab hbc ⊢
  intro hca
  rw [term_before_iff] at hca
  apply hab
  rw [term_before_iff]
  have hcb2 : ¬ (b.2 < c.2 ∨ (c.2 = b.2 ∧ bytesLt c.1 b.1 = true)) := by
    rw [← term_before_iff]
    exact hbc
  push_neg at hcb2
  rcases hca with h | ⟨he, hl⟩
  · left
    have := hcb2.1
    omega
  · by_cases hcbs : c.2 = b.2
    · have hnlt := hcb2.2 hcbs
      rcases bytesLt_trichotomy c.1 b.1 with h1 | h1 | h1
      · refine Or.inr ⟨by omega, ?_⟩
        rw [← h1]
        exact hl
      · exact absurd h1 hnlt
      · refine Or.inr ⟨by omega, ?_⟩
        exact bytesLt_trans b.1 c.1 a.1 h1 hl
    · left
      have := hcb2.1
      omega

theorem cand_order_eq (terms : List (List Byte)) (a b : Nat × Nat) :
    cand_order terms a b
      = term_order (terms.getD a.1 [], a.2) (terms.getD b.1 [], b.2) :=
  rfl

theorem take_take_append {α : Type} (l : List α) (c : α) (n : Nat) :
    (l.take n ++ [c]).take n = (l ++ [c]).take n := by
  by_cases h : n ≤ l.length
  · rw [List.take_append_of_le_length h,
      List.take_append_of_le_length (by rw [List.length_take]; omega),
      List.take_take, Nat.min_self]
  · have h1 : l.take n = l := List.take_of_length_le (by omega)
    rw [h1]

theorem update_fold_aux (terms : List (List Byte)) (max_top : Nat) :
    ∀ (cs processed : List (Nat × Nat)),
      List.Pairwise (fun a b : Nat × Nat => a.1 < b.1)
        (processed ++ cs) →
      List.Pairwise (fun a b => cand_order terms a b = true)
        (processed ++ cs) →
      cs.foldl (update_top terms max_top) (processed.take max_top)
        = (processed ++ cs).take max_top := by
  intro cs
  induction cs with
  | nil =>
      intro processed _ _
      rw [List.foldl_nil, List.append_nil]
  | cons c cs ih =>
      intro processed hidx hord
      rw [List.foldl_cons]
      have hstep : update_top terms max_top (processed.take max_top) c
          = (processed ++ [c]).take max_top := by
        unfold update_top
        have hnodup : (processed.take max_top).any
            (fun e => e.1 == c.1) = false := by
          rw [List.any_eq_false]
          intro e he
          have hmem : e ∈ processed :=
            (List.take_sublist max_top processed).subset he
          have hlt := (List.pairwise_append.mp hidx).2.2 e hmem c
            (by simp)
          simp only [beq_iff_eq]
          omega
        rw [hnodup]
        simp only [Bool.false_eq_true, if_false]
        have hsorted : List.Pairwise
            (fun a b => cand_order terms a b = true)
            (processed.take max_top ++ [c]) := by
          rw [List.pairwise_append]
          refine ⟨List.Pairwise.sublist (List.take_sublist _ _)
            (List.pairwise_append.mp hord).1,
            List.pairwise_singleton _ _, ?_⟩
          intro a ha b hb
          rw [List.mem_singleton] at hb
          subst hb
          exact (List.pairwise_append.mp hord).2.2 a
            ((List.take_sublist _ _).subset ha) b (by simp)
        rw [sortBy_of_sorted _ _ hsorted, take_take_append]
      rw [hstep]
      have h2 := ih (processed ++ [c])
        (by rw [← List.append_cons]; exact hidx)
        (by rw [← List.append_cons]; exact hord)
      rw [h2, ← List.append_cons]

theorem enum_fst_pairwise {α : Type} (l : List α) :
    List.Pairwise (fun a b : Nat × α => a.1 < b.1) l.enum := by
  have h2 := List.pairwise_lt_range l.length
  rw [← List.enum_map_fst l] at h2
  exact List.pairwise_map.mp h2

theorem node_top_closed (terms : List (List Byte)) (scores : List Nat)
    (max_top : Nat) (p : List Byte)
    (hord : List.Pairwise (fun a b => cand_order terms a b = true)
      ((terms.enum.filter (fun it => p.isPrefixOf it.2)).map
        (fun it => (it.1, scores.getD it.1 0)))) :
    node_top terms scores max_top p
      = ((terms.enum.filter (fun it => p.isPrefixOf it.2)).map
          (fun it => (it.1, scores.getD it.1 0))).take max_top := by
  have hidx : List.Pairwise (fun a b : Nat × Nat => a.1 < b.1)
      ((terms.enum.filter (fun it => p.isPrefixOf it.2)).map
        (fun it => (it.1, scores.getD it.1 0))) := by
    rw [List.pairwise_map]
    exact List.Pairwise.sublist (List.filter_sublist _)
      (enum_fst_pairwise terms)
  have h := update_fold_aux terms max_top
    ((terms.enum.filter (fun it => p.isPrefixOf it.2)).map
      (fun it => (it.1, scores.getD it.1 0))) []
    (by rw [List.nil_append]; exact hidx)
    (by rw [List.nil_append]; exact hord)
  rw [List.take_nil, List.nil_append] at h
  exact h

theorem sorted_cand_pairwise (sorted : List (List Byte × Nat))
    (hsorted : List.Pairwise (fun a b => term_order a b = true) sorted)
    (p : List Byte) :
    List.Pairwise
      (fun a b => cand_order (sorted.map Prod.fst) a b = true)
      (((sorted.map Prod.fst).enum.filter
          (fun it => p.isPrefixOf it.2)).map
        (fun it => (it.1, (sorted.map Prod.snd).getD it.1 0))) := by
  apply List.pairwise_map.mpr
  apply List.Pairwise.sublist (List.filter_sublist _)
  rw [List.pairwise_iff_getElem]
  intro i j hi hj hij
  have hlen : (sorted.map Prod.fst).enum.length = sorted.length := by
    rw [List.enum_length, List.length_map]
  rw [hlen] at hi hj
  rw [List.getElem_enum, List.getElem_enum]
  show cand_order (sorted.map Prod.fst)
    (i, (sorted.map Prod.snd).getD i 0)
    (j, (sorted.map Prod.snd).getD j 0) = true
  rw [cand_order_eq]
  have hterm : ∀ m, ∀ hm : m < sorted.length,
      (sorted.map Prod.fst).getD m [] = (sorted.get ⟨m, hm⟩).1 := by
    intro m hm
    rw [List.getD_eq_getElem?_getD, List.getElem?_map,
      List.getElem?_eq_getElem hm]
    rfl
  have hscore : ∀ m, ∀ hm : m < sorted.length,
      (sorted.map Prod.snd).getD m 0 = (sorted.get ⟨m, hm⟩).2 := by
    intro m hm
    rw [List.getD_eq_getElem?_getD, List.getElem?_map,
      List.getElem?_eq_getElem hm]
    rfl
  rw [hterm i hi, hterm j hj, hscore i hi, hscore j hj,
    Prod.mk.eta, Prod.mk.eta]
  exact List.pairwise_iff_getElem.mp hsorted i j hi hj hij

/-- C8: on the built autocomplete index (max 10 candidates per prefix),
for every raw input whose last alphanumeric run normalizes to a prefix
present in the trie and every limit in 1..10, suggest_query returns
exactly the indexed terms starting with that prefix, in the table's
order, truncated to the limit, each prefixed by the untouched text
before the run; the candidate list for the prefix is ranked by (score
descending, term ascending); and the table's terms are exactly the
normalized terms of the input map that kept length ≥ 2. -/
theorem C8_autocomplete_topk
    (term_to_score : List (List Byte × Nat)) (user_input : List Byte)
    (limit : Nat) (hlim1 : 1 ≤ limit) (hlim10 : limit ≤ 10)
    (hpne : normalize_token (last_alnum_run user_input).2 ≠ [])
    (hfound : ∃ t ∈ (ac_build term_to_score 10).1,
      (normalize_token (last_alnum_run user_input).2).isPrefixOf t
        = true) :
    suggest_query (ac_build term_to_score 10).1
        (ac_build term_to_score 10).2.1
        (ac_build term_to_score 10).2.2 user_input limit
      = (((ac_build term_to_score 10).1.enum.filter
            (fun it => (normalize_token
              (last_alnum_run user_input).2).isPrefixOf it.2)).take
          limit).map
          (fun it => (last_alnum_run user_input).1 ++ it.2) ∧
    List.Pairwise
      (fun a b => cand_order (ac_build term_to_score 10).1 a b = true)
      (((ac_build term_to_score 10).1.enum.filter
          (fun it => (normalize_token
            (last_alnum_run user_input).2).isPrefixOf it.2)).map
        (fun it => (it.1,
          (ac_build term_to_score 10).2.1.getD it.1 0))) ∧
    ((ac_build term_to_score 10).1).Perm
      ((term_to_score.filterMap (fun kv =>
        if (normalize_token kv.1).length < 2 then none
        else some (normalize_token kv.1, kv.2))).map Prod.fst) := by
  have hsorted := sortBy_pairwise term_order term_order_trans
    term_order_total (term_to_score.filterMap (fun kv =>
      if (normalize_token kv.1).length < 2 then none
      else some (normalize_token kv.1, kv.2)))
  have hcand := sorted_cand_pairwise
    (sortBy term_order (term_to_score.filterMap (fun kv =>
      if (normalize_token kv.1).length < 2 then none
      else some (normalize_token kv.1, kv.2))))
    hsorted (normalize_token (last_alnum_run user_input).2)
  refine ⟨?_, hcand, (sortBy_perm term_order _).map Prod.fst⟩
  obtain ⟨t0, ht0, hpref0⟩ := hfound
  have hne : (ac_build term_to_score 10).1.isEmpty = false := by
    rw [List.isEmpty_eq_false]
    intro hc
    rw [hc] at ht0
    cases ht0
  have hl0 : decide (limit = 0) = false := decide_eq_false (by omega)
  have hpe : (normalize_token
      (last_alnum_run user_input).2).isEmpty = false := by
    rw [List.isEmpty_eq_false]
    exact hpne
  have hlook : lookup_exists (ac_build term_to_score 10).1
      (normalize_token (last_alnum_run user_input).2) = true := by
    unfold lookup_exists
    rw [hpe, Bool.false_or]
    exact List.any_eq_true.mpr ⟨t0, ht0, hpref0⟩
  simp only [suggest_query]
  rw [if_neg (by rw [hne, hl0]; decide)]
  rw [if_neg (by rw [hpe]; decide)]
  rw [if_neg (by rw [hlook]; decide)]
  rw [node_top_closed (ac_build term_to_score 10).1
    (ac_build term_to_score 10).2.1 (ac_build term_to_score 10).2.2
    (normalize_token (last_alnum_run user_input).2) hcand]
  have htake : ∀ l : List (Nat × Nat),
      l.take (min limit l.length) = l.take limit := by
    intro l
    by_cases h : limit ≤ l.length
    · rw [Nat.min_eq_left h]
    · rw [Nat.min_eq_right (by omega), List.take_length,
        List.take_of_length_le (by omega)]
  rw [htake]
  have hmt : (ac_build term_to_score 10).2.2 = 10 := rfl
  rw [hmt, List.take_take, Nat.min_eq_left hlim10, ← List.map_take,
    List.map_map]
  apply List.map_congr_left
  intro it hit
  have hmem : it ∈ (ac_build term_to_score 10).1.enum := by
    have h1 := (List.take_sublist limit _).subset hit
    exact (List.mem_filter.mp h1).1
  have hgd : (ac_build term_to_score 10).1.getD it.1 [] = it.2 := by
    rw [List.getD_eq_getElem?_getD,
      List.mem_enum_iff_getElem?.mp hmem]
    rfl
  simp only [Function.comp_apply]
  rw [hgd]

/-- Witness for C8: three terms (hello:5, help:7, world:3), raw input
"searching hel", limit 2. -/
theorem C8_autocomplete_topk_witness :
    1 ≤ 2 ∧ 2 ≤ 10 ∧
    normalize_token (last_alnum_run (bytes "searching hel")).2 ≠ [] ∧
    (∃ t ∈ (ac_build [(bytes "hello", 5), (bytes "help", 7),
        (bytes "world", 3)] 10).1,
      (normalize_token
        (last_alnum_run (bytes "searching hel")).2).isPrefixOf t
        = true) ∧
    (suggest_query
        (ac_build [(bytes "hello", 5), (bytes "help", 7),
          (bytes "world", 3)] 10).1
        (ac_build [(bytes "hello", 5), (bytes "help", 7),
          (bytes "world", 3)] 10).2.1
        (ac_build [(bytes "hello", 5), (bytes "help", 7),
          (bytes "world", 3)] 10).2.2 (bytes "searching hel") 2
      = (((ac_build [(bytes "hello", 5), (bytes "help", 7),
            (bytes "world", 3)] 10).1.enum.filter
            (fun it => (normalize_token
              (last_alnum_run (bytes "searching hel")).2).isPrefixOf
                it.2)).take 2).map
          (fun it =>
            (last_alnum_run (bytes "searching hel")).1 ++ it.2) ∧
    List.Pairwise
      (fun a b => cand_order (ac_build [(bytes "hello", 5),
        (bytes "help", 7), (bytes "world", 3)] 10).1 a b = true)
      (((ac_build [(bytes "hello", 5), (bytes "help", 7),
          (bytes "world", 3)] 10).1.enum.filter
          (fun it => (normalize_token
            (last_alnum_run (bytes "searching hel")).2).isPrefixOf
              it.2)).map
        (fun it => (it.1,
          (ac_build [(bytes "hello", 5), (bytes "help", 7),
            (bytes "world", 3)] 10).2.1.getD it.1 0))) ∧
    ((ac_build [(bytes "hello", 5), (bytes "help", 7),
        (bytes "world", 3)] 10).1).Perm
      (([(bytes "hello", 5), (bytes "help", 7),
        (bytes "world", 3)].filterMap (fun kv =>
        if (normalize_token kv.1).length < 2 then none
        else some (normalize_token kv.1, kv.2))).map Prod.fst)) :=
  ⟨by decide, by decide, by decide, by decide,
   C8_autocomplete_topk
     [(bytes "hello", 5), (bytes "help", 7), (bytes "world", 3)]
     (bytes "searching hel") 2 (by decide) (by decide) (by decide)
     (by decide)⟩
